import Mathlib

/-!
# RapidStore B-tree index: a shallow embedding of `btree/btree.go`

The Go code keeps the tree as nodes linked by pointers and mutates them in
place under one lock.  No node is ever reachable from two parents, so the
embedding is a plain functional tree: every mutating method returns the new
node (or tree) instead of writing through a pointer.  A run-time panic of the
Go code (an index or slice bound out of range) is the result
`Except.error Fault.indexOutOfRange`.

Go strings are byte sequences compared byte by byte.  Keys and values are
modelled by Lean strings, compared character by character on their code
points; on valid UTF-8 the two orders are the same.
-/

namespace RapidStore

/-! ## Data model -/

/-- Minimum degree of the B-tree (`degree` in `btree.go`). -/
def degree : Nat := 4

/-- Ways in which a call can fail to return a value. `indexOutOfRange` is the
Go run-time panic; `outOfFuel` belongs to the embedding only (the recursion of
`insertNonFull` is bounded by a counter). -/
inductive Fault where
  | indexOutOfRange
  | outOfFuel
deriving DecidableEq, Repr

/-- A key-value pair (`Item` in `btree.go`). -/
structure Item where
  Key : String
  Value : String
deriving DecidableEq, Repr

/-- A node of the B-tree (`Node` in `btree.go`): its items, its children and
the leaf flag. -/
inductive Node where
  | mk (Items : List Item) (Children : List Node) (IsLeaf : Bool)
deriving Repr

/-- Field `Items` of a node. -/
def Node.Items : Node → List Item
  | .mk items _ _ => items

/-- Field `Children` of a node. -/
def Node.Children : Node → List Node
  | .mk _ children _ => children

/-- Field `IsLeaf` of a node. -/
def Node.IsLeaf : Node → Bool
  | .mk _ _ leaf => leaf

/-- The index structure (`BTree` in `btree.go`); the lock is not modelled, calls
are taken one at a time. -/
structure BTree where
  root : Node
deriving Repr

/-- Function `NewBTree`: a tree whose root is an empty leaf. -/
def NewBTree : BTree := ⟨.mk [] [] true⟩

/-- Go's `strings.Compare(a, b)`: 0 when equal, -1 when `a` sorts before `b`,
+1 otherwise. -/
def stringsCompare (a b : String) : Int :=
  if a = b then 0 else if a.toList < b.toList then -1 else 1

/-- Indexing `xs[i]` with Go's bounds check. -/
def index {α : Type} (xs : List α) (i : Nat) : Except Fault α :=
  match xs[i]? with
  | some x => .ok x
  | none => .error .indexOutOfRange

/-! ## Search and lookup -/

/-- The loop of `Node.search` over the items from position `i` on. -/
def searchFrom (key : String) : List Item → Nat → Nat
  | [], i => i
  | it :: rest, i => if stringsCompare key it.Key ≤ 0 then i else searchFrom key rest (i + 1)

/-- Method `Node.search`: the first index whose key is not below `key`, or
`len(n.Items)`. -/
def Node.search (n : Node) (key : String) : Nat :=
  searchFrom key n.Items 0

/-- The test `i < len(node.Items) && node.Items[i].Key == key`. -/
def keyAt (items : List Item) (i : Nat) (key : String) : Bool :=
  match items[i]? with
  | some it => it.Key == key
  | none => false

mutual
/-- The loop of `BTree.Get`, started at a node. -/
def Node.get : Node → String → Except Fault (String × Bool)
  | .mk items children leaf, key =>
    let i := searchFrom key items 0
    if keyAt items i key then
      match items[i]? with
      | some it => .ok (it.Value, true)
      | none => .error .indexOutOfRange
    else if leaf then .ok ("", false)
    else getChild children i key
/-- The step `node = node.Children[i]` of the loop of `BTree.Get`, then the loop
again. -/
def getChild : List Node → Nat → String → Except Fault (String × Bool)
  | [], _, _ => .error .indexOutOfRange
  | c :: _, 0, key => c.get key
  | _ :: cs, i + 1, key => getChild cs i key
end

/-- Method `BTree.Get`. -/
def BTree.Get (t : BTree) (key : String) : Except Fault (String × Bool) :=
  t.root.get key

/-! ## Insertion -/

/-- Method `Node.splitChild`: child `i` keeps the items before the median (and
the children up to it), a new sibling takes the items after the median (and the
other children), the median item and the sibling enter the parent at `i` and
`i + 1`. -/
def Node.splitChild (n : Node) (i : Nat) : Except Fault Node := do
  let child ← index n.Children i
  let medianIdx := degree - 1
  let medianItem ← index child.Items medianIdx
  let newItems := child.Items.drop (medianIdx + 1)
  let keptItems := child.Items.take medianIdx
  let halves ←
    if child.IsLeaf then
      pure (child.Children, ([] : List Node))
    else if medianIdx + 1 ≤ child.Children.length then
      pure (child.Children.take (medianIdx + 1), child.Children.drop (medianIdx + 1))
    else
      throw Fault.indexOutOfRange
  let kept := Node.mk keptItems halves.1 child.IsLeaf
  let newChild := Node.mk newItems halves.2 child.IsLeaf
  if i ≤ n.Items.length then
    pure (Node.mk (n.Items.take i ++ medianItem :: n.Items.drop i)
      (n.Children.take i ++ kept :: newChild :: n.Children.drop (i + 1)) n.IsLeaf)
  else
    throw Fault.indexOutOfRange

/-- The loop of `Node.findKey` over the items from position `i` on. -/
def findKeyFrom (key : String) : List Item → Nat → Nat × Bool
  | [], i => (i, false)
  | it :: rest, i =>
    if it.Key = key then (i, true)
    else if stringsCompare key it.Key < 0 then (i, false)
    else findKeyFrom key rest (i + 1)

/-- Method `Node.findKey`. -/
def Node.findKey (n : Node) (key : String) : Nat × Bool :=
  findKeyFrom key n.Items 0

/-- The assignment `n.Items[idx].Value = value`. -/
def setValue (items : List Item) (idx : Nat) (value : String) : List Item :=
  items.modify (fun it => { it with Value := value }) idx

/-- The shifting loop of the leaf branch of `insertNonFull`; the counter is
`i + 1`, so that `0` stands for `i = -1`.  Returns the final `i + 1` and the
shifted items. -/
def shiftLoop (key : String) : Nat → List Item → Nat × List Item
  | 0, items => (0, items)
  | i + 1, items =>
    match items[i]? with
    | some it =>
      if stringsCompare key it.Key < 0 then shiftLoop key i (items.set (i + 1) it)
      else (i + 1, items)
    | none => (i + 1, items)

/-- The leaf branch of `insertNonFull` for a key that `findKey` did not find:
append a zero item, shift the larger items right, write the new item. -/
def leafInsert (items : List Item) (key value : String) : List Item :=
  let r := shiftLoop key items.length (items ++ [⟨"", ""⟩])
  r.2.set r.1 ⟨key, value⟩

/-- Method `Node.insertNonFull`.  The first argument bounds the depth of the
recursion. -/
def Node.insertNonFull : Nat → Node → String → String → Except Fault Node
  | 0, _, _, _ => .error .outOfFuel
  | fuel + 1, .mk items children leaf, key, value =>
    if leaf then
      match findKeyFrom key items 0 with
      | (idx, true) => .ok (.mk (setValue items idx value) children leaf)
      | (_, false) => .ok (.mk (leafInsert items key value) children leaf)
    else
      let i := searchFrom key items 0
      if keyAt items i key then
        .ok (.mk (setValue items i value) children leaf)
      else
        match children[i]? with
        | none => .error .indexOutOfRange
        | some c =>
          if c.Items.length = 2 * degree - 1 then
            match Node.splitChild (.mk items children leaf) i with
            | .error e => .error e
            | .ok n1 =>
              match n1.Items[i]? with
              | none => .error .indexOutOfRange
              | some m =>
                let j := if stringsCompare key m.Key > 0 then i + 1 else i
                match n1.Children[j]? with
                | none => .error .indexOutOfRange
                | some c1 =>
                  match Node.insertNonFull fuel c1 key value with
                  | .error e => .error e
                  | .ok c2 => .ok (.mk n1.Items (n1.Children.set j c2) n1.IsLeaf)
          else
            match Node.insertNonFull fuel c key value with
            | .error e => .error e
            | .ok c2 => .ok (.mk items (children.set i c2) leaf)

mutual
/-- Number of levels under a node, the node included. -/
def Node.height : Node → Nat
  | .mk _ children _ => heightList children + 1
/-- Largest height among a list of nodes. -/
def heightList : List Node → Nat
  | [] => 0
  | c :: cs => max c.height (heightList cs)
end

/-- Method `BTree.Set`.  The recursion of `insertNonFull` is given as many steps
as the tree it starts from has levels, which is always enough
(`set_ne_outOfFuel`).  Go's `Set` returns a nil error whenever it returns. -/
def BTree.Set (t : BTree) (key value : String) : Except Fault BTree :=
  let root := t.root
  if root.Items.length = 2 * degree - 1 then
    match Node.splitChild (.mk [] [root] false) 0 with
    | .error e => .error e
    | .ok newRoot =>
      match Node.insertNonFull newRoot.height newRoot key value with
      | .error e => .error e
      | .ok r => .ok ⟨r⟩
  else
    match Node.insertNonFull root.height root key value with
    | .error e => .error e
    | .ok r => .ok ⟨r⟩

/-! ## Ordered traversal -/

mutual
/-- The closure `traverse` of `BTree.List`. -/
def Node.traverse : Node → Except Fault (List String)
  | .mk items children leaf =>
    if leaf then .ok (items.map Item.Key) else traverseFrom items children
/-- The loop of `traverse` on an internal node: child, item, child, ..., and
the child after the last item. -/
def traverseFrom : List Item → List Node → Except Fault (List String)
  | _, [] => .error .indexOutOfRange
  | [], c :: _ => c.traverse
  | it :: its, c :: cs =>
    match c.traverse with
    | .error e => .error e
    | .ok ks =>
      match traverseFrom its cs with
      | .error e => .error e
      | .ok rest => .ok (ks ++ it.Key :: rest)
end

/-- Method `BTree.List`. -/
def BTree.List (t : BTree) : Except Fault (List String) :=
  t.root.traverse

/-! ## Deletion -/

mutual
/-- The search loop of `BTree.Delete`: the indices recorded from this node down
to the node that holds the key, or `none` where the loop returns false at a
leaf. -/
def Node.findPath : Node → String → Except Fault (Option (List Nat))
  | .mk items children leaf, key =>
    let i := searchFrom key items 0
    if keyAt items i key then .ok (some [i])
    else if leaf then .ok none
    else
      match findPathChild children i key with
      | .error e => .error e
      | .ok none => .ok none
      | .ok (some p) => .ok (some (i :: p))
/-- The step `node = node.Children[i]` of the search loop of `BTree.Delete`. -/
def findPathChild : List Node → Nat → String → Except Fault (Option (List Nat))
  | [], _, _ => .error .indexOutOfRange
  | c :: _, 0, key => c.findPath key
  | _ :: cs, i + 1, key => findPathChild cs i key
end

mutual
/-- The predecessor loop of `BTree.Delete` followed by the removal of the last
item of the leaf it ends in: the removed item and the node without it. -/
def Node.popLast : Node → Except Fault (Item × Node)
  | .mk items children leaf =>
    if leaf then
      match items.getLast? with
      | none => .error .indexOutOfRange
      | some it => .ok (it, .mk items.dropLast children leaf)
    else
      match popLastChild children with
      | .error e => .error e
      | .ok (it, cs) => .ok (it, .mk items cs leaf)
/-- The step `predecessor = predecessor.Children[len(predecessor.Children)-1]`. -/
def popLastChild : List Node → Except Fault (Item × List Node)
  | [] => .error .indexOutOfRange
  | [c] =>
    match c.popLast with
    | .error e => .error e
    | .ok (it, c1) => .ok (it, [c1])
  | c :: d :: cs =>
    match popLastChild (d :: cs) with
    | .error e => .error e
    | .ok (it, rest) => .ok (it, c :: rest)
end

/-- The part of `BTree.Delete` after the search loop, at the node that holds the
key at `keyIndex`: a leaf drops the item; an internal node overwrites it with
the last item of the rightmost leaf under `Children[keyIndex]`, which loses
that item. -/
def Node.removeItem (n : Node) (keyIndex : Nat) : Except Fault Node :=
  if n.IsLeaf then
    if keyIndex < n.Items.length then
      .ok (.mk (n.Items.eraseIdx keyIndex) n.Children n.IsLeaf)
    else .error .indexOutOfRange
  else
    match n.Children[keyIndex]? with
    | none => .error .indexOutOfRange
    | some c =>
      match c.popLast with
      | .error e => .error e
      | .ok (it, c1) =>
        if keyIndex < n.Items.length then
          .ok (.mk (n.Items.set keyIndex it) (n.Children.set keyIndex c1) n.IsLeaf)
        else .error .indexOutOfRange

/-- The tree after `removeItem` has run at the node `path[len(path)-1]`, which is
reached from `n` along the recorded indices; the last index is `keyIndex`. -/
def Node.removeAt : Node → List Nat → Except Fault Node
  | _, [] => .error .indexOutOfRange
  | n, [keyIndex] => n.removeItem keyIndex
  | n, i :: j :: rest =>
    match n.Children[i]? with
    | none => .error .indexOutOfRange
    | some c =>
      match Node.removeAt c (j :: rest) with
      | .error e => .error e
      | .ok c1 => .ok (.mk n.Items (n.Children.set i c1) n.IsLeaf)

/-- Method `BTree.Delete`: the returned flag and the tree afterwards.  The search
loop is `findPath`; `len(path) == 0` returns false; the rest is `removeAt`. -/
def BTree.Delete (t : BTree) (key : String) : Except Fault (Bool × BTree) :=
  match t.root.findPath key with
  | .error e => .error e
  | .ok none => .ok (false, t)
  | .ok (some p) =>
    if p.length = 0 then .ok (false, t)
    else
      match t.root.removeAt p with
      | .error e => .error e
      | .ok r => .ok (true, ⟨r⟩)

/-! ## Sequences of calls -/

/-- A call of `Set` or `Delete`. -/
inductive Op where
  | set (key value : String)
  | delete (key : String)
deriving DecidableEq, Repr

/-- One call applied to a tree. -/
def BTree.apply (t : BTree) : Op → Except Fault BTree
  | .set k v => t.Set k v
  | .delete k =>
    match t.Delete k with
    | .error e => .error e
    | .ok (_, t1) => .ok t1

/-- A finite sequence of calls applied in order; a panic ends the run. -/
def run (t : BTree) : List Op → Except Fault BTree
  | [] => .ok t
  | op :: ops =>
    match t.apply op with
    | .error e => .error e
    | .ok t1 => run t1 ops

/-- The calls `Set(k, v)` for a list of pairs, in order. -/
def sets (kvs : List (String × String)) : List Op :=
  kvs.map (fun kv => Op.set kv.1 kv.2)

/-- The calls `Delete(k)` for a list of keys, in order. -/
def deletes (ks : List String) : List Op :=
  ks.map Op.delete

/-! ## Observations on a tree, used to state the invariants -/

mutual
/-- In-order sequence of the items under a node: child, item, child, ..., child. -/
def Node.inorder : Node → List Item
  | .mk items children leaf => if leaf then items else interleave items children
/-- In-order sequence of an internal node with these items and children. -/
def interleave : List Item → List Node → List Item
  | _, [] => []
  | [], c :: _ => c.inorder
  | it :: its, c :: cs => c.inorder ++ it :: interleave its cs
end

mutual
/-- All nodes strictly below a node. -/
def Node.descendants : Node → List Node
  | .mk _ children _ => descendantsList children
/-- The nodes of a list together with all nodes below them. -/
def descendantsList : List Node → List Node
  | [] => []
  | c :: cs => c :: (c.descendants ++ descendantsList cs)
end

mutual
/-- Depth of every leaf under a node, the node itself being at depth 1. -/
def Node.leafDepths : Node → List Nat
  | .mk _ children leaf => if leaf then [1] else (leafDepthsList children).map (· + 1)
/-- Depths of the leaves under a list of nodes. -/
def leafDepthsList : List Node → List Nat
  | [] => []
  | c :: cs => c.leafDepths ++ leafDepthsList cs
end

/-- Every leaf under the node is at the same depth. -/
def Node.leavesLevel (n : Node) : Prop :=
  ∀ a ∈ n.leafDepths, ∀ b ∈ n.leafDepths, a = b

instance (n : Node) : Decidable n.leavesLevel := by
  unfold Node.leavesLevel; infer_instance

/-- Every node other than the root `n` holds between `degree - 1` and
`2 * degree - 1` items. -/
def Node.nonRootFill (n : Node) : Prop :=
  ∀ c ∈ n.descendants, degree - 1 ≤ c.Items.length ∧ c.Items.length ≤ 2 * degree - 1

instance (n : Node) : Decidable n.nonRootFill := by
  unfold Node.nonRootFill; infer_instance

/-! ## Invariants -/

/-- The node that `splitChild` leaves in place of a full child `c`: the items
before the median and, for an internal node, the children up to it. -/
def Node.lowerHalf (c : Node) : Node :=
  .mk (c.Items.take (degree - 1))
    (if c.IsLeaf then c.Children else c.Children.take degree) c.IsLeaf

/-- The sibling that `splitChild` creates from a full child `c`: the items after
the median and, for an internal node, the children after it. -/
def Node.upperHalf (c : Node) : Node :=
  .mk (c.Items.drop degree)
    (if c.IsLeaf then [] else c.Children.drop degree) c.IsLeaf

/-- Shape of a subtree whose leaves all lie `h` levels down: a leaf has no
children; an internal node has at least one item, one child more than items,
and every child holds between `lo` and `2 * degree - 1` items and has the same
shape one level down. -/
inductive Balanced (lo : Nat) : Nat → Node → Prop
  | leaf (items : List Item) : Balanced lo 1 (.mk items [] true)
  | node (items : List Item) (children : List Node) (h : Nat) :
      1 ≤ items.length →
      children.length = items.length + 1 →
      (∀ c ∈ children, Balanced lo h c) →
      (∀ c ∈ children, lo ≤ c.Items.length ∧ c.Items.length ≤ 2 * degree - 1) →
      Balanced lo (h + 1) (.mk items children false)

/-- Shape of a whole tree: the root is balanced and holds at most
`2 * degree - 1` items. -/
def BTree.WellShaped (lo : Nat) (t : BTree) : Prop :=
  ∃ h, Balanced lo h t.root ∧ t.root.Items.length ≤ 2 * degree - 1

/-- In-order items of the children paired with the item that follows each: child,
item, child, item, ..., item. -/
def leading : List Item → List Node → List Item
  | it :: its, c :: cs => c.inorder ++ it :: leading its cs
  | _, _ => []

/-- In-order items that follow a child inside an internal node: item, child,
item, ..., child. -/
def trailing : List Item → List Node → List Item
  | [], _ => []
  | it :: its, cs => it :: interleave its cs

/-- The items are in strictly ascending order of their keys. -/
def ItemsSorted (l : List Item) : Prop :=
  l.Pairwise (fun a b => a.Key < b.Key)

/-! ## The engine adapter (`storage/btree.go`, `errors/errors.go`) -/

/-- The two errors of `errors/errors.go`. -/
inductive EngineError where
  | ErrKeyNotFound
  | ErrEmptyKey
deriving DecidableEq, Repr

/-- The adapter of `storage/btree.go`: an engine owning one tree. -/
structure BTreeEngine where
  tree : BTree
deriving Repr

/-- Function `NewBTreeEngine`. -/
def NewBTreeEngine : BTreeEngine := ⟨NewBTree⟩

/-- Method `BTreeEngine.Get`: the returned value and error (`none` is nil). -/
def BTreeEngine.Get (e : BTreeEngine) (key : String) :
    Except Fault (String × Option EngineError) :=
  if key = "" then .ok ("", some .ErrEmptyKey)
  else
    match e.tree.Get key with
    | .error f => .error f
    | .ok (value, found) =>
      if found then .ok (value, none) else .ok ("", some .ErrKeyNotFound)

/-- Method `BTreeEngine.Set`: the returned error and the engine afterwards. -/
def BTreeEngine.Set (e : BTreeEngine) (key value : String) :
    Except Fault (Option EngineError × BTreeEngine) :=
  if key = "" then .ok (some .ErrEmptyKey, e)
  else
    match e.tree.Set key value with
    | .error f => .error f
    | .ok t => .ok (none, ⟨t⟩)

/-- Method `BTreeEngine.Delete`: the returned error and the engine afterwards. -/
def BTreeEngine.Delete (e : BTreeEngine) (key : String) :
    Except Fault (Option EngineError × BTreeEngine) :=
  if key = "" then .ok (some .ErrEmptyKey, e)
  else
    match e.tree.Delete key with
    | .error f => .error f
    | .ok (found, t) =>
      if !found then .ok (some .ErrKeyNotFound, ⟨t⟩) else .ok (none, ⟨t⟩)

/-! ## Further observations -/

/-- The keys of the in-order items of the subtree are strictly ascending in the
order of `strings.Compare`. -/
def Node.strictlyOrdered (n : Node) : Prop :=
  (n.inorder.map Item.Key).Pairwise (fun a b => stringsCompare a b < 0)

instance (n : Node) : Decidable n.strictlyOrdered := by
  unfold Node.strictlyOrdered; infer_instance

/-- `Handed key n x`: the call `n.insertNonFull(key, _)` hands the node `x` to
`insertNonFull`: `n` itself, or a node handed on by the recursive call on the
child it descends into (one half of that child, after `splitChild`, when the
child holds `2 * degree - 1` items). -/
inductive Handed (key : String) : Node → Node → Prop
  | self (n : Node) : Handed key n n
  | descend (items : List Item) (children : List Node) (c x : Node) :
      keyAt items (searchFrom key items 0) key = false →
      children[searchFrom key items 0]? = some c →
      c.Items.length ≠ 2 * degree - 1 →
      Handed key c x → Handed key (.mk items children false) x
  | split (items : List Item) (children : List Node) (c n1 : Node) (m : Item) (c1 x : Node) :
      keyAt items (searchFrom key items 0) key = false →
      children[searchFrom key items 0]? = some c →
      c.Items.length = 2 * degree - 1 →
      Node.splitChild (.mk items children false) (searchFrom key items 0) = .ok n1 →
      n1.Items[searchFrom key items 0]? = some m →
      n1.Children[if stringsCompare key m.Key > 0 then searchFrom key items 0 + 1
        else searchFrom key items 0]? = some c1 →
      Handed key c1 x → Handed key (.mk items children false) x

/-- The nodes that `t.Set(key, _)` hands to `insertNonFull`: those handed on from
the root, or from the new root after the split of a full root. -/
def BTree.SetHands (t : BTree) (key : String) (x : Node) : Prop :=
  if t.root.Items.length = 2 * degree - 1 then
    ∃ nr, Node.splitChild (.mk [] [t.root] false) 0 = .ok nr ∧ Handed key nr x
  else Handed key t.root x

mutual
/-- The two subtrees have the same form: the same leaf flags, the same keys at
the same positions in every node, and children of the same form, one for one
(the values may differ). -/
def Node.sameShape : Node → Node → Bool
  | .mk items children leaf, n =>
    leaf == n.IsLeaf && items.map Item.Key == n.Items.map Item.Key &&
      sameShapeList children n.Children
/-- Two lists of nodes of the same length whose nodes have the same form, one for
one. -/
def sameShapeList : List Node → List Node → Bool
  | [], ds => ds.isEmpty
  | c :: cs, d :: ds => c.sameShape d && sameShapeList cs ds
  | _ :: _, [] => false
end

mutual
/-- The path `Set` takes to the item of `key` meets no full node: this node does
not hold `2 * degree - 1` items and either holds the key (by the test
`insertNonFull` makes: `findKey` in a leaf, `search` in an internal node), or is
internal and the same is true of the child the search descends into. -/
def Node.roomOnPath : Node → String → Bool
  | .mk items children leaf, key =>
    items.length != 2 * degree - 1 &&
      (if leaf then (findKeyFrom key items 0).2
       else if keyAt items (searchFrom key items 0) key then true
       else roomOnPathChild children (searchFrom key items 0) key)
/-- The condition `roomOnPath` at child `i`. -/
def roomOnPathChild : List Node → Nat → String → Bool
  | [], _, _ => false
  | c :: _, 0, key => c.roomOnPath key
  | _ :: cs, i + 1, key => roomOnPathChild cs i key
end

/-- The keys of the in-order items under a node. -/
def Node.keys (n : Node) : List String :=
  n.inorder.map Item.Key

/-- The order that every reachable tree keeps: in every node the keys of the
items are strictly ascending, and the keys under child `j` are strictly above
the item before it (`items[j-1]`) and at most the item after it (`items[j]`).
A key under a child may be equal to the item after it. -/
inductive Ordered : Node → Prop
  | leaf (items : List Item) (children : List Node) :
      ItemsSorted items → Ordered (.mk items children true)
  | node (items : List Item) (children : List Node) :
      ItemsSorted items →
      (∀ c ∈ children, Ordered c) →
      (∀ j c k, children[j]? = some c → k ∈ c.keys →
        (∀ it, items[j]? = some it → k ≤ it.Key) ∧
        (∀ i it, j = i + 1 → items[i]? = some it → it.Key < k)) →
      Ordered (.mk items children false)

/-! ## Inputs of the evaluated examples -/

/-- The keys "a" to "k", each stored with the value "1". -/
def elevenKeys : List (String × String) :=
  [("a", "1"), ("b", "1"), ("c", "1"), ("d", "1"), ("e", "1"), ("f", "1"),
   ("g", "1"), ("h", "1"), ("i", "1"), ("j", "1"), ("k", "1")]

/-- The keys "a" to "h", each stored with the value "1". -/
def eightKeys : List (String × String) :=
  elevenKeys.take 8

/-! # Theorems -/

/-! ## Projections and list facts -/

@[simp]
theorem Node.Items_mk (items : List Item) (children : List Node) (leaf : Bool) :
    (Node.mk items children leaf).Items = items := rfl

@[simp]
theorem Node.Children_mk (items : List Item) (children : List Node) (leaf : Bool) :
    (Node.mk items children leaf).Children = children := rfl

@[simp]
theorem Node.IsLeaf_mk (items : List Item) (children : List Node) (leaf : Bool) :
    (Node.mk items children leaf).IsLeaf = leaf := rfl

theorem getElem?_take_append_self {α : Type} (xs : List α) (i : Nat) (a : α) (rest : List α)
    (hi : i ≤ xs.length) : (xs.take i ++ a :: rest)[i]? = some a := by
  have h : (xs.take i).length = i := by simp [hi]
  rw [List.getElem?_append_right (by omega)]
  simp [h]

theorem getElem?_take_append_succ {α : Type} (xs : List α) (i : Nat) (a b : α) (rest : List α)
    (hi : i ≤ xs.length) : (xs.take i ++ a :: b :: rest)[i + 1]? = some b := by
  have h : (xs.take i).length = i := by simp [hi]
  rw [List.getElem?_append_right (by omega)]
  simp [h]

theorem Node.induct {P : Node → Prop}
    (h : ∀ items children leaf, (∀ c ∈ children, P c) → P (.mk items children leaf)) :
    ∀ n, P n :=
  @Node.rec P (fun cs => ∀ c ∈ cs, P c)
    (fun items children leaf ih => h items children leaf ih)
    (by simp)
    (fun c cs hc hcs => by
      intro x hx
      rcases List.mem_cons.mp hx with rfl | hx
      · exact hc
      · exact hcs x hx)

/-! ## Lookup and the search loop of Delete -/

theorem getChild_eq (cs : List Node) (i : Nat) (key : String) :
    getChild cs i key =
      match cs[i]? with
      | some c => c.get key
      | none => .error .indexOutOfRange := by
  induction cs generalizing i with
  | nil => simp [getChild]
  | cons c cs ih =>
    cases i with
    | zero => simp [getChild]
    | succ i => simp [getChild, ih]

theorem findPathChild_eq (cs : List Node) (i : Nat) (key : String) :
    findPathChild cs i key =
      match cs[i]? with
      | some c => c.findPath key
      | none => .error .indexOutOfRange := by
  induction cs generalizing i with
  | nil => simp [findPathChild]
  | cons c cs ih =>
    cases i with
    | zero => simp [findPathChild]
    | succ i => simp [findPathChild, ih]

theorem Node.get_mk (items : List Item) (children : List Node) (leaf : Bool) (key : String) :
    (Node.mk items children leaf).get key =
      if keyAt items (searchFrom key items 0) key then
        match items[searchFrom key items 0]? with
        | some it => .ok (it.Value, true)
        | none => .error .indexOutOfRange
      else if leaf then .ok ("", false)
      else getChild children (searchFrom key items 0) key := by
  rfl

theorem Node.findPath_mk (items : List Item) (children : List Node) (leaf : Bool) (key : String) :
    (Node.mk items children leaf).findPath key =
      if keyAt items (searchFrom key items 0) key then .ok (some [searchFrom key items 0])
      else if leaf then .ok none
      else
        match findPathChild children (searchFrom key items 0) key with
        | .error e => .error e
        | .ok none => .ok none
        | .ok (some p) => .ok (some (searchFrom key items 0 :: p)) := by
  rfl

theorem findPath_of_get_absent (n : Node) (key : String) :
    ∀ v, n.get key = .ok (v, false) → n.findPath key = .ok none := by
  induction n using Node.induct with
  | h items children leaf ih =>
    intro v hget
    rw [Node.get_mk] at hget
    rw [Node.findPath_mk]
    by_cases hk : keyAt items (searchFrom key items 0) key = true
    · rw [if_pos hk] at hget
      cases hi : items[searchFrom key items 0]? with
      | none => rw [hi] at hget; cases hget
      | some it => rw [hi] at hget; cases hget
    · rw [if_neg hk] at hget
      rw [if_neg hk]
      cases leaf with
      | true => simp
      | false =>
        simp only [Bool.false_eq_true, if_false] at hget ⊢
        rw [getChild_eq] at hget
        rw [findPathChild_eq]
        cases hc : children[searchFrom key items 0]? with
        | none => rw [hc] at hget; cases hget
        | some c =>
          rw [hc] at hget
          simp only at hget ⊢
          rw [ih c (List.getElem?_mem hc) v hget]

/-! ## Loops over the items of a node -/

/-! ### Basic facts on the loops over items -/

theorem searchFrom_le (key : String) (items : List Item) (i : Nat) :
    searchFrom key items i ≤ i + items.length := by
  induction items generalizing i with
  | nil => simp [searchFrom]
  | cons it rest ih =>
    simp only [searchFrom, List.length_cons]
    split
    · omega
    · have := ih (i + 1); omega

theorem setValue_length (items : List Item) (idx : Nat) (value : String) :
    (setValue items idx value).length = items.length := by
  simp [setValue]

theorem shiftLoop_length (key : String) (j : Nat) (items : List Item) :
    (shiftLoop key j items).2.length = items.length := by
  induction j generalizing items with
  | zero => simp [shiftLoop]
  | succ j ih =>
    simp only [shiftLoop]
    split
    · split
      · rw [ih]; simp
      · rfl
    · rfl

theorem leafInsert_length (items : List Item) (key value : String) :
    (leafInsert items key value).length = items.length + 1 := by
  simp [leafInsert, shiftLoop_length]

/-! ### Height and fuel -/

theorem height_le_heightList {c : Node} {cs : List Node} (hc : c ∈ cs) :
    c.height ≤ heightList cs := by
  induction cs with
  | nil => cases hc
  | cons d cs ih =>
    rw [heightList]
    rcases List.mem_cons.mp hc with rfl | h
    · exact le_max_left _ _
    · exact le_trans (ih h) (le_max_right _ _)

theorem Node.height_mk (items : List Item) (children : List Node) (leaf : Bool) :
    (Node.mk items children leaf).height = heightList children + 1 := by
  rw [Node.height]

theorem Balanced.one_le {lo h : Nat} {n : Node} (hb : Balanced lo h n) : 1 ≤ h := by
  cases hb <;> omega

theorem Balanced.le_height {lo h : Nat} {n : Node} (hb : Balanced lo h n) : h ≤ n.height := by
  induction hb with
  | leaf items => rw [Node.height_mk]; omega
  | node items children h h1 hlen hc hfill ih =>
    rw [Node.height_mk]
    cases children with
    | nil => simp at hlen
    | cons c cs =>
      have h2 := ih c (List.mem_cons_self _ _)
      have h3 := height_le_heightList (List.mem_cons_self c cs)
      omega

/-! ## Splitting a full child -/

theorem splitChild_eq (items : List Item) (children : List Node) (leaf : Bool) (i : Nat)
    (c : Node) (hc : children[i]? = some c) (hfull : c.Items.length = 2 * degree - 1)
    (hi : i ≤ items.length) (hch : c.IsLeaf = false → degree ≤ c.Children.length) :
    ∃ m, c.Items[degree - 1]? = some m ∧
      Node.splitChild (.mk items children leaf) i =
        .ok (.mk (items.take i ++ m :: items.drop i)
          (children.take i ++ c.lowerHalf :: c.upperHalf :: children.drop (i + 1)) leaf) := by
  have hlt : degree - 1 < c.Items.length := by rw [hfull]; simp [degree]
  refine ⟨c.Items[degree - 1], List.getElem?_eq_getElem hlt, ?_⟩
  have hm : c.Items[degree - 1]? = some c.Items[degree - 1] := List.getElem?_eq_getElem hlt
  cases c with
  | mk cit cch cl =>
    simp only [Node.Items_mk, Node.Children_mk, Node.IsLeaf_mk] at hm hch hlt hfull ⊢
    cases cl with
    | true =>
      simp [Node.splitChild, index, hc, hm, hi, Node.lowerHalf, Node.upperHalf,
        bind, Except.bind, pure, Except.pure]
      simp [degree]
    | false =>
      have h4 := hch rfl
      simp [Node.splitChild, index, hc, hm, hi, Node.lowerHalf, Node.upperHalf,
        bind, Except.bind, pure, Except.pure]
      simp [degree] at h4 ⊢
      exact h4

theorem Balanced.children_length {lo h : Nat} {n : Node} (hb : Balanced lo h n) :
    n.IsLeaf = false → n.Children.length = n.Items.length + 1 := by
  cases hb with
  | leaf items => simp
  | node items children h h1 hlen hc hfill => simp [hlen]

theorem Balanced.halves {lo h : Nat} {c : Node} (hb : Balanced lo h c)
    (hfull : c.Items.length = 2 * degree - 1) :
    Balanced lo h c.lowerHalf ∧ Balanced lo h c.upperHalf ∧
      c.lowerHalf.Items.length = degree - 1 ∧ c.upperHalf.Items.length = degree - 1 := by
  cases hb with
  | leaf items =>
    simp only [Node.Items_mk] at hfull
    refine ⟨Balanced.leaf _, Balanced.leaf _, ?_, ?_⟩ <;>
      simp [Node.lowerHalf, Node.upperHalf, hfull, degree]
  | node items children h h1 hlen hc hfill =>
    simp only [Node.Items_mk] at hfull
    simp only [degree] at hfull
    refine ⟨?_, ?_, ?_, ?_⟩
    · simp only [Node.lowerHalf, Node.Items_mk, Node.Children_mk, Node.IsLeaf_mk]
      refine Balanced.node _ _ h ?_ ?_ ?_ ?_
      · simp [degree, hfull]
      · simp [degree, hfull, hlen]
      · intro c hcm; exact hc c (List.mem_of_mem_take hcm)
      · intro c hcm; exact hfill c (List.mem_of_mem_take hcm)
    · simp only [Node.upperHalf, Node.Items_mk, Node.Children_mk, Node.IsLeaf_mk]
      refine Balanced.node _ _ h ?_ ?_ ?_ ?_
      · simp [degree, hfull]
      · simp [degree, hfull, hlen]
      · intro c hcm; exact hc c (List.mem_of_mem_drop hcm)
      · intro c hcm; exact hfill c (List.mem_of_mem_drop hcm)
    · simp [Node.lowerHalf, degree, hfull]
    · simp [Node.upperHalf, degree, hfull]

/-- A split child, as `insertNonFull` meets it: the node after `splitChild`, the
promoted median at `i`, the two halves at `i` and `i + 1`. -/
theorem splitChild_balanced {lo h : Nat} (items : List Item) (children : List Node) (leaf : Bool)
    (i : Nat) (c : Node) (hc : children[i]? = some c) (hb : Balanced lo h c)
    (hfull : c.Items.length = 2 * degree - 1) (hi : i ≤ items.length) :
    ∃ m, c.Items[degree - 1]? = some m ∧
      Node.splitChild (.mk items children leaf) i =
        .ok (.mk (items.take i ++ m :: items.drop i)
          (children.take i ++ c.lowerHalf :: c.upperHalf :: children.drop (i + 1)) leaf) := by
  apply splitChild_eq items children leaf i c hc hfull hi
  intro hl
  have := hb.children_length hl
  rw [this, hfull]; simp [degree]

/-! ## Insertion keeps the shape -/

theorem insertNonFull_induct (key value : String) (P : Nat → Node → Node → Prop)
    (leaf_found : ∀ fuel items children idx, findKeyFrom key items 0 = (idx, true) →
      P (fuel + 1) (.mk items children true) (.mk (setValue items idx value) children true))
    (leaf_new : ∀ fuel items children idx, findKeyFrom key items 0 = (idx, false) →
      P (fuel + 1) (.mk items children true) (.mk (leafInsert items key value) children true))
    (node_found : ∀ fuel items children, keyAt items (searchFrom key items 0) key = true →
      P (fuel + 1) (.mk items children false)
        (.mk (setValue items (searchFrom key items 0) value) children false))
    (node_descend : ∀ fuel items children c c2,
      keyAt items (searchFrom key items 0) key = false →
      children[searchFrom key items 0]? = some c → c.Items.length ≠ 2 * degree - 1 →
      Node.insertNonFull fuel c key value = .ok c2 → P fuel c c2 →
      P (fuel + 1) (.mk items children false)
        (.mk items (children.set (searchFrom key items 0) c2) false))
    (node_split : ∀ fuel items children c n1 m c1 c2,
      keyAt items (searchFrom key items 0) key = false →
      children[searchFrom key items 0]? = some c → c.Items.length = 2 * degree - 1 →
      Node.splitChild (.mk items children false) (searchFrom key items 0) = .ok n1 →
      n1.Items[searchFrom key items 0]? = some m →
      n1.Children[if stringsCompare key m.Key > 0 then searchFrom key items 0 + 1
        else searchFrom key items 0]? = some c1 →
      Node.insertNonFull fuel c1 key value = .ok c2 → P fuel c1 c2 →
      P (fuel + 1) (.mk items children false)
        (.mk n1.Items (n1.Children.set (if stringsCompare key m.Key > 0 then
          searchFrom key items 0 + 1 else searchFrom key items 0) c2) n1.IsLeaf)) :
    ∀ fuel n n1, Node.insertNonFull fuel n key value = .ok n1 → P fuel n n1 := by
  intro fuel
  induction fuel with
  | zero => intro n n1 h; simp [Node.insertNonFull] at h
  | succ fuel ih =>
    intro n n1 h
    cases n with
    | mk items children leaf =>
      rw [Node.insertNonFull] at h
      cases leaf with
      | true =>
        simp only [if_true] at h
        split at h
        · next idx hf => cases h; exact leaf_found fuel items children idx hf
        · next idx hf => cases h; exact leaf_new fuel items children idx hf
      | false =>
        simp only [Bool.false_eq_true, if_false] at h
        split at h
        · next hk => cases h; exact node_found fuel items children hk
        · next hk =>
          have hk : keyAt items (searchFrom key items 0) key = false := by simpa using hk
          split at h
          · cases h
          · next c hc =>
            split at h
            · next hfull =>
              split at h
              · cases h
              · next n1 hs =>
                split at h
                · cases h
                · next m hm =>
                  split at h
                  · cases h
                  · next c1 hc1 =>
                    split at h
                    · cases h
                    · next c2 hrec =>
                      cases h
                      exact node_split fuel items children c n1 m c1 c2 hk hc hfull hs hm hc1
                        hrec (ih c1 c2 hrec)
            · next hfull =>
              split at h
              · cases h
              · next c2 hrec =>
                cases h
                exact node_descend fuel items children c c2 hk hc hfull hrec (ih c c2 hrec)

theorem insertNonFull_total (key value : String) (lo : Nat) :
    ∀ fuel h n, Balanced lo h n → h ≤ fuel →
      ∃ n1, Node.insertNonFull fuel n key value = .ok n1 := by
  intro fuel
  induction fuel with
  | zero => intro h n hb hf; have := hb.one_le; omega
  | succ fuel ih =>
    intro h n hb hf
    cases hb with
    | leaf items =>
      rw [Node.insertNonFull]
      simp only [if_true]
      split <;> exact ⟨_, rfl⟩
    | node items children h h1 hlen hch hfill =>
      rw [Node.insertNonFull]
      simp only [Bool.false_eq_true, if_false]
      have hi : searchFrom key items 0 ≤ items.length := by
        have := searchFrom_le key items 0; omega
      split
      · exact ⟨_, rfl⟩
      · have hlt : searchFrom key items 0 < children.length := by omega
        have hc : children[searchFrom key items 0]? = some children[searchFrom key items 0] :=
          List.getElem?_eq_getElem hlt
        have hmem : children[searchFrom key items 0] ∈ children := List.getElem_mem hlt
        rw [hc]
        simp only
        by_cases hfull : (children[searchFrom key items 0]).Items.length = 2 * degree - 1
        · rw [if_pos hfull]
          obtain ⟨m, hm, hs⟩ := splitChild_balanced items children false _ _ hc
            (hch _ hmem) hfull hi
          rw [hs]
          simp only [Node.Items_mk, Node.Children_mk, Node.IsLeaf_mk]
          rw [getElem?_take_append_self items _ m _ hi]
          simp only
          obtain ⟨hb1, hb2, -, -⟩ := (hch _ hmem).halves hfull
          by_cases hgt : stringsCompare key m.Key > 0
          · rw [if_pos hgt, getElem?_take_append_succ children _ _ _ _ (by omega)]
            simp only
            obtain ⟨c2, hc2⟩ := ih h _ hb2 (by omega)
            rw [hc2]
            exact ⟨_, rfl⟩
          · rw [if_neg hgt, getElem?_take_append_self children _ _ _ (by omega)]
            simp only
            obtain ⟨c2, hc2⟩ := ih h _ hb1 (by omega)
            rw [hc2]
            exact ⟨_, rfl⟩
        · rw [if_neg hfull]
          obtain ⟨c2, hc2⟩ := ih h _ (hch _ hmem) (by omega)
          rw [hc2]
          exact ⟨_, rfl⟩

theorem insertNonFull_balanced (key value : String) (lo : Nat) (hlo : lo ≤ degree - 1) :
    ∀ fuel n n1, Node.insertNonFull fuel n key value = .ok n1 →
      ∀ h, Balanced lo h n →
        Balanced lo h n1 ∧ n.Items.length ≤ n1.Items.length ∧
          n1.Items.length ≤ n.Items.length + 1 := by
  apply insertNonFull_induct key value
    (fun _ n n1 => ∀ h, Balanced lo h n →
        Balanced lo h n1 ∧ n.Items.length ≤ n1.Items.length ∧
          n1.Items.length ≤ n.Items.length + 1)
  · intro fuel items children idx _ h hb
    cases hb with
    | leaf _ => exact ⟨Balanced.leaf _, by simp [setValue_length], by simp [setValue_length]⟩
  · intro fuel items children idx _ h hb
    cases hb with
    | leaf _ => exact ⟨Balanced.leaf _, by simp [leafInsert_length], by simp [leafInsert_length]⟩
  · intro fuel items children _ h hb
    cases hb with
    | node _ _ h h1 hlen hch hfill =>
      exact ⟨Balanced.node _ _ h (by simpa [setValue_length] using h1)
        (by simpa [setValue_length] using hlen) hch hfill,
        by simp [setValue_length], by simp [setValue_length]⟩
  · intro fuel items children c c2 _ hc hfull _ ih h hb
    cases hb with
    | node _ _ h h1 hlen hch hfill =>
      have hmem : c ∈ children := List.getElem?_mem hc
      obtain ⟨hb2, hge, hle⟩ := ih h (hch c hmem)
      have hfc := hfill c hmem
      refine ⟨Balanced.node _ _ h h1 (by simpa using hlen) ?_ ?_, le_refl _, by simp⟩
      · intro x hx
        rcases List.mem_or_eq_of_mem_set hx with hx | rfl
        · exact hch x hx
        · exact hb2
      · intro x hx
        rcases List.mem_or_eq_of_mem_set hx with hx | rfl
        · exact hfill x hx
        · omega
  · intro fuel items children c n1 m c1 c2 _ hc hfull hs hm hc1 _ ih h hb
    cases hb with
    | node _ _ h h1 hlen hch hfill =>
      have hmem : c ∈ children := List.getElem?_mem hc
      have hi : searchFrom key items 0 ≤ items.length := by
        have := searchFrom_le key items 0; omega
      obtain ⟨m1, hm1, hs1⟩ := splitChild_balanced items children false _ _ hc
        (hch _ hmem) hfull hi
      rw [hs1] at hs
      cases hs
      simp only [Node.Items_mk, Node.Children_mk, Node.IsLeaf_mk] at hm hc1 ⊢
      obtain ⟨hb1, hb2, hl1, hl2⟩ := (hch _ hmem).halves hfull
      have hc1b : Balanced lo h c1 ∧ c1.Items.length = degree - 1 := by
        by_cases hgt : stringsCompare key m.Key > 0
        · rw [if_pos hgt, getElem?_take_append_succ children _ _ _ _ (by omega)] at hc1
          cases hc1; exact ⟨hb2, hl2⟩
        · rw [if_neg hgt, getElem?_take_append_self children _ _ _ (by omega)] at hc1
          cases hc1; exact ⟨hb1, hl1⟩
      obtain ⟨hb3, hge, hle⟩ := ih h hc1b.1
      have hold : ∀ x ∈ List.take (searchFrom key items 0) children ++
          c.lowerHalf :: c.upperHalf :: List.drop (searchFrom key items 0 + 1) children,
          Balanced lo h x ∧ lo ≤ x.Items.length ∧ x.Items.length ≤ 2 * degree - 1 := by
        intro x hx
        rcases List.mem_append.mp hx with hx | hx
        · have := List.mem_of_mem_take hx
          exact ⟨hch x this, hfill x this⟩
        · rcases List.mem_cons.mp hx with rfl | hx
          · exact ⟨hb1, by omega, by rw [hl1]; simp [degree]⟩
          · rcases List.mem_cons.mp hx with rfl | hx
            · exact ⟨hb2, by omega, by rw [hl2]; simp [degree]⟩
            · have := List.mem_of_mem_drop hx
              exact ⟨hch x this, hfill x this⟩
      refine ⟨Balanced.node _ _ h ?_ ?_ ?_ ?_, ?_, ?_⟩
      · simp only [List.length_append, List.length_cons, List.length_take, List.length_drop]
        omega
      · simp only [List.length_set, List.length_append, List.length_cons, List.length_take,
          List.length_drop]
        omega
      · intro x hx
        rcases List.mem_or_eq_of_mem_set hx with hx | rfl
        · exact (hold x hx).1
        · exact hb3
      · intro x hx
        rcases List.mem_or_eq_of_mem_set hx with hx | rfl
        · exact (hold x hx).2
        · have : degree - 1 = 3 := rfl
          have : 2 * degree - 1 = 7 := rfl
          omega
      · simp only [List.length_append, List.length_cons, List.length_take, List.length_drop]
        omega
      · simp only [List.length_append, List.length_cons, List.length_take, List.length_drop]
        omega

/-- The root split of `Set`: a new root over the two halves of the old one. -/
theorem splitRoot_eq {lo h : Nat} {root : Node} (hb : Balanced lo h root)
    (hfull : root.Items.length = 2 * degree - 1) :
    ∃ m, root.Items[degree - 1]? = some m ∧
      Node.splitChild (.mk [] [root] false) 0 =
        .ok (.mk [m] [root.lowerHalf, root.upperHalf] false) := by
  obtain ⟨m, hm, hs⟩ := splitChild_balanced [] [root] false 0 root rfl hb hfull (le_refl _)
  exact ⟨m, hm, by simpa using hs⟩

theorem splitRoot_balanced {lo h : Nat} {root : Node} (hlo : lo ≤ degree - 1)
    (hb : Balanced lo h root) (hfull : root.Items.length = 2 * degree - 1) (m : Item) :
    Balanced lo (h + 1) (.mk [m] [root.lowerHalf, root.upperHalf] false) := by
  obtain ⟨hb1, hb2, hl1, hl2⟩ := hb.halves hfull
  have h7 : 2 * degree - 1 = 7 := rfl
  have h3 : degree - 1 = 3 := rfl
  refine Balanced.node _ _ h (by simp) (by simp) ?_ ?_
  · intro x hx
    simp only [List.mem_cons, List.mem_singleton, List.not_mem_nil, or_false] at hx
    rcases hx with rfl | rfl
    · exact hb1
    · exact hb2
  · intro x hx
    simp only [List.mem_cons, List.mem_singleton, List.not_mem_nil, or_false] at hx
    rcases hx with rfl | rfl <;> omega

/-- `Set` returns on a well-shaped tree, and the tree it returns is well-shaped. -/
theorem set_wellShaped {lo : Nat} (hlo : lo ≤ degree - 1) (t : BTree) (key value : String)
    (hw : t.WellShaped lo) :
    ∃ t1, t.Set key value = .ok t1 ∧ t1.WellShaped lo := by
  obtain ⟨h, hb, hle⟩ := hw
  have h7 : 2 * degree - 1 = 7 := rfl
  unfold BTree.Set
  by_cases hfull : t.root.Items.length = 2 * degree - 1
  · simp only [if_pos hfull]
    obtain ⟨m, hm, hs⟩ := splitRoot_eq hb hfull
    rw [hs]
    simp only
    have hb1 := splitRoot_balanced hlo hb hfull m
    obtain ⟨r, hr⟩ := insertNonFull_total key value lo _ _ _ hb1 hb1.le_height
    rw [hr]
    obtain ⟨hb2, -, hle2⟩ := insertNonFull_balanced key value lo hlo _ _ _ hr _ hb1
    refine ⟨⟨r⟩, rfl, h + 1, hb2, ?_⟩
    simp only [Node.Items_mk, List.length_singleton] at hle2
    show r.Items.length ≤ 2 * degree - 1
    omega
  · simp only [if_neg hfull]
    obtain ⟨r, hr⟩ := insertNonFull_total key value lo _ _ _ hb hb.le_height
    rw [hr]
    obtain ⟨hb2, -, hle2⟩ := insertNonFull_balanced key value lo hlo _ _ _ hr _ hb
    refine ⟨⟨r⟩, rfl, h, hb2, ?_⟩
    show r.Items.length ≤ 2 * degree - 1
    omega

theorem newBTree_wellShaped (lo : Nat) : NewBTree.WellShaped lo :=
  ⟨1, Balanced.leaf [], by simp [NewBTree]⟩

theorem run_sets_wellShaped {lo : Nat} (hlo : lo ≤ degree - 1) (kvs : List (String × String)) :
    ∀ t : BTree, t.WellShaped lo → ∃ t1, run t (sets kvs) = .ok t1 ∧ t1.WellShaped lo := by
  induction kvs with
  | nil => intro t hw; exact ⟨t, rfl, hw⟩
  | cons kv kvs ih =>
    intro t hw
    obtain ⟨t1, h1, hw1⟩ := set_wellShaped hlo t kv.1 kv.2 hw
    obtain ⟨t2, h2, hw2⟩ := ih t1 hw1
    refine ⟨t2, ?_, hw2⟩
    simp only [sets, List.map_cons, run, BTree.apply, h1]
    exact h2

theorem mem_leafDepthsList {d : Nat} {cs : List Node} :
    d ∈ leafDepthsList cs ↔ ∃ c ∈ cs, d ∈ c.leafDepths := by
  induction cs with
  | nil => simp [leafDepthsList]
  | cons c cs ih => simp [leafDepthsList, ih]

theorem mem_descendantsList {x : Node} {cs : List Node} :
    x ∈ descendantsList cs ↔ ∃ c ∈ cs, x = c ∨ x ∈ c.descendants := by
  induction cs with
  | nil => simp [descendantsList]
  | cons c cs ih => simp [descendantsList, ih, or_assoc]

theorem Balanced.leafDepths_eq {lo h : Nat} {n : Node} (hb : Balanced lo h n) :
    ∀ d ∈ n.leafDepths, d = h := by
  induction hb with
  | leaf items => intro d hd; simpa [Node.leafDepths] using hd
  | node items children h h1 hlen hc hfill ih =>
    intro d hd
    simp only [Node.leafDepths, Bool.false_eq_true, if_false, List.mem_map] at hd
    obtain ⟨e, he, rfl⟩ := hd
    obtain ⟨c, hcm, hec⟩ := mem_leafDepthsList.mp he
    rw [ih c hcm e hec]

theorem Balanced.descendants_fill {lo h : Nat} {n : Node} (hb : Balanced lo h n) :
    ∀ x ∈ n.descendants, lo ≤ x.Items.length ∧ x.Items.length ≤ 2 * degree - 1 := by
  induction hb with
  | leaf items => intro x hx; simp [Node.descendants, descendantsList] at hx
  | node items children h h1 hlen hc hfill ih =>
    intro x hx
    simp only [Node.descendants] at hx
    obtain ⟨c, hcm, hxc⟩ := mem_descendantsList.mp hx
    rcases hxc with rfl | hxc
    · exact hfill _ hcm
    · exact ih c hcm x hxc

theorem Balanced.internal_nonempty {lo h : Nat} {n : Node} (hb : Balanced lo h n) :
    n.IsLeaf = false → 1 ≤ n.Items.length := by
  cases hb with
  | leaf items => simp
  | node items children h h1 hlen hc hfill => intro _; simpa using h1

/-! ## Key order, search and the leaf loop -/

theorem stringsCompare_lt_zero (a b : String) : stringsCompare a b < 0 ↔ a < b := by
  unfold stringsCompare
  by_cases hab : a = b
  · subst hab; simp
  · rw [if_neg hab]
    by_cases hlt : a.toList < b.toList
    · rw [if_pos hlt]
      have : a < b := String.lt_iff_toList_lt.mpr hlt
      simp [this]
    · rw [if_neg hlt]
      have : ¬ a < b := fun h => hlt (String.lt_iff_toList_lt.mp h)
      simp [this]

theorem stringsCompare_le_zero (a b : String) : stringsCompare a b ≤ 0 ↔ a ≤ b := by
  unfold stringsCompare
  by_cases hab : a = b
  · subst hab; simp
  · rw [if_neg hab]
    by_cases hlt : a.toList < b.toList
    · rw [if_pos hlt]
      have : a < b := String.lt_iff_toList_lt.mpr hlt
      simp [le_of_lt this]
    · rw [if_neg hlt]
      have : ¬ a < b := fun h => hlt (String.lt_iff_toList_lt.mp h)
      have h2 : ¬ a ≤ b := fun h => this (lt_of_le_of_ne h hab)
      simp [h2]

theorem stringsCompare_gt_zero (a b : String) : stringsCompare a b > 0 ↔ b < a := by
  have h1 := stringsCompare_le_zero a b
  constructor
  · intro h
    have : ¬ a ≤ b := fun hle => by have := h1.mpr hle; omega
    exact lt_of_not_le this
  · intro h
    have : ¬ stringsCompare a b ≤ 0 := fun hle => not_le_of_lt h (h1.mp hle)
    omega

/-- The index returned by `search`: every item before it has a smaller key, the
item at it (if any) does not. -/
theorem searchFrom_spec (key : String) (items : List Item) (k : Nat) :
    k ≤ searchFrom key items k ∧
    (∀ j it, items[j]? = some it → k + j < searchFrom key items k → it.Key < key) ∧
    (∀ it, items[searchFrom key items k - k]? = some it → key ≤ it.Key) := by
  induction items generalizing k with
  | nil => simp [searchFrom]
  | cons x rest ih =>
    simp only [searchFrom]
    by_cases hx : stringsCompare key x.Key ≤ 0
    · rw [if_pos hx]
      refine ⟨le_refl _, ?_, ?_⟩
      · intro j it _ hj; omega
      · intro it hit
        simp only [Nat.sub_self, List.getElem?_cons_zero, Option.some.injEq] at hit
        subst hit
        exact (stringsCompare_le_zero _ _).mp hx
    · rw [if_neg hx]
      obtain ⟨h1, h2, h3⟩ := ih (k + 1)
      refine ⟨by omega, ?_, ?_⟩
      · intro j it hit hj
        cases j with
        | zero =>
          simp only [List.getElem?_cons_zero, Option.some.injEq] at hit
          subst hit
          exact lt_of_not_le (fun hle => hx ((stringsCompare_le_zero _ _).mpr hle))
        | succ j =>
          simp only [List.getElem?_cons_succ] at hit
          exact h2 j it hit (by omega)
      · intro it hit
        have : searchFrom key rest (k + 1) - k = (searchFrom key rest (k + 1) - (k + 1)) + 1 := by
          omega
        rw [this, List.getElem?_cons_succ] at hit
        exact h3 it hit

theorem search_spec (key : String) (items : List Item) :
    (∀ it ∈ items.take (searchFrom key items 0), it.Key < key) ∧
    (∀ it, items[searchFrom key items 0]? = some it → key ≤ it.Key) := by
  obtain ⟨-, h2, h3⟩ := searchFrom_spec key items 0
  refine ⟨?_, by simpa using h3⟩
  intro it hit
  obtain ⟨j, hj⟩ := List.getElem?_of_mem hit
  rw [List.getElem?_take] at hj
  split at hj
  · next hlt => exact h2 j it hj (by omega)
  · cases hj

theorem keyAt_eq_true {items : List Item} {i : Nat} {key : String}
    (h : keyAt items i key = true) : ∃ it, items[i]? = some it ∧ it.Key = key := by
  unfold keyAt at h
  split at h
  · next it hit => exact ⟨it, hit, by simpa using h⟩
  · cases h

theorem keyAt_eq_false {items : List Item} {i : Nat} {key : String}
    (h : keyAt items i key = false) : ∀ it, items[i]? = some it → it.Key ≠ key := by
  intro it hit
  unfold keyAt at h
  rw [hit] at h
  simpa using h

theorem findKeyFrom_found {key : String} {items : List Item} {k idx : Nat}
    (h : findKeyFrom key items k = (idx, true)) : key ∈ items.map Item.Key := by
  induction items generalizing k with
  | nil => simp [findKeyFrom] at h
  | cons x rest ih =>
    simp only [findKeyFrom] at h
    split at h
    · next hx => simp [hx]
    · split at h
      · cases h
      · simp only [List.map_cons, List.mem_cons]
        exact Or.inr (ih h)

theorem take_succ_append_cons {α : Type} (xs : List α) (j : Nat) (x w : α) (hx : xs[j]? = some x) :
    (xs.take (j + 1) ++ w :: xs.drop (j + 1)).set (j + 1) x = xs.take j ++ x :: xs.drop j := by
  have hj : j < xs.length := by
    by_contra hge
    rw [List.getElem?_eq_none (by omega)] at hx
    cases hx
  have hlen : (xs.take (j + 1)).length = j + 1 := by simp; omega
  rw [List.set_append_right _ _ (by omega), hlen, Nat.sub_self, List.set_cons_zero]
  have hd : xs.drop j = x :: xs.drop (j + 1) := by
    rw [List.drop_eq_getElem_cons hj]
    congr 1
    rw [List.getElem?_eq_getElem hj] at hx
    exact Option.some.inj hx
  rw [hd, List.take_succ, hx]
  simp

theorem shiftLoop_spec (key : String) (xs : List Item) :
    ∀ j w, j ≤ xs.length →
      ∃ p w1, p ≤ j ∧
        shiftLoop key j (xs.take j ++ w :: xs.drop j) = (p, xs.take p ++ w1 :: xs.drop p) ∧
        (∀ q it, p ≤ q → q < j → xs[q]? = some it → key < it.Key) ∧
        (∀ q it, p = q + 1 → xs[q]? = some it → ¬ key < it.Key) := by
  intro j
  induction j with
  | zero =>
    intro w _
    exact ⟨0, w, le_refl _, rfl, by intro q it h1 h2; omega, by intro q it h; omega⟩
  | succ j ih =>
    intro w hj
    have hjl : j < xs.length := by omega
    have hget : (xs.take (j + 1) ++ w :: xs.drop (j + 1))[j]? = some xs[j] := by
      rw [List.getElem?_append_left (by simp; omega), List.getElem?_take]
      simp [List.getElem?_eq_getElem hjl]
    rw [shiftLoop, hget]
    simp only
    by_cases hlt : stringsCompare key xs[j].Key < 0
    · rw [if_pos hlt, take_succ_append_cons xs j xs[j] w (List.getElem?_eq_getElem hjl)]
      obtain ⟨p, w1, hp, hs, h1, h2⟩ := ih xs[j] (by omega)
      refine ⟨p, w1, by omega, hs, ?_, h2⟩
      intro q it hpq hq hit
      by_cases hqj : q = j
      · subst hqj
        rw [List.getElem?_eq_getElem hjl] at hit
        cases hit
        exact (stringsCompare_lt_zero _ _).mp hlt
      · exact h1 q it hpq (by omega) hit
    · rw [if_neg hlt]
      refine ⟨j + 1, w, le_refl _, rfl, by intro q it h1 h2; omega, ?_⟩
      intro q it hq hit
      have : q = j := by omega
      subst this
      rw [List.getElem?_eq_getElem hjl] at hit
      cases hit
      exact fun h => hlt ((stringsCompare_lt_zero _ _).mpr h)

/-- The leaf insertion loop puts the new item at a position `p` such that all
items from `p` on have a larger key and the item before `p` does not. -/
theorem leafInsert_eq (xs : List Item) (key value : String) :
    ∃ p, p ≤ xs.length ∧
      leafInsert xs key value = xs.take p ++ ⟨key, value⟩ :: xs.drop p ∧
      (∀ x ∈ xs.drop p, key < x.Key) ∧
      (∀ q it, p = q + 1 → xs[q]? = some it → ¬ key < it.Key) := by
  obtain ⟨p, w1, hp, hs, h1, h2⟩ := shiftLoop_spec key xs xs.length ⟨"", ""⟩ (le_refl _)
  simp only [List.take_length, List.drop_length] at hs
  refine ⟨p, hp, ?_, ?_, h2⟩
  · unfold leafInsert
    simp only [hs]
    have hlen : (xs.take p).length = p := by simp; omega
    rw [List.set_append_right _ _ (by omega), hlen, Nat.sub_self, List.set_cons_zero]
  · intro x hx
    obtain ⟨q, hq⟩ := List.getElem?_of_mem hx
    rw [List.getElem?_drop] at hq
    have hlt : p + q < xs.length := by
      by_contra hge
      rw [List.getElem?_eq_none (by omega)] at hq
      cases hq
    exact h1 (p + q) x (by omega) hlt hq

/-! ## In-order contents of an internal node -/

theorem Node.inorder_mk (items : List Item) (children : List Node) (leaf : Bool) :
    (Node.mk items children leaf).inorder = if leaf then items else interleave items children := by
  rw [Node.inorder]

theorem interleave_cons (its : List Item) (c : Node) (cs : List Node) :
    interleave its (c :: cs) = c.inorder ++ trailing its cs := by
  cases its with
  | nil => simp [interleave, trailing]
  | cons it its => simp [interleave, trailing]

theorem interleave_append (its1 its2 : List Item) (cs1 cs2 : List Node)
    (h : cs1.length = its1.length) :
    interleave (its1 ++ its2) (cs1 ++ cs2) = leading its1 cs1 ++ interleave its2 cs2 := by
  induction its1 generalizing cs1 with
  | nil =>
    cases cs1 with
    | nil => simp [leading]
    | cons c cs1 => simp at h
  | cons it its1 ih =>
    cases cs1 with
    | nil => simp at h
    | cons c cs1 =>
      simp only [List.length_cons, Nat.add_right_cancel_iff] at h
      simp [interleave, leading, ih cs1 h]

theorem lt_length_of_getElem? {α : Type} {xs : List α} {i : Nat} {x : α}
    (h : xs[i]? = some x) : i < xs.length := by
  by_contra hge
  rw [List.getElem?_eq_none (by omega)] at h
  cases h

theorem drop_eq_cons_of_getElem? {α : Type} {xs : List α} {i : Nat} {x : α}
    (h : xs[i]? = some x) : xs.drop i = x :: xs.drop (i + 1) := by
  have hlt := lt_length_of_getElem? h
  rw [List.drop_eq_getElem_cons hlt]
  rw [List.getElem?_eq_getElem hlt] at h
  rw [Option.some.inj h]

theorem eq_take_cons_drop {α : Type} {xs : List α} {i : Nat} {x : α}
    (h : xs[i]? = some x) : xs = xs.take i ++ x :: xs.drop (i + 1) := by
  rw [← drop_eq_cons_of_getElem? h, List.take_append_drop]

/-- In-order items of an internal node, cut around child `i`. -/
theorem interleave_split (items : List Item) (children : List Node) (i : Nat) (c : Node)
    (hc : children[i]? = some c) (hi : i ≤ items.length) :
    interleave items children =
      leading (items.take i) (children.take i) ++ c.inorder ++
        trailing (items.drop i) (children.drop (i + 1)) := by
  have hlt := lt_length_of_getElem? hc
  have h1 : interleave items children =
      interleave (items.take i ++ items.drop i) (children.take i ++ c :: children.drop (i + 1)) := by
    rw [List.take_append_drop, ← eq_take_cons_drop hc]
  rw [h1, interleave_append _ _ _ _ (by simp; omega), interleave_cons, List.append_assoc]

/-- In-order items after child `i` has been replaced by `c1`. -/
theorem interleave_set (items : List Item) (children : List Node) (i : Nat) (c1 : Node)
    (hlt : i < children.length) (hi : i ≤ items.length) :
    interleave items (children.set i c1) =
      leading (items.take i) (children.take i) ++ c1.inorder ++
        trailing (items.drop i) (children.drop (i + 1)) := by
  rw [List.set_eq_take_append_cons_drop, if_pos hlt]
  conv_lhs => rw [← List.take_append_drop i items]
  rw [interleave_append _ _ _ _ (by simp; omega), interleave_cons, List.append_assoc]

/-- In-order items after `splitChild` has put `m`, `lo` and `up` in place of
child `i`. -/
theorem interleave_splitChild (items : List Item) (children : List Node) (i : Nat)
    (m : Item) (lo up : Node) (hlt : i < children.length) (hi : i ≤ items.length) :
    interleave (items.take i ++ m :: items.drop i)
        (children.take i ++ lo :: up :: children.drop (i + 1)) =
      leading (items.take i) (children.take i) ++ lo.inorder ++ m :: up.inorder ++
        trailing (items.drop i) (children.drop (i + 1)) := by
  rw [interleave_append _ _ _ _ (by simp; omega), interleave_cons]
  simp [trailing, interleave_cons]

/-! ## Sorted contents -/

theorem ItemsSorted.append_left {l1 l2 : List Item} (h : ItemsSorted (l1 ++ l2)) :
    ItemsSorted l1 :=
  (List.pairwise_append.mp h).1

theorem ItemsSorted.append_right {l1 l2 : List Item} (h : ItemsSorted (l1 ++ l2)) :
    ItemsSorted l2 :=
  (List.pairwise_append.mp h).2.1

theorem ItemsSorted.lt_of_append {l1 l2 : List Item} (h : ItemsSorted (l1 ++ l2)) :
    ∀ a ∈ l1, ∀ b ∈ l2, a.Key < b.Key :=
  (List.pairwise_append.mp h).2.2

theorem ItemsSorted.insert_mid {l1 l2 : List Item} {x : Item} (h : ItemsSorted (l1 ++ l2))
    (h1 : ∀ a ∈ l1, a.Key < x.Key) (h2 : ∀ b ∈ l2, x.Key < b.Key) :
    ItemsSorted (l1 ++ x :: l2) := by
  unfold ItemsSorted at h ⊢
  rw [List.pairwise_append] at h ⊢
  refine ⟨h.1, List.pairwise_cons.mpr ⟨h2, h.2.1⟩, ?_⟩
  intro a ha b hb
  rcases List.mem_cons.mp hb with rfl | hb
  · exact h1 a ha
  · exact h.2.2 a ha b hb

/-- In a sorted run child, item, ..., item every key is at most the key of one of
the items. -/
theorem leading_bound (its : List Item) (cs : List Node) (h : ItemsSorted (leading its cs)) :
    ∀ x ∈ leading its cs, ∃ it ∈ its, x.Key ≤ it.Key := by
  induction its generalizing cs with
  | nil => intro x hx; simp [leading] at hx
  | cons it its ih =>
    cases cs with
    | nil => intro x hx; simp [leading] at hx
    | cons c cs =>
      intro x hx
      simp only [leading] at h hx
      rcases List.mem_append.mp hx with hx | hx
      · exact ⟨it, List.mem_cons_self _ _,
          le_of_lt (h.lt_of_append x hx it (List.mem_cons_self _ _))⟩
      · rcases List.mem_cons.mp hx with rfl | hx
        · exact ⟨x, List.mem_cons_self _ _, le_refl _⟩
        · have hs : ItemsSorted (leading its cs) :=
            (List.pairwise_cons.mp h.append_right).2
          obtain ⟨y, hy, hxy⟩ := ih cs hs x hx
          exact ⟨y, List.mem_cons_of_mem _ hy, hxy⟩

theorem leading_lt (key : String) (its : List Item) (cs : List Node)
    (h : ItemsSorted (leading its cs)) (hits : ∀ it ∈ its, it.Key < key) :
    ∀ x ∈ leading its cs, x.Key < key := by
  intro x hx
  obtain ⟨it, hit, hle⟩ := leading_bound its cs h x hx
  exact lt_of_le_of_lt hle (hits it hit)

theorem trailing_gt (key : String) (its : List Item) (cs : List Node)
    (h : ItemsSorted (trailing its cs)) (hits : ∀ it, its[0]? = some it → key < it.Key) :
    ∀ x ∈ trailing its cs, key < x.Key := by
  cases its with
  | nil => intro x hx; simp [trailing] at hx
  | cons it its =>
    intro x hx
    simp only [trailing] at h hx
    have hk := hits it (by simp)
    rcases List.mem_cons.mp hx with rfl | hx
    · exact hk
    · exact lt_trans hk ((List.pairwise_cons.mp h).1 x hx)

/-- Splitting a full child keeps its in-order items: lower half, median, upper
half. -/
theorem inorder_halves {lo h : Nat} {c : Node} (hb : Balanced lo h c)
    (hfull : c.Items.length = 2 * degree - 1) (m : Item) (hm : c.Items[degree - 1]? = some m) :
    c.inorder = c.lowerHalf.inorder ++ m :: c.upperHalf.inorder := by
  cases hb with
  | leaf items =>
    simp only [Node.Items_mk] at hm
    simp only [Node.lowerHalf, Node.upperHalf, Node.inorder_mk, if_true, Node.Items_mk,
      Node.IsLeaf_mk]
    exact eq_take_cons_drop hm
  | node items children h h1 hlen hch hfill =>
    simp only [Node.Items_mk] at hm hfull
    have h7 : 2 * degree - 1 = 7 := rfl
    have h3 : degree - 1 = 3 := rfl
    have h4 : degree = 3 + 1 := rfl
    have hlt : 3 < children.length := by omega
    have hc : children[3]? = some children[3] := List.getElem?_eq_getElem hlt
    simp only [Node.lowerHalf, Node.upperHalf, Node.inorder_mk, Bool.false_eq_true, if_false,
      Node.Items_mk, Node.IsLeaf_mk, Node.Children_mk]
    rw [h3] at hm ⊢
    rw [h4]
    rw [interleave_split items children 3 _ hc (by omega), drop_eq_cons_of_getElem? hm]
    have ht : List.take (3 + 1) children = List.take 3 children ++ [children[3]] := by
      rw [List.take_succ, hc]; rfl
    have hl : interleave (List.take 3 items) (List.take (3 + 1) children) =
        leading (List.take 3 items) (List.take 3 children) ++ (children[3]).inorder := by
      rw [ht]
      have := interleave_append (List.take 3 items) [] (List.take 3 children) [children[3]]
        (by simp; omega)
      simpa [interleave] using this
    rw [hl]
    simp [trailing]

/-! ## Insertion of a new key into sorted contents -/

theorem mem_inorder_of_mem_items {lo h : Nat} {n : Node} (hb : Balanced lo h n) :
    ∀ it ∈ n.Items, it ∈ n.inorder := by
  cases hb with
  | leaf items => intro it hit; simpa [Node.inorder_mk] using hit
  | node items children h h1 hlen hch hfill =>
    intro it hit
    simp only [Node.Items_mk] at hit
    simp only [Node.inorder_mk, Bool.false_eq_true, if_false]
    obtain ⟨j, hj⟩ := List.getElem?_of_mem hit
    have hjl := lt_length_of_getElem? hj
    have hc : children[j]? = some children[j] := List.getElem?_eq_getElem (by omega)
    rw [interleave_split items children j _ hc (by omega), drop_eq_cons_of_getElem? hj]
    simp [trailing]

theorem set_take_append_self {α : Type} (xs : List α) (i : Nat) (a x : α) (rest : List α)
    (hi : i ≤ xs.length) : (xs.take i ++ a :: rest).set i x = xs.take i ++ x :: rest := by
  have h : (xs.take i).length = i := by simp [hi]
  rw [List.set_append_right _ _ (by omega), h, Nat.sub_self, List.set_cons_zero]

theorem set_take_append_succ {α : Type} (xs : List α) (i : Nat) (a b x : α) (rest : List α)
    (hi : i ≤ xs.length) :
    (xs.take i ++ a :: b :: rest).set (i + 1) x = xs.take i ++ a :: x :: rest := by
  have h : (xs.take i).length = i := by simp [hi]
  rw [List.set_append_right _ _ (by omega), h]
  simp

/-- What `insertNonFull` does to the in-order items when the key is new: the
new item is put between the smaller and the larger ones. -/
theorem insertNonFull_inorder (key value : String) :
    ∀ fuel n n1, Node.insertNonFull fuel n key value = .ok n1 →
      ∀ lo h, Balanced lo h n → ItemsSorted n.inorder → key ∉ n.inorder.map Item.Key →
        ∃ l1 l2, n.inorder = l1 ++ l2 ∧ n1.inorder = l1 ++ ⟨key, value⟩ :: l2 ∧
          (∀ x ∈ l1, x.Key < key) ∧ (∀ x ∈ l2, key < x.Key) := by
  apply insertNonFull_induct key value
    (fun _ n n1 => ∀ lo h, Balanced lo h n → ItemsSorted n.inorder →
      key ∉ n.inorder.map Item.Key →
        ∃ l1 l2, n.inorder = l1 ++ l2 ∧ n1.inorder = l1 ++ ⟨key, value⟩ :: l2 ∧
          (∀ x ∈ l1, x.Key < key) ∧ (∀ x ∈ l2, key < x.Key))
  · intro fuel items children idx hf lo h hb hs hn
    exfalso
    apply hn
    simpa [Node.inorder_mk] using findKeyFrom_found hf
  · intro fuel items children idx hf lo h hb hs hn
    simp only [Node.inorder_mk, if_true] at hs hn ⊢
    obtain ⟨p, hp, heq, hgt, hle⟩ := leafInsert_eq items key value
    refine ⟨items.take p, items.drop p, (List.take_append_drop p items).symm, heq, ?_, hgt⟩
    intro x hx
    cases p with
    | zero => simp at hx
    | succ q =>
      have hq : q < items.length := by omega
      have hitq : items[q]? = some items[q] := List.getElem?_eq_getElem hq
      have h1 : ¬ key < (items[q]).Key := hle q _ rfl hitq
      have h2 : (items[q]).Key ≠ key := by
        intro he; apply hn; rw [← he]
        exact List.mem_map_of_mem _ (List.getElem_mem hq)
      have h3 : (items[q]).Key < key := lt_of_le_of_ne (not_lt.mp h1) h2
      rw [List.take_succ, hitq] at hx
      simp only [Option.toList_some, List.mem_append, List.mem_singleton] at hx
      rcases hx with hx | rfl
      · have hd := drop_eq_cons_of_getElem? hitq
        have hs2 : ItemsSorted (items.take q ++ items[q] :: items.drop (q + 1)) := by
          rw [← hd, List.take_append_drop]; exact hs
        exact lt_trans (hs2.lt_of_append x hx _ (List.mem_cons_self _ _)) h3
      · exact h3
  · intro fuel items children hk lo h hb hs hn
    exfalso
    apply hn
    obtain ⟨it, hit, hkey⟩ := keyAt_eq_true hk
    rw [← hkey]
    exact List.mem_map_of_mem _ (mem_inorder_of_mem_items hb it (List.getElem?_mem hit))
  · intro fuel items children c c2 hk hc hfull _ ih lo h hb hs hn
    cases hb with
    | node _ _ h h1 hlen hch hfill =>
      have hmem : c ∈ children := List.getElem?_mem hc
      have hi : searchFrom key items 0 ≤ items.length := by
        have := searchFrom_le key items 0; omega
      have hlt := lt_length_of_getElem? hc
      simp only [Node.inorder_mk, Bool.false_eq_true, if_false] at hs hn ⊢
      rw [interleave_split items children _ c hc hi] at hs hn
      rw [interleave_split items children _ c hc hi, interleave_set items children _ c2 hlt hi]
      obtain ⟨l1, l2, e1, e2, b1, b2⟩ := ih lo h (hch c hmem) hs.append_left.append_right
        (fun hin => hn (by
          simp only [List.map_append, List.mem_append] at hin ⊢
          exact Or.inl (Or.inr hin)))
      obtain ⟨sp1, sp2⟩ := search_spec key items
      have hA := leading_lt key _ _ hs.append_left.append_left sp1
      have hB := trailing_gt key _ _ hs.append_right (by
        intro it hit
        rw [List.getElem?_drop, Nat.add_zero] at hit
        exact lt_of_le_of_ne (sp2 it hit) (fun he => keyAt_eq_false hk it hit he.symm))
      generalize leading (List.take (searchFrom key items 0) items)
        (List.take (searchFrom key items 0) children) = la at hA ⊢
      generalize trailing (List.drop (searchFrom key items 0) items)
        (List.drop (searchFrom key items 0 + 1) children) = lb at hB ⊢
      refine ⟨la ++ l1, l2 ++ lb, by rw [e1]; simp, by rw [e2]; simp, ?_, ?_⟩
      · intro x hx
        rcases List.mem_append.mp hx with hx | hx
        · exact hA x hx
        · exact b1 x hx
      · intro x hx
        rcases List.mem_append.mp hx with hx | hx
        · exact b2 x hx
        · exact hB x hx
  · intro fuel items children c n1 m c1 c2 hk hc hfull hsp hm hc1 _ ih lo h hb hs hn
    cases hb with
    | node _ _ h h1 hlen hch hfill =>
      have hmem : c ∈ children := List.getElem?_mem hc
      have hi : searchFrom key items 0 ≤ items.length := by
        have := searchFrom_le key items 0; omega
      have hlt := lt_length_of_getElem? hc
      obtain ⟨m1, hm1, hs1⟩ := splitChild_balanced items children false _ _ hc
        (hch _ hmem) hfull hi
      rw [hs1] at hsp
      cases hsp
      simp only [Node.Items_mk, Node.Children_mk, Node.IsLeaf_mk] at hm hc1 ⊢
      rw [getElem?_take_append_self items _ m1 _ hi] at hm
      cases hm
      obtain ⟨hb1, hb2, -, -⟩ := (hch _ hmem).halves hfull
      simp only [Node.inorder_mk, Bool.false_eq_true, if_false] at hs hn ⊢
      rw [interleave_split items children _ c hc hi,
        inorder_halves (hch _ hmem) hfull m hm1] at hs hn
      rw [interleave_split items children _ c hc hi, inorder_halves (hch _ hmem) hfull m hm1]
      have hmk : m.Key ≠ key := by
        intro he; apply hn; rw [← he]
        exact List.mem_map_of_mem _ (by simp)
      obtain ⟨sp1, sp2⟩ := search_spec key items
      by_cases hgt : stringsCompare key m.Key > 0
      · simp only [if_pos hgt] at hc1 ⊢
        rw [getElem?_take_append_succ children _ _ _ _ (by omega)] at hc1
        cases hc1
        rw [set_take_append_succ children _ _ _ _ _ (by omega)]
        have hmlt : m.Key < key := (stringsCompare_gt_zero _ _).mp hgt
        obtain ⟨l1, l2, e1, e2, b1, b2⟩ := ih lo h hb2
          (List.pairwise_cons.mp hs.append_left.append_right.append_right).2
          (fun hin => hn (by
            simp only [List.map_append, List.mem_append, List.map_cons, List.mem_cons] at hin ⊢
            exact Or.inl (Or.inr (Or.inr (Or.inr hin)))))
        have hB := trailing_gt key _ _ hs.append_right (by
          intro it hit
          rw [List.getElem?_drop, Nat.add_zero] at hit
          exact lt_of_le_of_ne (sp2 it hit) (fun he => keyAt_eq_false hk it hit he.symm))
        rw [interleave_splitChild items children _ m _ _ hlt hi, e2]
        generalize leading (List.take (searchFrom key items 0) items)
          (List.take (searchFrom key items 0) children) = la at hs ⊢
        generalize trailing (List.drop (searchFrom key items 0) items)
          (List.drop (searchFrom key items 0 + 1) children) = lb at hs hB ⊢
        refine ⟨la ++ c.lowerHalf.inorder ++ m :: l1, l2 ++ lb, by rw [e1]; simp, by simp,
          ?_, ?_⟩
        · intro x hx
          simp only [List.mem_append, List.mem_cons] at hx
          rcases hx with (hx | hx) | (rfl | hx)
          · refine lt_trans (hs.append_left.lt_of_append x hx m (by simp)) hmlt
          · refine lt_trans (hs.append_left.append_right.lt_of_append x hx m (by simp)) hmlt
          · exact hmlt
          · exact b1 x hx
        · intro x hx
          rcases List.mem_append.mp hx with hx | hx
          · exact b2 x hx
          · exact hB x hx
      · simp only [if_neg hgt] at hc1 ⊢
        rw [getElem?_take_append_self children _ _ _ (by omega)] at hc1
        cases hc1
        rw [set_take_append_self children _ _ _ _ (by omega)]
        have hmgt : key < m.Key := by
          have : ¬ m.Key < key := fun h => hgt ((stringsCompare_gt_zero _ _).mpr h)
          exact lt_of_le_of_ne (not_lt.mp this) (fun he => hmk he.symm)
        obtain ⟨l1, l2, e1, e2, b1, b2⟩ := ih lo h hb1
          hs.append_left.append_right.append_left
          (fun hin => hn (by
            simp only [List.map_append, List.mem_append, List.map_cons, List.mem_cons] at hin ⊢
            exact Or.inl (Or.inr (Or.inl hin))))
        have hA := leading_lt key _ _ hs.append_left.append_left sp1
        rw [interleave_splitChild items children _ m _ _ hlt hi, e2]
        generalize leading (List.take (searchFrom key items 0) items)
          (List.take (searchFrom key items 0) children) = la at hs hA ⊢
        generalize trailing (List.drop (searchFrom key items 0) items)
          (List.drop (searchFrom key items 0 + 1) children) = lb at hs ⊢
        refine ⟨la ++ l1, l2 ++ m :: c.upperHalf.inorder ++ lb, by rw [e1]; simp, by simp,
          ?_, ?_⟩
        · intro x hx
          rcases List.mem_append.mp hx with hx | hx
          · exact hA x hx
          · exact b1 x hx
        · intro x hx
          simp only [List.mem_append, List.mem_cons] at hx
          rcases hx with (hx | rfl | hx) | hx
          · exact b2 x hx
          · exact hmgt
          · exact lt_trans hmgt
              ((List.pairwise_cons.mp hs.append_left.append_right.append_right).1 x hx)
          · exact lt_trans hmgt (hs.lt_of_append m (by simp) x hx)

/-! ## Set and runs of Set on sorted contents -/

theorem traverseFrom_eq (its : List Item) (cs : List Node)
    (hcs : ∀ c ∈ cs, c.traverse = .ok (c.inorder.map Item.Key))
    (hlen : cs.length = its.length + 1) :
    traverseFrom its cs = .ok ((interleave its cs).map Item.Key) := by
  induction its generalizing cs with
  | nil =>
    cases cs with
    | nil => simp at hlen
    | cons c cs =>
      simp only [traverseFrom, interleave]
      exact hcs c (List.mem_cons_self _ _)
  | cons it its ih =>
    cases cs with
    | nil => simp at hlen
    | cons c cs =>
      simp only [List.length_cons, Nat.add_right_cancel_iff] at hlen
      simp only [traverseFrom, interleave]
      rw [hcs c (List.mem_cons_self _ _),
        ih cs (fun d hd => hcs d (List.mem_cons_of_mem _ hd)) hlen]
      simp

/-- On a balanced node the traversal of `List` returns the keys of the in-order
items. -/
theorem Balanced.traverse_eq {lo h : Nat} {n : Node} (hb : Balanced lo h n) :
    n.traverse = .ok (n.inorder.map Item.Key) := by
  induction hb with
  | leaf items => simp [Node.traverse, Node.inorder_mk]
  | node items children h h1 hlen hch hfill ih =>
    simp only [Node.traverse, Node.inorder_mk, Bool.false_eq_true, if_false]
    exact traverseFrom_eq items children ih hlen

/-- The two ways `Set` reaches `insertNonFull`. -/
theorem set_cases {t t1 : BTree} {key value : String} (h : t.Set key value = .ok t1) :
    (t.root.Items.length = 2 * degree - 1 ∧
      ∃ nr, Node.splitChild (.mk [] [t.root] false) 0 = .ok nr ∧
        Node.insertNonFull nr.height nr key value = .ok t1.root) ∨
    (t.root.Items.length ≠ 2 * degree - 1 ∧
      Node.insertNonFull t.root.height t.root key value = .ok t1.root) := by
  unfold BTree.Set at h
  by_cases hfull : t.root.Items.length = 2 * degree - 1
  · left
    simp only [if_pos hfull] at h
    refine ⟨hfull, ?_⟩
    split at h
    · cases h
    · next nr hs =>
      split at h
      · cases h
      · next r hr => cases h; exact ⟨nr, hs, hr⟩
  · right
    simp only [if_neg hfull] at h
    refine ⟨hfull, ?_⟩
    split at h
    · cases h
    · next r hr => cases h; exact hr

/-- `Set` of a key that is not stored, on a well-shaped tree with sorted
contents: the new item enters the in-order sequence at its sorted place. -/
theorem set_new_key {lo : Nat} (hlo : lo ≤ degree - 1) (t : BTree) (key value : String)
    (hw : t.WellShaped lo) (hs : ItemsSorted t.root.inorder)
    (hn : key ∉ t.root.inorder.map Item.Key) :
    ∃ t1, t.Set key value = .ok t1 ∧ t1.WellShaped lo ∧
      ∃ l1 l2, t.root.inorder = l1 ++ l2 ∧ t1.root.inorder = l1 ++ ⟨key, value⟩ :: l2 ∧
        (∀ x ∈ l1, x.Key < key) ∧ (∀ x ∈ l2, key < x.Key) := by
  obtain ⟨t1, hset, hw1⟩ := set_wellShaped hlo t key value hw
  refine ⟨t1, hset, hw1, ?_⟩
  obtain ⟨h, hb, hle⟩ := hw
  rcases set_cases hset with ⟨hfull, nr, hsp, hins⟩ | ⟨hfull, hins⟩
  · obtain ⟨m, hm, hs1⟩ := splitRoot_eq hb hfull
    rw [hs1] at hsp
    cases hsp
    have hio : (Node.mk [m] [t.root.lowerHalf, t.root.upperHalf] false).inorder =
        t.root.inorder := by
      rw [inorder_halves hb hfull m hm]
      simp [Node.inorder_mk, interleave]
    have := insertNonFull_inorder key value _ _ _ hins lo (h + 1)
      (splitRoot_balanced hlo hb hfull m) (by rw [hio]; exact hs) (by rw [hio]; exact hn)
    rw [hio] at this
    exact this
  · exact insertNonFull_inorder key value _ _ _ hins lo h hb hs hn

theorem run_sets_sorted {lo : Nat} (hlo : lo ≤ degree - 1) (kvs : List (String × String)) :
    ∀ t : BTree, t.WellShaped lo → ItemsSorted t.root.inorder →
      (kvs.map Prod.fst).Nodup → (∀ k ∈ kvs.map Prod.fst, k ∉ t.root.inorder.map Item.Key) →
      ∃ t1, run t (sets kvs) = .ok t1 ∧ t1.WellShaped lo ∧ ItemsSorted t1.root.inorder ∧
        (t1.root.inorder.map Item.Key).Perm (t.root.inorder.map Item.Key ++ kvs.map Prod.fst) := by
  induction kvs with
  | nil => intro t hw hs _ _; exact ⟨t, rfl, hw, hs, by simp⟩
  | cons kv kvs ih =>
    intro t hw hs hnd hnew
    simp only [List.map_cons, List.nodup_cons] at hnd
    obtain ⟨t1, hset, hw1, l1, l2, e1, e2, b1, b2⟩ :=
      set_new_key hlo t kv.1 kv.2 hw hs (hnew kv.1 (by simp))
    have hs1 : ItemsSorted t1.root.inorder := by
      rw [e2]
      exact ItemsSorted.insert_mid (by rw [← e1]; exact hs) b1 b2
    have hnew1 : ∀ k ∈ kvs.map Prod.fst, k ∉ t1.root.inorder.map Item.Key := by
      intro k hk hin
      rw [e2] at hin
      simp only [List.map_append, List.map_cons, List.mem_append, List.mem_cons] at hin
      have hk0 := hnew k (by simp only [List.map_cons, List.mem_cons]; exact Or.inr hk)
      rw [e1] at hk0
      simp only [List.map_append, List.mem_append] at hk0
      rcases hin with hin | rfl | hin
      · exact hk0 (Or.inl hin)
      · exact hnd.1 hk
      · exact hk0 (Or.inr hin)
    obtain ⟨t2, hrun, hw2, hs2, hp⟩ := ih t1 hw1 hs1 hnd.2 hnew1
    refine ⟨t2, ?_, hw2, hs2, ?_⟩
    · simp only [sets, List.map_cons, run, BTree.apply, hset]
      exact hrun
    · refine hp.trans ?_
      rw [e1, e2]
      simp only [List.map_append, List.map_cons, List.append_assoc, List.cons_append]
      refine List.Perm.append_left _ ?_
      exact List.perm_middle.symm

/-! ## Growth of a leaf root -/

theorem run_append (t : BTree) (ops1 ops2 : List Op) :
    run t (ops1 ++ ops2) =
      match run t ops1 with
      | .error e => .error e
      | .ok t1 => run t1 ops2 := by
  induction ops1 generalizing t with
  | nil => rfl
  | cons op ops1 ih =>
    simp only [List.cons_append, run]
    cases t.apply op with
    | error e => rfl
    | ok t1 => exact ih t1

theorem sets_append (a b : List (String × String)) : sets (a ++ b) = sets a ++ sets b := by
  simp [sets]

theorem findKeyFrom_absent {key : String} {items : List Item} (k : Nat)
    (h : key ∉ items.map Item.Key) : (findKeyFrom key items k).2 = false := by
  cases hf : findKeyFrom key items k with
  | mk idx b =>
    cases b with
    | false => rfl
    | true => exact absurd (findKeyFrom_found hf) h

/-- The leaf branch of `insertNonFull` for a key the leaf does not hold. -/
theorem insertNonFull_leaf_new (fuel : Nat) (items : List Item) (children : List Node)
    (key value : String) (h : key ∉ items.map Item.Key) :
    Node.insertNonFull (fuel + 1) (.mk items children true) key value =
      .ok (.mk (leafInsert items key value) children true) := by
  rw [Node.insertNonFull]
  simp only [if_true]
  have := findKeyFrom_absent 0 h
  cases hf : findKeyFrom key items 0 with
  | mk idx b =>
    rw [hf] at this
    simp only at this
    subst this
    rfl

theorem leafInsert_perm (items : List Item) (key value : String) :
    (leafInsert items key value).Perm (⟨key, value⟩ :: items) := by
  obtain ⟨p, -, heq, -, -⟩ := leafInsert_eq items key value
  rw [heq]
  refine List.perm_middle.trans ?_
  rw [List.take_append_drop]

/-- While the root is a leaf with room, `Set` of new keys keeps it a leaf and
adds one item per call. -/
theorem run_sets_leaf (kvs : List (String × String)) :
    ∀ items : List Item, items.length + kvs.length ≤ 2 * degree - 1 →
      (kvs.map Prod.fst).Nodup → (∀ k ∈ kvs.map Prod.fst, k ∉ items.map Item.Key) →
      ∃ items1, run ⟨.mk items [] true⟩ (sets kvs) = .ok ⟨.mk items1 [] true⟩ ∧
        items1.length = items.length + kvs.length ∧
        (items1.map Item.Key).Perm (items.map Item.Key ++ kvs.map Prod.fst) := by
  induction kvs with
  | nil => intro items _ _ _; exact ⟨items, rfl, rfl, by simp⟩
  | cons kv kvs ih =>
    intro items hlen hnd hnew
    simp only [List.map_cons, List.nodup_cons] at hnd
    have h7 : 2 * degree - 1 = 7 := rfl
    simp only [List.length_cons] at hlen
    have hk : kv.1 ∉ items.map Item.Key := hnew kv.1 (by simp)
    have hset : (BTree.mk (.mk items [] true)).Set kv.1 kv.2 =
        .ok ⟨.mk (leafInsert items kv.1 kv.2) [] true⟩ := by
      unfold BTree.Set
      simp only [Node.Items_mk]
      rw [if_neg (by omega)]
      have hh : (Node.mk items [] true).height = 0 + 1 := by simp [Node.height, heightList]
      rw [hh, insertNonFull_leaf_new 0 items [] kv.1 kv.2 hk]
    have hperm := leafInsert_perm items kv.1 kv.2
    obtain ⟨items1, hrun, hl1, hp1⟩ := ih (leafInsert items kv.1 kv.2)
      (by rw [leafInsert_length]; omega) hnd.2 (by
        intro k hkm hin
        have := (hperm.map Item.Key).mem_iff.mp hin
        simp only [List.map_cons, List.mem_cons] at this
        rcases this with rfl | h
        · exact hnd.1 hkm
        · exact hnew k (by simp only [List.map_cons, List.mem_cons]; exact Or.inr hkm) h)
    refine ⟨items1, ?_, ?_, ?_⟩
    · simp only [sets, List.map_cons, run, BTree.apply, hset]
      exact hrun
    · rw [hl1, leafInsert_length]; simp only [List.length_cons]; omega
    · refine hp1.trans ?_
      refine ((hperm.map Item.Key).append_right _).trans ?_
      simp only [List.map_cons, List.cons_append]
      exact List.perm_middle.symm

/-! ## Root split of a full leaf -/

/-- `Set` of a new key on a root that is a full leaf: one split, a root with the
median over two leaves, and the new item in one of them. -/
theorem set_full_leaf_root (items : List Item) (hlen : items.length = 2 * degree - 1)
    (key value : String) (hk : key ∉ items.map Item.Key) :
    ∃ m l r, (BTree.mk (.mk items [] true)).Set key value =
        .ok ⟨.mk [m] [.mk l [] true, .mk r [] true] false⟩ ∧
      l.length + r.length = 2 * degree - 1 := by
  have h7 : 2 * degree - 1 = 7 := rfl
  have h3 : degree - 1 = 3 := rfl
  have hb : Balanced 0 1 (.mk items [] true) := Balanced.leaf items
  obtain ⟨m, hm, hs⟩ := splitRoot_eq hb hlen
  simp only [Node.Items_mk] at hm
  have hmem : m ∈ items := List.getElem?_mem hm
  have hmk : m.Key ≠ key := fun he => hk (he ▸ List.mem_map_of_mem _ hmem)
  have hlo : (Node.mk items [] true).lowerHalf = .mk (items.take 3) [] true := by
    simp [Node.lowerHalf, degree]
  have hup : (Node.mk items [] true).upperHalf = .mk (items.drop 4) [] true := by
    simp [Node.upperHalf, degree]
  rw [hlo, hup] at hs
  have hkl : key ∉ (items.take 3).map Item.Key := fun hin => hk (by
    obtain ⟨x, hx, rfl⟩ := List.mem_map.mp hin
    exact List.mem_map_of_mem _ (List.mem_of_mem_take hx))
  have hkr : key ∉ (items.drop 4).map Item.Key := fun hin => hk (by
    obtain ⟨x, hx, rfl⟩ := List.mem_map.mp hin
    exact List.mem_map_of_mem _ (List.mem_of_mem_drop hx))
  have hh : (Node.mk [m] [Node.mk (items.take 3) [] true, Node.mk (items.drop 4) [] true]
      false).height = 1 + 1 := by
    simp [Node.height, heightList]
  unfold BTree.Set
  simp only [Node.Items_mk]
  rw [if_pos hlen, hs]
  simp only
  rw [hh, Node.insertNonFull]
  simp only [Bool.false_eq_true, if_false, searchFrom]
  by_cases hle : stringsCompare key m.Key ≤ 0
  · simp only [if_pos hle]
    have hka : keyAt [m] 0 key = false := by simp [keyAt, hmk]
    simp only [hka, Bool.false_eq_true, if_false, List.getElem?_cons_zero, Node.Items_mk,
      List.length_take]
    rw [if_neg (by omega), insertNonFull_leaf_new 0 _ _ key value hkl]
    refine ⟨m, _, _, rfl, ?_⟩
    simp [leafInsert_length]
    omega
  · simp only [if_neg hle]
    have hka : keyAt [m] (0 + 1) key = false := by simp [keyAt]
    simp only [hka, Bool.false_eq_true, if_false, Node.Items_mk]
    simp only [List.getElem?_cons_succ, List.getElem?_cons_zero, Node.Items_mk,
      List.length_drop]
    rw [if_neg (by omega), insertNonFull_leaf_new 0 _ _ key value hkr]
    refine ⟨m, _, _, rfl, ?_⟩
    simp [leafInsert_length]
    omega

/-! ## List and the fresh tree -/

theorem BTree.List_eq {lo : Nat} {t : BTree} (hw : t.WellShaped lo) :
    t.List = .ok (t.root.inorder.map Item.Key) := by
  obtain ⟨h, hb, -⟩ := hw
  exact hb.traverse_eq

theorem newBTree_inorder : NewBTree.root.inorder = [] := rfl

/-! ## The step bound of insertNonFull -/

/-- What a successful `splitChild` returns, on any node. -/
theorem splitChild_ok {n n1 : Node} {i : Nat} (h : n.splitChild i = .ok n1) :
    ∃ c m, n.Children[i]? = some c ∧ c.Items[degree - 1]? = some m ∧
      n1 = .mk (n.Items.take i ++ m :: n.Items.drop i)
        (n.Children.take i ++ c.lowerHalf :: c.upperHalf :: n.Children.drop (i + 1)) n.IsLeaf := by
  cases n with
  | mk items children leaf =>
    simp only [Node.splitChild, index, Node.Children_mk, Node.Items_mk, Node.IsLeaf_mk,
      bind, Except.bind, pure, Except.pure, throw, throwThe, MonadExceptOf.throw] at h
    cases hc : children[i]? with
    | none => rw [hc] at h; cases h
    | some c =>
      rw [hc] at h
      simp only at h
      cases hm : c.Items[degree - 1]? with
      | none => rw [hm] at h; cases h
      | some m =>
        rw [hm] at h
        simp only at h
        refine ⟨c, m, hc, hm, ?_⟩
        cases c with
        | mk cit cch cl =>
          simp only [Node.Children_mk, Node.Items_mk, Node.IsLeaf_mk] at h
          cases cl with
          | true =>
            simp only [if_true] at h
            split at h
            · cases h
              simp [Node.lowerHalf, Node.upperHalf, degree]
            · cases h
          | false =>
            simp only [Bool.false_eq_true, if_false] at h
            split at h
            · split at h
              · cases h
                simp [Node.lowerHalf, Node.upperHalf, degree]
              · cases h
            · cases h

/-- A failing `splitChild` is an index out of range, never the step bound. -/
theorem splitChild_ne_outOfFuel (n : Node) (i : Nat) :
    n.splitChild i ≠ .error .outOfFuel := by
  cases n with
  | mk items children leaf =>
    simp only [Node.splitChild, index, Node.Children_mk, Node.Items_mk, Node.IsLeaf_mk,
      bind, Except.bind, pure, Except.pure, throw, throwThe, MonadExceptOf.throw]
    cases hc : children[i]? with
    | none => simp
    | some c =>
      simp only
      cases hm : c.Items[degree - 1]? with
      | none => simp
      | some m =>
        simp only
        split
        · split <;> simp
        · split
          · split <;> simp
          · simp

theorem heightList_le {cs : List Node} {b : Nat} (h : ∀ c ∈ cs, c.height ≤ b) :
    heightList cs ≤ b := by
  induction cs with
  | nil => simp [heightList]
  | cons c cs ih =>
    rw [heightList]
    exact max_le (h c (List.mem_cons_self _ _)) (ih (fun d hd => h d (List.mem_cons_of_mem _ hd)))

theorem Node.height_eq (n : Node) : n.height = heightList n.Children + 1 := by
  cases n with
  | mk items children leaf => rw [Node.height_mk, Node.Children_mk]

theorem lowerHalf_height_le (c : Node) : c.lowerHalf.height ≤ c.height := by
  cases c with
  | mk items children leaf =>
    rw [Node.lowerHalf, Node.height_mk, Node.height_mk]
    simp only [Node.Children_mk, Node.IsLeaf_mk]
    refine Nat.succ_le_succ (heightList_le ?_)
    intro d hd
    split at hd
    · exact height_le_heightList hd
    · exact height_le_heightList (List.mem_of_mem_take hd)

theorem upperHalf_height_le (c : Node) : c.upperHalf.height ≤ c.height := by
  cases c with
  | mk items children leaf =>
    rw [Node.upperHalf, Node.height_mk, Node.height_mk]
    simp only [Node.Children_mk, Node.IsLeaf_mk]
    refine Nat.succ_le_succ (heightList_le ?_)
    intro d hd
    split at hd
    · cases hd
    · exact height_le_heightList (List.mem_of_mem_drop hd)

/-- The children after `splitChild` are no higher than the children before. -/
theorem splitChild_child_height {n n1 : Node} {i : Nat} (h : n.splitChild i = .ok n1) :
    ∀ d ∈ n1.Children, d.height ≤ heightList n.Children := by
  obtain ⟨c, m, hc, -, rfl⟩ := splitChild_ok h
  have hcm : c ∈ n.Children := List.getElem?_mem hc
  intro d hd
  simp only [Node.Children_mk, List.mem_append, List.mem_cons] at hd
  rcases hd with hd | rfl | rfl | hd
  · exact height_le_heightList (List.mem_of_mem_take hd)
  · exact le_trans (lowerHalf_height_le c) (height_le_heightList hcm)
  · exact le_trans (upperHalf_height_le c) (height_le_heightList hcm)
  · exact height_le_heightList (List.mem_of_mem_drop hd)

/-- The recursion of `insertNonFull` never uses more steps than the node has
levels: on any node, with at least `height` steps, it does not run out. -/
theorem insertNonFull_fuel (key value : String) :
    ∀ fuel n, n.height ≤ fuel → Node.insertNonFull fuel n key value ≠ .error .outOfFuel := by
  intro fuel
  induction fuel with
  | zero => intro n hn; rw [Node.height_eq] at hn; omega
  | succ fuel ih =>
    intro n hn
    cases n with
    | mk items children leaf =>
      rw [Node.height_mk] at hn
      rw [Node.insertNonFull]
      cases leaf with
      | true =>
        simp only [if_true]
        split <;> simp
      | false =>
        simp only [Bool.false_eq_true, if_false]
        split
        · simp
        · split
          · simp
          · next c hc =>
            have hch : c.height ≤ fuel :=
              le_trans (height_le_heightList (List.getElem?_mem hc)) (by omega)
            split
            · split
              · next e hs =>
                intro hh
                cases hh
                exact splitChild_ne_outOfFuel _ _ hs
              · next n1 hs =>
                split
                · simp
                · split
                  · simp
                  · next c1 hc1 =>
                    have h1 : c1.height ≤ fuel :=
                      le_trans (splitChild_child_height hs c1 (List.getElem?_mem hc1))
                        (by simp only [Node.Children_mk]; omega)
                    have := ih c1 h1
                    split
                    · next e he => intro hh; cases hh; exact this he
                    · simp
            · have := ih c hch
              split
              · next e he => intro hh; cases hh; exact this he
              · simp

/-- `Set` gives `insertNonFull` enough steps on every tree: it never fails for
lack of them. -/
theorem set_ne_outOfFuel (t : BTree) (key value : String) :
    t.Set key value ≠ .error .outOfFuel := by
  unfold BTree.Set
  simp only
  split
  · split
    · next e hs => intro hh; cases hh; exact splitChild_ne_outOfFuel _ _ hs
    · next nr hs =>
      have := insertNonFull_fuel key value nr.height nr (le_refl _)
      split
      · next e he => intro hh; cases hh; exact this he
      · simp
  · have := insertNonFull_fuel key value t.root.height t.root (le_refl _)
    split
    · next e he => intro hh; cases hh; exact this he
    · simp

/-! ## Splitting keeps contents and leaf depths -/

theorem strictlyOrdered_iff (n : Node) : n.strictlyOrdered ↔ ItemsSorted n.inorder := by
  unfold Node.strictlyOrdered ItemsSorted
  rw [List.pairwise_map]
  constructor
  · intro h; exact h.imp (fun h => (stringsCompare_lt_zero _ _).mp h)
  · intro h; exact h.imp (fun h => (stringsCompare_lt_zero _ _).mpr h)

/-- Splitting keeps the in-order items of a full node that, when internal, has
one child more than items. -/
theorem inorder_halves_of_count {c : Node} (hfull : c.Items.length = 2 * degree - 1)
    (hcount : c.IsLeaf = false → c.Children.length = 2 * degree) (m : Item)
    (hm : c.Items[degree - 1]? = some m) :
    c.inorder = c.lowerHalf.inorder ++ m :: c.upperHalf.inorder := by
  cases c with
  | mk items children leaf =>
    cases leaf with
    | true =>
      simp only [Node.Items_mk] at hm
      simp only [Node.lowerHalf, Node.upperHalf, Node.inorder_mk, if_true, Node.Items_mk,
        Node.IsLeaf_mk]
      exact eq_take_cons_drop hm
    | false =>
      have hlen := hcount rfl
      simp only [Node.Items_mk, Node.Children_mk, Node.IsLeaf_mk] at hm hfull hlen
      have h8 : 2 * degree = 8 := rfl
      have h7 : 2 * degree - 1 = 7 := rfl
      have h3 : degree - 1 = 3 := rfl
      have h4 : degree = 3 + 1 := rfl
      have hlt : 3 < children.length := by omega
      have hc : children[3]? = some children[3] := List.getElem?_eq_getElem hlt
      simp only [Node.lowerHalf, Node.upperHalf, Node.inorder_mk, Bool.false_eq_true, if_false,
        Node.Items_mk, Node.IsLeaf_mk, Node.Children_mk]
      rw [h3] at hm ⊢
      rw [h4]
      rw [interleave_split items children 3 _ hc (by omega), drop_eq_cons_of_getElem? hm]
      have ht : List.take (3 + 1) children = List.take 3 children ++ [children[3]] := by
        rw [List.take_succ, hc]; rfl
      have hl : interleave (List.take 3 items) (List.take (3 + 1) children) =
          leading (List.take 3 items) (List.take 3 children) ++ (children[3]).inorder := by
        rw [ht]
        have := interleave_append (List.take 3 items) [] (List.take 3 children) [children[3]]
          (by simp; omega)
        simpa [interleave] using this
      rw [hl]
      simp [trailing]

theorem leafDepthsList_append (a b : List Node) :
    leafDepthsList (a ++ b) = leafDepthsList a ++ leafDepthsList b := by
  induction a with
  | nil => simp [leafDepthsList]
  | cons c a ih => simp [leafDepthsList, ih]

/-- The leaves of the two halves of a split node lie at the depths of the leaves
of the node. -/
theorem mem_leafDepths_halves {c : Node} (d : Nat) :
    d ∈ c.lowerHalf.leafDepths ++ c.upperHalf.leafDepths ↔ d ∈ c.leafDepths := by
  cases c with
  | mk items children leaf =>
    cases leaf with
    | true => simp [Node.lowerHalf, Node.upperHalf, Node.leafDepths]
    | false =>
      simp only [Node.lowerHalf, Node.upperHalf, Node.leafDepths, Node.IsLeaf_mk,
        Node.Children_mk, Bool.false_eq_true, if_false]
      rw [← List.map_append, ← leafDepthsList_append, List.take_append_drop]

/-! ## Delete keeps the shape -/

theorem Node.popLast_mk (items : List Item) (children : List Node) (leaf : Bool) :
    (Node.mk items children leaf).popLast =
      if leaf then
        match items.getLast? with
        | none => .error .indexOutOfRange
        | some it => .ok (it, .mk items.dropLast children leaf)
      else
        match popLastChild children with
        | .error e => .error e
        | .ok (it, cs) => .ok (it, .mk items cs leaf) := by
  rfl

/-- The predecessor loop steps into the last child and changes nothing else. -/
theorem popLastChild_ok {cs cs1 : List Node} {it : Item}
    (h : popLastChild cs = .ok (it, cs1)) :
    ∃ c c1, cs[cs.length - 1]? = some c ∧ c.popLast = .ok (it, c1) ∧
      cs1 = cs.set (cs.length - 1) c1 ∧ 0 < cs.length := by
  induction cs generalizing cs1 with
  | nil => simp [popLastChild] at h
  | cons c cs ih =>
    cases cs with
    | nil =>
      simp only [popLastChild] at h
      split at h
      · cases h
      · next it1 c1 hp =>
        cases h
        exact ⟨c, c1, rfl, hp, rfl, by simp⟩
    | cons d cs =>
      simp only [popLastChild] at h
      split at h
      · cases h
      · next it1 rest hp =>
        cases h
        obtain ⟨c0, c1, h1, h2, h3, h4⟩ := ih hp
        refine ⟨c0, c1, ?_, h2, ?_, by simp⟩
        · simpa using h1
        · rw [h3]; simp

theorem Balanced.of_items_length {lo h : Nat} {items items1 : List Item} {children : List Node}
    {leaf : Bool} (hb : Balanced lo h (.mk items children leaf))
    (hlen : items1.length = items.length) : Balanced lo h (.mk items1 children leaf) := by
  cases hb with
  | leaf _ => exact Balanced.leaf _
  | node _ _ h h1 hl hch hfill => exact Balanced.node _ _ h (by omega) (by omega) hch hfill

theorem Balanced.set_child {lo h : Nat} {items : List Item} {children : List Node}
    (hb : Balanced lo (h + 1) (.mk items children false)) (i : Nat) (c1 : Node)
    (hb1 : Balanced lo h c1) (hfill1 : lo ≤ c1.Items.length ∧ c1.Items.length ≤ 2 * degree - 1) :
    Balanced lo (h + 1) (.mk items (children.set i c1) false) := by
  cases hb with
  | node _ _ h h1 hl hch hfill =>
    refine Balanced.node _ _ h h1 (by simpa using hl) ?_ ?_
    · intro x hx
      rcases List.mem_or_eq_of_mem_set hx with hx | rfl
      · exact hch x hx
      · exact hb1
    · intro x hx
      rcases List.mem_or_eq_of_mem_set hx with hx | rfl
      · exact hfill x hx
      · exact hfill1

theorem Balanced.child {lo h : Nat} {items : List Item} {children : List Node}
    (hb : Balanced lo (h + 1) (.mk items children false)) {c : Node} (hc : c ∈ children) :
    Balanced lo h c ∧ lo ≤ c.Items.length ∧ c.Items.length ≤ 2 * degree - 1 := by
  cases hb with
  | node _ _ h h1 hl hch hfill => exact ⟨hch c hc, hfill c hc⟩

theorem Balanced.internal_height {lo h : Nat} {items : List Item} {children : List Node}
    (hb : Balanced lo h (.mk items children false)) : ∃ h1, h = h1 + 1 := by
  cases hb with
  | node _ _ h h1 hl hch hfill => exact ⟨h, rfl⟩

/-- Removing the last item of the rightmost leaf keeps the shape, with no lower
bound on the items of a node. -/
theorem popLast_balanced (n : Node) :
    ∀ h it n1, Balanced 0 h n → n.popLast = .ok (it, n1) →
      Balanced 0 h n1 ∧ n1.Items.length ≤ n.Items.length := by
  induction n using Node.induct with
  | h items children leaf ih =>
    intro h it n1 hb hp
    rw [Node.popLast_mk] at hp
    cases leaf with
    | true =>
      simp only [if_true] at hp
      split at hp
      · cases hp
      · cases hp
        cases hb with
        | leaf _ => exact ⟨Balanced.leaf _, by simp⟩
    | false =>
      simp only [Bool.false_eq_true, if_false] at hp
      split at hp
      · cases hp
      · next it1 cs hpc =>
        cases hp
        obtain ⟨c, c1, hc, hpl, rfl, hpos⟩ := popLastChild_ok hpc
        obtain ⟨h1, rfl⟩ := hb.internal_height
        have hcm : c ∈ children := List.getElem?_mem hc
        obtain ⟨hbc, -, hle⟩ := hb.child hcm
        obtain ⟨hb1, hle1⟩ := ih c hcm h1 it c1 hbc hpl
        exact ⟨hb.set_child _ c1 hb1 ⟨Nat.zero_le _, by omega⟩, le_refl _⟩

theorem removeItem_balanced {h : Nat} {n n1 : Node} {keyIndex : Nat} (hb : Balanced 0 h n)
    (hr : n.removeItem keyIndex = .ok n1) :
    Balanced 0 h n1 ∧ n1.Items.length ≤ n.Items.length := by
  cases n with
  | mk items children leaf =>
    unfold Node.removeItem at hr
    simp only [Node.Items_mk, Node.Children_mk, Node.IsLeaf_mk] at hr
    cases leaf with
    | true =>
      simp only [if_true] at hr
      split at hr
      · cases hr
        cases hb with
        | leaf _ =>
          refine ⟨Balanced.leaf _, ?_⟩
          simp only [Node.Items_mk, List.length_eraseIdx]
          split <;> omega
      · cases hr
    | false =>
      simp only [Bool.false_eq_true, if_false] at hr
      split at hr
      · cases hr
      · next c hc =>
        split at hr
        · cases hr
        · next it c1 hp =>
          split at hr
          · cases hr
            obtain ⟨h1, rfl⟩ := hb.internal_height
            have hcm : c ∈ children := List.getElem?_mem hc
            obtain ⟨hbc, -, hle⟩ := hb.child hcm
            obtain ⟨hb1, hle1⟩ := popLast_balanced c h1 it c1 hbc hp
            have := hb.set_child keyIndex c1 hb1 ⟨Nat.zero_le _, by omega⟩
            exact ⟨this.of_items_length (by simp), by simp⟩
          · cases hr

theorem removeAt_balanced (p : List Nat) :
    ∀ h n n1, Balanced 0 h n → Node.removeAt n p = .ok n1 →
      Balanced 0 h n1 ∧ n1.Items.length ≤ n.Items.length := by
  induction p with
  | nil => intro h n n1 _ hr; simp [Node.removeAt] at hr
  | cons i rest ih =>
    intro h n n1 hb hr
    cases rest with
    | nil =>
      simp only [Node.removeAt] at hr
      exact removeItem_balanced hb hr
    | cons j rest =>
      simp only [Node.removeAt] at hr
      split at hr
      · cases hr
      · next c hc =>
        split at hr
        · cases hr
        · next c1 hrec =>
          cases hr
          cases n with
          | mk items children leaf =>
            simp only [Node.Children_mk, Node.Items_mk, Node.IsLeaf_mk] at hc ⊢
            have hcm : c ∈ children := List.getElem?_mem hc
            cases hb with
            | leaf _ => simp at hcm
            | node _ _ h h1 hl hch hfill =>
              obtain ⟨hb1, hle1⟩ := ih h c c1 (hch c hcm) hrec
              have hf := hfill c hcm
              exact ⟨(Balanced.node _ _ h h1 hl hch hfill).set_child i c1 hb1
                ⟨Nat.zero_le _, by omega⟩, le_refl _⟩

/-- `Delete` keeps the tree well-shaped, with no lower bound on the items of a
node. -/
theorem delete_wellShaped {t t1 : BTree} {key : String} {b : Bool} (hw : t.WellShaped 0)
    (hd : t.Delete key = .ok (b, t1)) : t1.WellShaped 0 := by
  unfold BTree.Delete at hd
  split at hd
  · cases hd
  · cases hd; exact hw
  · next p hp =>
    split at hd
    · cases hd; exact hw
    · split at hd
      · cases hd
      · next r hr =>
        cases hd
        obtain ⟨h, hb, hle⟩ := hw
        obtain ⟨hb1, hle1⟩ := removeAt_balanced p h _ _ hb hr
        exact ⟨h, hb1, by show r.Items.length ≤ _; omega⟩

/-- Every tree reached from a well-shaped tree by `Set` and `Delete` calls is
well-shaped. -/
theorem run_wellShaped (ops : List Op) :
    ∀ t t1 : BTree, t.WellShaped 0 → run t ops = .ok t1 → t1.WellShaped 0 := by
  induction ops with
  | nil => intro t t1 hw hr; cases hr; exact hw
  | cons op ops ih =>
    intro t t1 hw hr
    simp only [run] at hr
    split at hr
    · cases hr
    · next t2 hap =>
      refine ih t2 t1 ?_ hr
      cases op with
      | set k v =>
        simp only [BTree.apply] at hap
        obtain ⟨t3, hs, hw3⟩ := set_wellShaped (Nat.zero_le _) t k v hw
        rw [hs] at hap
        cases hap
        exact hw3
      | delete k =>
        simp only [BTree.apply] at hap
        split at hap
        · cases hap
        · next b t3 hd => cases hap; exact delete_wellShaped hw hd

/-! ## Nodes handed to insertNonFull -/

theorem handed_not_full {key : String} {n x : Node} (hh : Handed key n x) :
    ∀ lo h, Balanced lo h n → n.Items.length < 2 * degree - 1 →
      x.Items.length < 2 * degree - 1 := by
  have h7 : 2 * degree - 1 = 7 := rfl
  have h3 : degree - 1 = 3 := rfl
  induction hh with
  | self n => intro lo h _ hn; exact hn
  | descend items children c x hk hc hfull _ ih =>
    intro lo h hb _
    cases hb with
    | node _ _ h h1 hl hch hfill =>
      have hcm : c ∈ children := List.getElem?_mem hc
      have := hfill c hcm
      exact ih lo h (hch c hcm) (by omega)
  | split items children c n1 m c1 x hk hc hfull hs hm hc1 _ ih =>
    intro lo h hb _
    cases hb with
    | node _ _ h h1 hl hch hfill =>
      have hcm : c ∈ children := List.getElem?_mem hc
      have hi : searchFrom key items 0 ≤ items.length := by
        have := searchFrom_le key items 0; omega
      obtain ⟨m1, hm1, hs1⟩ := splitChild_balanced items children false _ _ hc
        (hch _ hcm) hfull hi
      rw [hs1] at hs
      cases hs
      simp only [Node.Items_mk, Node.Children_mk] at hm hc1
      obtain ⟨hb1, hb2, hl1, hl2⟩ := (hch _ hcm).halves hfull
      by_cases hgt : stringsCompare key m.Key > 0
      · rw [if_pos hgt, getElem?_take_append_succ children _ _ _ _ (by omega)] at hc1
        cases hc1
        exact ih lo h hb2 (by omega)
      · rw [if_neg hgt, getElem?_take_append_self children _ _ _ (by omega)] at hc1
        cases hc1
        exact ih lo h hb1 (by omega)

theorem setHands_not_full {lo : Nat} (hlo : lo ≤ degree - 1) {t : BTree} (hw : t.WellShaped lo)
    (key : String) (x : Node) (hx : t.SetHands key x) : x.Items.length < 2 * degree - 1 := by
  have h7 : 2 * degree - 1 = 7 := rfl
  obtain ⟨h, hb, hle⟩ := hw
  unfold BTree.SetHands at hx
  by_cases hfull : t.root.Items.length = 2 * degree - 1
  · rw [if_pos hfull] at hx
    obtain ⟨nr, hs, hh⟩ := hx
    obtain ⟨m, hm, hs1⟩ := splitRoot_eq hb hfull
    rw [hs1] at hs
    cases hs
    exact handed_not_full hh lo (h + 1) (splitRoot_balanced hlo hb hfull m) (by simp; omega)
  · rw [if_neg hfull] at hx
    exact handed_not_full hx lo h hb (by omega)

theorem Balanced.count_all {lo h : Nat} {n : Node} (hb : Balanced lo h n) :
    ∀ x ∈ n :: n.descendants,
      (x.IsLeaf = true → x.Children = []) ∧
      (x.IsLeaf = false → x.Children.length = x.Items.length + 1) := by
  induction hb with
  | leaf items =>
    intro x hx
    simp only [Node.descendants, descendantsList, List.mem_singleton] at hx
    subst hx
    simp
  | node items children h h1 hlen hc hfill ih =>
    intro x hx
    rcases List.mem_cons.mp hx with rfl | hx
    · simp [hlen]
    · simp only [Node.descendants] at hx
      obtain ⟨c, hcm, hxc⟩ := mem_descendantsList.mp hx
      exact ih c hcm x (by
        rcases hxc with rfl | hxc
        · exact List.mem_cons_self _ _
        · exact List.mem_cons_of_mem _ hxc)

/-! ## Overwriting a stored key -/

theorem Node.sameShape_mk (items : List Item) (children : List Node) (leaf : Bool) (n : Node) :
    (Node.mk items children leaf).sameShape n =
      (leaf == n.IsLeaf && items.map Item.Key == n.Items.map Item.Key &&
        sameShapeList children n.Children) := by
  rfl

theorem Node.roomOnPath_mk (items : List Item) (children : List Node) (leaf : Bool)
    (key : String) :
    (Node.mk items children leaf).roomOnPath key =
      (items.length != 2 * degree - 1 &&
        (if leaf then (findKeyFrom key items 0).2
         else if keyAt items (searchFrom key items 0) key then true
         else roomOnPathChild children (searchFrom key items 0) key)) := by
  rfl

theorem roomOnPathChild_eq (cs : List Node) (i : Nat) (key : String) :
    roomOnPathChild cs i key =
      match cs[i]? with
      | some c => c.roomOnPath key
      | none => false := by
  induction cs generalizing i with
  | nil => simp [roomOnPathChild]
  | cons c cs ih =>
    cases i with
    | zero => simp [roomOnPathChild]
    | succ i => simp [roomOnPathChild, ih]

theorem sameShapeList_refl (cs : List Node) (h : ∀ c ∈ cs, c.sameShape c = true) :
    sameShapeList cs cs = true := by
  induction cs with
  | nil => simp [sameShapeList]
  | cons c cs ih =>
    simp only [sameShapeList, Bool.and_eq_true]
    exact ⟨h c (List.mem_cons_self _ _), ih (fun d hd => h d (List.mem_cons_of_mem _ hd))⟩

theorem Node.sameShape_refl (n : Node) : n.sameShape n = true := by
  induction n using Node.induct with
  | h items children leaf ih =>
    rw [Node.sameShape_mk]
    simp [sameShapeList_refl children ih]

theorem sameShapeList_set (cs : List Node) (i : Nat) (c c1 : Node) (hc : cs[i]? = some c)
    (h : c.sameShape c1 = true) : sameShapeList cs (cs.set i c1) = true := by
  induction cs generalizing i with
  | nil => simp at hc
  | cons d cs ih =>
    cases i with
    | zero =>
      simp only [List.getElem?_cons_zero, Option.some.injEq] at hc
      subst hc
      simp only [List.set_cons_zero, sameShapeList, Bool.and_eq_true]
      exact ⟨h, sameShapeList_refl cs (fun x _ => x.sameShape_refl)⟩
    | succ i =>
      simp only [List.getElem?_cons_succ] at hc
      simp only [List.set_cons_succ, sameShapeList, Bool.and_eq_true]
      exact ⟨d.sameShape_refl, ih i hc⟩

theorem heightList_eq_of_sameShapeList (cs : List Node)
    (ih : ∀ c ∈ cs, ∀ d, c.sameShape d = true → c.height = d.height) :
    ∀ ds, sameShapeList cs ds = true → heightList cs = heightList ds := by
  induction cs with
  | nil =>
    intro ds h
    cases ds with
    | nil => rfl
    | cons d ds => simp [sameShapeList] at h
  | cons c cs ihc =>
    intro ds h
    cases ds with
    | nil => simp [sameShapeList] at h
    | cons d ds =>
      simp only [sameShapeList, Bool.and_eq_true] at h
      simp only [heightList]
      rw [ih c (List.mem_cons_self _ _) d h.1,
        ihc (fun x hx => ih x (List.mem_cons_of_mem _ hx)) ds h.2]

/-- Subtrees of the same form have the same height. -/
theorem Node.height_eq_of_sameShape (n : Node) :
    ∀ n1, n.sameShape n1 = true → n.height = n1.height := by
  induction n using Node.induct with
  | h items children leaf ih =>
    intro n1 h
    rw [Node.sameShape_mk] at h
    simp only [Bool.and_eq_true] at h
    rw [Node.height_mk, Node.height_eq n1,
      heightList_eq_of_sameShapeList children ih _ h.2]

theorem findKeyFrom_found_at {key : String} {items : List Item} {k idx : Nat}
    (h : findKeyFrom key items k = (idx, true)) :
    k ≤ idx ∧ ∃ it, items[idx - k]? = some it ∧ it.Key = key := by
  induction items generalizing k with
  | nil => simp [findKeyFrom] at h
  | cons x rest ih =>
    simp only [findKeyFrom] at h
    split at h
    · next hx =>
      cases h
      exact ⟨le_refl _, x, by simp, hx⟩
    · split at h
      · cases h
      · obtain ⟨h1, it, h2, h3⟩ := ih h
        refine ⟨by omega, it, ?_, h3⟩
        have : idx - k = (idx - (k + 1)) + 1 := by omega
        rw [this, List.getElem?_cons_succ]
        exact h2

/-- The assignment `Items[idx].Value = value` replaces one item and keeps its
key. -/
theorem setValue_eq {items : List Item} {idx : Nat} {it : Item} (value : String)
    (h : items[idx]? = some it) :
    setValue items idx value = items.take idx ++ ⟨it.Key, value⟩ :: items.drop (idx + 1) := by
  unfold setValue
  induction items generalizing idx with
  | nil => simp at h
  | cons x rest ih =>
    cases idx with
    | zero =>
      simp only [List.getElem?_cons_zero, Option.some.injEq] at h
      subst h
      simp
    | succ idx =>
      simp only [List.getElem?_cons_succ] at h
      simp [ih h]

theorem setValue_keys {items : List Item} {idx : Nat} {it : Item} (value : String)
    (h : items[idx]? = some it) :
    (setValue items idx value).map Item.Key = items.map Item.Key := by
  rw [setValue_eq value h]
  conv_rhs => rw [eq_take_cons_drop h]
  simp

theorem roomOnPath_not_full {n : Node} {key : String} (h : n.roomOnPath key = true) :
    n.Items.length ≠ 2 * degree - 1 := by
  cases n with
  | mk items children leaf =>
    rw [Node.roomOnPath_mk, Bool.and_eq_true] at h
    simpa using h.1

theorem take_of_take_append {α : Type} (l r : List α) (i : Nat) (hi : i ≤ l.length) :
    (l.take i ++ r).take i = l.take i := by
  have h : (l.take i).length = i := by simp [hi]
  have := List.take_left (l.take i) r
  rwa [h] at this

theorem drop_of_take_append {α : Type} (l r : List α) (i : Nat) (hi : i ≤ l.length) :
    (l.take i ++ r).drop i = r := by
  have h : (l.take i).length = i := by simp [hi]
  have := List.drop_left (l.take i) r
  rwa [h] at this

/-- When the path to the item of `key` meets no full node, `insertNonFull` changes
the value of that item and nothing else. -/
theorem insertNonFull_overwrite (key value : String) :
    ∀ fuel h n lo, Balanced lo h n → h ≤ fuel → n.roomOnPath key = true →
      ∃ n1, Node.insertNonFull fuel n key value = .ok n1 ∧ n.sameShape n1 = true ∧
        ∃ l1 old l2, n.inorder = l1 ++ ⟨key, old⟩ :: l2 ∧
          n1.inorder = l1 ++ ⟨key, value⟩ :: l2 := by
  intro fuel
  induction fuel with
  | zero => intro h n lo hb hf; have := hb.one_le; omega
  | succ fuel ih =>
    intro h n lo hb hf hroom
    cases hb with
    | leaf items =>
      rw [Node.roomOnPath_mk] at hroom
      simp only [if_true, Bool.and_eq_true] at hroom
      rw [Node.insertNonFull]
      simp only [if_true]
      cases hf2 : findKeyFrom key items 0 with
      | mk idx b =>
        rw [hf2] at hroom
        simp only at hroom
        obtain ⟨-, rfl⟩ := hroom
        obtain ⟨-, it, hit, hkey⟩ := findKeyFrom_found_at hf2
        simp only [Nat.sub_zero] at hit
        obtain ⟨k0, v0⟩ := it
        simp only at hkey
        subst hkey
        refine ⟨_, rfl, ?_, items.take idx, v0, items.drop (idx + 1), ?_, ?_⟩
        · rw [Node.sameShape_mk]
          simp [setValue_keys value hit, sameShapeList]
        · rw [Node.inorder_mk, if_pos rfl]
          exact eq_take_cons_drop hit
        · rw [Node.inorder_mk, if_pos rfl, setValue_eq value hit]
    | node items children h h1 hlen hch hfill =>
      rw [Node.roomOnPath_mk] at hroom
      simp only [Bool.false_eq_true, if_false, Bool.and_eq_true] at hroom
      rw [Node.insertNonFull]
      simp only [Bool.false_eq_true, if_false]
      have hi : searchFrom key items 0 ≤ items.length := by
        have := searchFrom_le key items 0; omega
      have hlt : searchFrom key items 0 < children.length := by omega
      have hc : children[searchFrom key items 0]? = some children[searchFrom key items 0] :=
        List.getElem?_eq_getElem hlt
      by_cases hk : keyAt items (searchFrom key items 0) key = true
      · rw [if_pos hk]
        obtain ⟨it, hit, hkey⟩ := keyAt_eq_true hk
        obtain ⟨k0, v0⟩ := it
        simp only at hkey
        subst hkey
        refine ⟨_, rfl, ?_,
          leading (items.take (searchFrom k0 items 0)) (children.take (searchFrom k0 items 0)) ++
            (children[searchFrom k0 items 0]).inorder, v0,
          interleave (items.drop (searchFrom k0 items 0 + 1))
            (children.drop (searchFrom k0 items 0 + 1)), ?_, ?_⟩
        · rw [Node.sameShape_mk]
          simp [setValue_keys value hit, sameShapeList_refl children
            (fun x _ => x.sameShape_refl)]
        · rw [Node.inorder_mk, if_neg (by simp), interleave_split items children _ _ hc hi,
            drop_eq_cons_of_getElem? hit]
          simp only [trailing]
        · rw [Node.inorder_mk, if_neg (by simp),
            interleave_split (setValue items _ value) children _ _ hc
              (by rw [setValue_length]; exact hi),
            setValue_eq value hit, take_of_take_append _ _ _ hi, drop_of_take_append _ _ _ hi]
          simp only [trailing]
      · rw [if_neg hk]
        simp only [hk, if_false] at hroom
        rw [roomOnPathChild_eq, hc] at hroom
        simp only at hroom
        have hcm : children[searchFrom key items 0] ∈ children := List.getElem_mem hlt
        have hnf : (children[searchFrom key items 0]).Items.length ≠ 2 * degree - 1 :=
          roomOnPath_not_full hroom.2
        rw [hc]
        simp only
        rw [if_neg hnf]
        obtain ⟨c2, hc2, hsh, l1, old, l2, e1, e2⟩ := ih h _ lo (hch _ hcm) (by omega) hroom.2
        rw [hc2]
        refine ⟨_, rfl, ?_,
          leading (items.take (searchFrom key items 0)) (children.take (searchFrom key items 0)) ++
            l1, old,
          l2 ++ trailing (items.drop (searchFrom key items 0))
            (children.drop (searchFrom key items 0 + 1)), ?_, ?_⟩
        · rw [Node.sameShape_mk]
          simp [sameShapeList_set children _ _ c2 hc hsh]
        · rw [Node.inorder_mk, if_neg (by simp), interleave_split items children _ _ hc hi, e1]
          simp only [List.append_assoc, List.cons_append]
        · rw [Node.inorder_mk, if_neg (by simp), interleave_set items children _ c2 hlt hi, e2]
          simp only [List.append_assoc, List.cons_append]

/-! ## Keys of a subtree -/

theorem Node.keys_mk (items : List Item) (children : List Node) (leaf : Bool) :
    (Node.mk items children leaf).keys =
      if leaf then items.map Item.Key else (interleave items children).map Item.Key := by
  unfold Node.keys
  rw [Node.inorder_mk]
  split <;> rfl

theorem mem_interleave (items : List Item) (children : List Node)
    (hlen : children.length = items.length + 1) (x : Item) :
    x ∈ interleave items children ↔ x ∈ items ∨ ∃ c ∈ children, x ∈ c.inorder := by
  induction items generalizing children with
  | nil =>
    cases children with
    | nil => simp at hlen
    | cons c cs =>
      cases cs with
      | nil => simp [interleave]
      | cons d ds => simp at hlen
  | cons it its ih =>
    cases children with
    | nil => simp at hlen
    | cons c cs =>
      simp only [List.length_cons, Nat.add_right_cancel_iff] at hlen
      simp only [interleave, List.mem_append, List.mem_cons, ih cs hlen]
      constructor
      · rintro (h | rfl | h | ⟨d, hd, h⟩)
        · exact Or.inr ⟨c, Or.inl rfl, h⟩
        · exact Or.inl (Or.inl rfl)
        · exact Or.inl (Or.inr h)
        · exact Or.inr ⟨d, Or.inr hd, h⟩
      · rintro ((rfl | h) | ⟨d, rfl | hd, h⟩)
        · exact Or.inr (Or.inl rfl)
        · exact Or.inr (Or.inr (Or.inl h))
        · exact Or.inl h
        · exact Or.inr (Or.inr (Or.inr ⟨d, hd, h⟩))

/-- The keys under an internal node: those of its items and those under its
children. -/
theorem mem_keys_node {items : List Item} {children : List Node}
    (hlen : children.length = items.length + 1) (k : String) :
    k ∈ (Node.mk items children false).keys ↔
      k ∈ items.map Item.Key ∨ ∃ c ∈ children, k ∈ c.keys := by
  rw [Node.keys_mk]
  simp only [Bool.false_eq_true, if_false, List.mem_map, Node.keys]
  constructor
  · rintro ⟨x, hx, rfl⟩
    rcases (mem_interleave items children hlen x).mp hx with h | ⟨c, hc, h⟩
    · exact Or.inl ⟨x, h, rfl⟩
    · exact Or.inr ⟨c, hc, x, h, rfl⟩
  · rintro (⟨x, hx, rfl⟩ | ⟨c, hc, x, hx, rfl⟩)
    · exact ⟨x, (mem_interleave items children hlen x).mpr (Or.inl hx), rfl⟩
    · exact ⟨x, (mem_interleave items children hlen x).mpr (Or.inr ⟨c, hc, hx⟩), rfl⟩

theorem mem_keys_leaf {items : List Item} {children : List Node} (k : String) :
    k ∈ (Node.mk items children true).keys ↔ k ∈ items.map Item.Key := by
  rw [Node.keys_mk]; simp

theorem Balanced.mem_keys {lo h : Nat} {n : Node} (hb : Balanced lo h n) (k : String) :
    k ∈ n.keys ↔ k ∈ n.Items.map Item.Key ∨ ∃ c ∈ n.Children, k ∈ c.keys := by
  cases hb with
  | leaf items => rw [mem_keys_leaf]; simp
  | node items children h h1 hlen hch hfill => exact mem_keys_node hlen k

theorem Ordered.items_sorted {n : Node} (ho : Ordered n) : ItemsSorted n.Items := by
  cases ho with
  | leaf _ _ hs => exact hs
  | node _ _ hs _ _ => exact hs

theorem Ordered.child_ordered {items : List Item} {children : List Node} {leaf : Bool}
    (ho : Ordered (.mk items children leaf)) (hl : leaf = false) {c : Node} (hc : c ∈ children) :
    Ordered c := by
  subst hl
  cases ho with
  | node _ _ hs hch _ => exact hch c hc

theorem Ordered.bounds {items : List Item} {children : List Node} {leaf : Bool}
    (ho : Ordered (.mk items children leaf)) (hl : leaf = false) {j : Nat} {c : Node}
    {k : String} (hc : children[j]? = some c) (hk : k ∈ c.keys) :
    (∀ it, items[j]? = some it → k ≤ it.Key) ∧
    (∀ i it, j = i + 1 → items[i]? = some it → it.Key < k) := by
  subst hl
  cases ho with
  | node _ _ hs hch hb => exact hb j c k hc hk

/-! ## Search on sorted items and the answers of Get -/

theorem searchFrom_add (key : String) (l : List Item) (j : Nat) :
    searchFrom key l j = j + searchFrom key l 0 := by
  induction l generalizing j with
  | nil => simp [searchFrom]
  | cons x l ih =>
    simp only [searchFrom]
    split
    · rfl
    · rw [ih (j + 1), ih (0 + 1)]; omega

theorem search_cons (key : String) (x : Item) (l : List Item) :
    searchFrom key (x :: l) 0 = if key ≤ x.Key then 0 else searchFrom key l 0 + 1 := by
  simp only [searchFrom]
  by_cases h : key ≤ x.Key
  · rw [if_pos ((stringsCompare_le_zero _ _).mpr h), if_pos h]
  · rw [if_neg (fun h1 => h ((stringsCompare_le_zero _ _).mp h1)), if_neg h,
      searchFrom_add key l (0 + 1)]
    omega

theorem search_all_lt (key : String) (l : List Item) (h : ∀ x ∈ l, x.Key < key) :
    searchFrom key l 0 = l.length := by
  induction l with
  | nil => rfl
  | cons x l ih =>
    rw [search_cons, if_neg (not_le_of_lt (h x (List.mem_cons_self _ _))),
      ih (fun y hy => h y (List.mem_cons_of_mem _ hy))]
    rfl

/-- The search over a list followed by another: the index found in the first
part when that holds an item not below the key, else the index found in the
second part, shifted. -/
theorem search_append (key : String) (l1 l2 : List Item) :
    searchFrom key (l1 ++ l2) 0 =
      if searchFrom key l1 0 < l1.length then searchFrom key l1 0
      else l1.length + searchFrom key l2 0 := by
  induction l1 with
  | nil => simp [searchFrom]
  | cons x l1 ih =>
    rw [List.cons_append, search_cons, search_cons]
    by_cases h : key ≤ x.Key
    · simp [h]
    · simp only [h, if_false, List.length_cons, Nat.add_lt_add_iff_right]
      rw [ih]
      split <;> omega

theorem search_append_of_lt (key : String) (l1 l2 : List Item) (h : ∀ x ∈ l1, x.Key < key) :
    searchFrom key (l1 ++ l2) 0 = l1.length + searchFrom key l2 0 := by
  rw [search_append, search_all_lt key l1 h, if_neg (lt_irrefl _)]

theorem search_append_of_ge (key : String) (l1 l2 : List Item) (x : Item) (hx : x ∈ l1)
    (h : key ≤ x.Key) : searchFrom key (l1 ++ l2) 0 = searchFrom key l1 0 := by
  rw [search_append, if_pos]
  by_contra hge
  have hle : searchFrom key l1 0 ≤ l1.length := by
    have := searchFrom_le key l1 0; omega
  have heq : searchFrom key l1 0 = l1.length := by omega
  obtain ⟨sp1, -⟩ := search_spec key l1
  rw [heq, List.take_length] at sp1
  exact not_le_of_lt (sp1 x hx) h

theorem search_le (key : String) (l : List Item) : searchFrom key l 0 ≤ l.length := by
  have := searchFrom_le key l 0; omega

/-- In a sorted list every item from the index of `search` on is not below the
key. -/
theorem search_ge_of_sorted {key : String} {l : List Item} (hs : ItemsSorted l) :
    ∀ x ∈ l.drop (searchFrom key l 0), key ≤ x.Key := by
  intro x hx
  obtain ⟨-, sp2⟩ := search_spec key l
  have hlt : searchFrom key l 0 < l.length := by
    by_contra hge
    rw [List.drop_eq_nil_of_le (by omega)] at hx
    cases hx
  have hget := List.getElem?_eq_getElem hlt
  have h0 := sp2 _ hget
  rw [drop_eq_cons_of_getElem? hget] at hx
  rcases List.mem_cons.mp hx with rfl | hx
  · exact h0
  · have hs2 : ItemsSorted (l.take (searchFrom key l 0) ++
        l[searchFrom key l 0] :: l.drop (searchFrom key l 0 + 1)) := by
      rw [← drop_eq_cons_of_getElem? hget, List.take_append_drop]; exact hs
    exact le_of_lt (lt_of_le_of_lt h0 ((List.pairwise_cons.mp hs2.append_right).1 x hx))

/-- In a sorted list `search` finds the key whenever an item holds it. -/
theorem keyAt_search_of_mem {key : String} {l : List Item} (hs : ItemsSorted l)
    (hk : key ∈ l.map Item.Key) : keyAt l (searchFrom key l 0) key = true := by
  obtain ⟨x, hx, rfl⟩ := List.mem_map.mp hk
  obtain ⟨sp1, sp2⟩ := search_spec x.Key l
  have hlt : searchFrom x.Key l 0 < l.length := by
    by_contra hge
    have heq : searchFrom x.Key l 0 = l.length := by have := search_le x.Key l; omega
    rw [heq, List.take_length] at sp1
    exact lt_irrefl _ (sp1 x hx)
  have hget := List.getElem?_eq_getElem hlt
  have h0 := sp2 _ hget
  -- x is in the part from the index on, whose head is the smallest
  have hxd : x ∈ l.drop (searchFrom x.Key l 0) := by
    rw [← List.take_append_drop (searchFrom x.Key l 0) l] at hx
    rcases List.mem_append.mp hx with h | h
    · exact absurd (sp1 x h) (lt_irrefl _)
    · exact h
  rw [drop_eq_cons_of_getElem? hget] at hxd
  unfold keyAt
  rw [hget]
  simp only [beq_iff_eq]
  rcases List.mem_cons.mp hxd with h | h
  · rw [← h]
  · have hs2 : ItemsSorted (l.take (searchFrom x.Key l 0) ++
        l[searchFrom x.Key l 0] :: l.drop (searchFrom x.Key l 0 + 1)) := by
      rw [← drop_eq_cons_of_getElem? hget, List.take_append_drop]; exact hs
    have := (List.pairwise_cons.mp hs2.append_right).1 x h
    exact absurd (lt_of_le_of_lt h0 this) (lt_irrefl _)

theorem keyAt_mem {key : String} {l : List Item} {i : Nat} (h : keyAt l i key = true) :
    key ∈ l.map Item.Key := by
  obtain ⟨it, hit, rfl⟩ := keyAt_eq_true h
  exact List.mem_map_of_mem _ (List.getElem?_mem hit)

theorem keyAt_false_of_not_mem {key : String} {l : List Item} {i : Nat}
    (h : key ∉ l.map Item.Key) : keyAt l i key = false := by
  cases hk : keyAt l i key with
  | false => rfl
  | true => exact absurd (keyAt_mem hk) h

theorem get_found {items : List Item} {children : List Node} {leaf : Bool} {key : String}
    {it : Item} (hit : items[searchFrom key items 0]? = some it) (hk : it.Key = key) :
    (Node.mk items children leaf).get key = .ok (it.Value, true) := by
  rw [Node.get_mk]
  have : keyAt items (searchFrom key items 0) key = true := by
    unfold keyAt; rw [hit]; simp [hk]
  rw [if_pos this, hit]

theorem get_leaf_absent {items : List Item} {children : List Node} {key : String}
    (hk : keyAt items (searchFrom key items 0) key = false) :
    (Node.mk items children true).get key = .ok ("", false) := by
  rw [Node.get_mk, hk]
  simp

theorem get_descend {items : List Item} {children : List Node} {key : String} {c : Node}
    (hk : keyAt items (searchFrom key items 0) key = false)
    (hc : children[searchFrom key items 0]? = some c) :
    (Node.mk items children false).get key = c.get key := by
  rw [Node.get_mk, hk, getChild_eq, hc]
  simp

/-- `Get` returns on every balanced subtree. -/
theorem Balanced.get_total {lo h : Nat} {n : Node} (hb : Balanced lo h n) (key : String) :
    ∃ v found, n.get key = .ok (v, found) := by
  induction hb with
  | leaf items =>
    by_cases hk : keyAt items (searchFrom key items 0) key = true
    · obtain ⟨it, hit, hkey⟩ := keyAt_eq_true hk
      exact ⟨_, _, get_found hit hkey⟩
    · exact ⟨_, _, get_leaf_absent (by simpa using hk)⟩
  | node items children h h1 hlen hch hfill ih =>
    by_cases hk : keyAt items (searchFrom key items 0) key = true
    · obtain ⟨it, hit, hkey⟩ := keyAt_eq_true hk
      exact ⟨_, _, get_found hit hkey⟩
    · have hlt : searchFrom key items 0 < children.length := by
        have := search_le key items; omega
      have hc := List.getElem?_eq_getElem hlt
      rw [get_descend (by simpa using hk) hc]
      exact ih _ (List.getElem_mem hlt)

/-- A key that `Get` finds is a key of the subtree. -/
theorem Balanced.get_found_mem {lo h : Nat} {n : Node} (hb : Balanced lo h n) (key : String) :
    ∀ v, n.get key = .ok (v, true) → key ∈ n.keys := by
  induction hb with
  | leaf items =>
    intro v hg
    rw [mem_keys_leaf]
    by_cases hk : keyAt items (searchFrom key items 0) key = true
    · exact keyAt_mem hk
    · rw [get_leaf_absent (by simpa using hk)] at hg
      cases hg
  | node items children h h1 hlen hch hfill ih =>
    intro v hg
    rw [mem_keys_node hlen]
    by_cases hk : keyAt items (searchFrom key items 0) key = true
    · exact Or.inl (keyAt_mem hk)
    · have hlt : searchFrom key items 0 < children.length := by
        have := search_le key items; omega
      have hc := List.getElem?_eq_getElem hlt
      rw [get_descend (by simpa using hk) hc] at hg
      exact Or.inr ⟨_, List.getElem_mem hlt, ih _ (List.getElem_mem hlt) v hg⟩

/-- `Get` of a key that is not in the subtree reports not found. -/
theorem Balanced.get_absent {lo h : Nat} {n : Node} (hb : Balanced lo h n) {key : String}
    (hk : key ∉ n.keys) : n.get key = .ok ("", false) := by
  have key_lemma : ∀ (n : Node) (lo h : Nat), Balanced lo h n → key ∉ n.keys →
      n.get key = .ok ("", false) := by
    intro n lo h hb
    induction hb with
    | leaf items =>
      intro hk
      rw [mem_keys_leaf] at hk
      exact get_leaf_absent (keyAt_false_of_not_mem hk)
    | node items children h h1 hlen hch hfill ih =>
      intro hk
      rw [mem_keys_node hlen] at hk
      have hlt : searchFrom key items 0 < children.length := by
        have := search_le key items; omega
      have hc := List.getElem?_eq_getElem hlt
      rw [get_descend (keyAt_false_of_not_mem (fun h => hk (Or.inl h))) hc]
      exact ih _ (List.getElem_mem hlt) (fun h => hk (Or.inr ⟨_, List.getElem_mem hlt, h⟩))
  exact key_lemma n lo h hb hk

/-! ## Get at a node whose items are cut in two -/

/-- The key is met in the first part of the items: the rest of the node does not
matter. -/
theorem get_left {l1 r : List Item} {cs1 rc : List Node} {leaf : Bool} {k : String}
    (hs : searchFrom k l1 0 < l1.length) (hc : leaf = true ∨ l1.length ≤ cs1.length) :
    (Node.mk (l1 ++ r) (cs1 ++ rc) leaf).get k = (Node.mk l1 cs1 leaf).get k := by
  rw [Node.get_mk, Node.get_mk, search_append, if_pos hs]
  have hi : (l1 ++ r)[searchFrom k l1 0]? = l1[searchFrom k l1 0]? :=
    List.getElem?_append_left hs
  have hk : keyAt (l1 ++ r) (searchFrom k l1 0) k = keyAt l1 (searchFrom k l1 0) k := by
    unfold keyAt; rw [hi]
  rw [hk, hi]
  rcases hc with rfl | hc
  · simp
  · rw [getChild_eq, getChild_eq, List.getElem?_append_left (by omega)]

/-- Every item of the first part is below the key: the lookup goes on in the
second part. -/
theorem get_right {l1 r : List Item} {cs1 rc : List Node} {leaf : Bool} {k : String}
    (hs : ∀ a ∈ l1, a.Key < k) (hc : leaf = true ∨ cs1.length = l1.length) :
    (Node.mk (l1 ++ r) (cs1 ++ rc) leaf).get k = (Node.mk r rc leaf).get k := by
  rw [Node.get_mk, Node.get_mk, search_append_of_lt k l1 r hs]
  have hi : (l1 ++ r)[l1.length + searchFrom k r 0]? = r[searchFrom k r 0]? := by
    rw [List.getElem?_append_right (by omega)]
    congr 1; omega
  have hk : keyAt (l1 ++ r) (l1.length + searchFrom k r 0) k = keyAt r (searchFrom k r 0) k := by
    unfold keyAt; rw [hi]
  rw [hk, hi]
  rcases hc with rfl | hc
  · simp
  · rw [getChild_eq, getChild_eq, List.getElem?_append_right (by omega)]
    have : l1.length + searchFrom k r 0 - cs1.length = searchFrom k r 0 := by omega
    rw [this]

/-- The key lies strictly between the two parts of the items: a leaf reports not
found, an internal node descends into the child between them. -/
theorem get_gap {l1 r : List Item} {children : List Node} {leaf : Bool} {k : String}
    (hs : ∀ a ∈ l1, a.Key < k) (hr : ∀ b ∈ r, k < b.Key) :
    (Node.mk (l1 ++ r) children leaf).get k =
      if leaf then .ok ("", false) else getChild children l1.length k := by
  rw [Node.get_mk, search_append_of_lt k l1 r hs]
  have h0 : searchFrom k r 0 = 0 := by
    cases r with
    | nil => rfl
    | cons x r => rw [search_cons, if_pos (le_of_lt (hr x (List.mem_cons_self _ _)))]
  rw [h0, Nat.add_zero]
  have hk : keyAt (l1 ++ r) l1.length k = false := by
    unfold keyAt
    rw [List.getElem?_append_right (le_refl _), Nat.sub_self]
    cases r with
    | nil => rfl
    | cons x r =>
      simp only [List.getElem?_cons_zero, beq_eq_false_iff_ne, ne_eq]
      exact fun h => absurd (hr x (List.mem_cons_self _ _)) (by rw [h]; exact lt_irrefl _)
  rw [hk]
  simp

/-- The key is the key of the item after the first part, all of which is below
it. -/
theorem get_hit {l1 r : List Item} {children : List Node} {leaf : Bool} {x : Item}
    (hs : ∀ a ∈ l1, a.Key < x.Key) :
    (Node.mk (l1 ++ x :: r) children leaf).get x.Key = .ok (x.Value, true) := by
  refine @get_found (l1 ++ x :: r) children leaf x.Key x ?_ rfl
  rw [search_append_of_lt x.Key l1 _ hs, search_cons, if_pos (le_refl _), Nat.add_zero,
    List.getElem?_append_right (le_refl _), Nat.sub_self]
  simp

theorem search_eq_length {k : String} {l : List Item} (h : ¬ searchFrom k l 0 < l.length) :
    ∀ a ∈ l, a.Key < k := by
  have heq : searchFrom k l 0 = l.length := by have := search_le k l; omega
  obtain ⟨sp1, -⟩ := search_spec k l
  rw [heq, List.take_length] at sp1
  exact sp1

/-- Replacing a child by one that answers `Get` of a key in the same way does not
change the answer of the node. -/
theorem get_set_child {items : List Item} {children : List Node} {leaf : Bool} {i : Nat}
    {c c2 : Node} {k : String} (hc : children[i]? = some c) (h : c2.get k = c.get k) :
    (Node.mk items (children.set i c2) leaf).get k = (Node.mk items children leaf).get k := by
  rw [Node.get_mk, Node.get_mk, getChild_eq, getChild_eq, List.getElem?_set]
  have hlt := lt_length_of_getElem? hc
  by_cases hi : i = searchFrom k items 0
  · rw [if_pos hi, ← hi, hc]
    simp only [hlt, if_true]
    rw [h]
  · rw [if_neg hi]

/-- The value written by `n.Items[idx].Value = value` is seen by no other key. -/
theorem get_setValue {items : List Item} {children : List Node} {leaf : Bool} {idx : Nat}
    {it : Item} (value : String) {k : String} (hit : items[idx]? = some it) (hk : k ≠ it.Key) :
    (Node.mk (setValue items idx value) children leaf).get k =
      (Node.mk items children leaf).get k := by
  rw [setValue_eq value hit]
  conv_rhs => rw [eq_take_cons_drop hit]
  generalize items.take idx = l1
  generalize items.drop (idx + 1) = l2
  by_cases hs : searchFrom k l1 0 < l1.length
  · rw [Node.get_mk, Node.get_mk, search_append, search_append, if_pos hs, if_pos hs]
    have hi1 : (l1 ++ (⟨it.Key, value⟩ : Item) :: l2)[searchFrom k l1 0]? =
        l1[searchFrom k l1 0]? := List.getElem?_append_left hs
    have hi2 : (l1 ++ it :: l2)[searchFrom k l1 0]? = l1[searchFrom k l1 0]? :=
      List.getElem?_append_left hs
    unfold keyAt
    rw [hi1, hi2]
  · have hl := search_eq_length hs
    rw [Node.get_mk, Node.get_mk, search_append_of_lt k l1 _ hl,
      search_append_of_lt k l1 _ hl, search_cons, search_cons]
    show (if keyAt _ (l1.length + if k ≤ it.Key then 0 else searchFrom k l2 0 + 1) k = true
      then _ else _) = _
    by_cases hle : k ≤ it.Key
    · simp only [hle, if_true, Nat.add_zero]
      unfold keyAt
      rw [List.getElem?_append_right (le_refl _), List.getElem?_append_right (le_refl _),
        Nat.sub_self]
      simp [Ne.symm hk]
    · simp only [hle, if_false]
      unfold keyAt
      rw [List.getElem?_append_right (by omega), List.getElem?_append_right (by omega)]
      have : l1.length + (searchFrom k l2 0 + 1) - l1.length = searchFrom k l2 0 + 1 := by omega
      rw [this, List.getElem?_cons_succ, List.getElem?_cons_succ]

/-- One item more or less in a leaf is seen by no other key, when the item lies
between the items before and after it. -/
theorem get_leaf_splice {l1 l2 : List Item} {ch ch1 : List Node} {x : Item} {k : String}
    (h1 : ∀ a ∈ l1, a.Key < x.Key) (h2 : ∀ b ∈ l2, x.Key < b.Key) (hk : k ≠ x.Key) :
    (Node.mk (l1 ++ x :: l2) ch true).get k = (Node.mk (l1 ++ l2) ch1 true).get k := by
  by_cases hs : searchFrom k l1 0 < l1.length
  · rw [← List.append_nil ch, ← List.append_nil ch1, get_left hs (Or.inl rfl),
      get_left hs (Or.inl rfl), Node.get_mk, Node.get_mk]
    simp
  · have hl := search_eq_length hs
    rcases lt_or_gt_of_ne hk with hlt | hgt
    · have g2 : ∀ b ∈ l2, k < b.Key := fun b hb => lt_trans hlt (h2 b hb)
      have g1 : ∀ b ∈ x :: l2, k < b.Key := by
        intro b hb
        rcases List.mem_cons.mp hb with rfl | hb
        · exact hlt
        · exact g2 b hb
      rw [get_gap hl g1, get_gap hl g2]
      simp
    · have hl1 : ∀ a ∈ l1 ++ [x], a.Key < k := by
        intro a ha
        rcases List.mem_append.mp ha with ha | ha
        · exact hl a ha
        · rw [List.mem_singleton.mp ha]; exact hgt
      have e : l1 ++ x :: l2 = (l1 ++ [x]) ++ l2 := by simp
      rw [e, ← List.nil_append ch, ← List.nil_append ch1, get_right hl1 (Or.inl rfl),
        get_right hl (Or.inl rfl), Node.get_mk, Node.get_mk]
      simp

theorem sorted_take_le {l : List Item} (hs : ItemsSorted l) {q : Nat} {it : Item}
    (hq : l[q]? = some it) : ∀ a ∈ l.take q, a.Key < it.Key := by
  have h := hs
  rw [eq_take_cons_drop hq] at h
  intro a ha
  exact h.lt_of_append a ha it (List.mem_cons_self _ _)

theorem sorted_drop_gt {l : List Item} (hs : ItemsSorted l) {q : Nat} {it : Item}
    (hq : l[q]? = some it) : ∀ b ∈ l.drop (q + 1), it.Key < b.Key := by
  have h := hs
  rw [eq_take_cons_drop hq] at h
  exact (List.pairwise_cons.mp h.append_right).1

/-- The keys under child `j` of an ordered node lie above every item before the
child and not above any item after it. -/
theorem Ordered.fence {items : List Item} {children : List Node}
    (ho : Ordered (.mk items children false)) {j : Nat} {c : Node} {k : String}
    (hc : children[j]? = some c) (hjl : j ≤ items.length) (hk : k ∈ c.keys) :
    (∀ a ∈ items.take j, a.Key < k) ∧ (∀ b ∈ items.drop j, k ≤ b.Key) := by
  obtain ⟨hb1, hb2⟩ := ho.bounds rfl hc hk
  have hs : ItemsSorted items := ho.items_sorted
  constructor
  · intro a ha
    cases j with
    | zero => simp at ha
    | succ i =>
      obtain ⟨q, hq⟩ := List.getElem?_of_mem ha
      rw [List.getElem?_take] at hq
      split at hq
      · next hlt =>
        have hil : i < items.length := by omega
        have hi := List.getElem?_eq_getElem hil
        have hlt2 := hb2 i _ rfl hi
        by_cases hqi : q = i
        · subst hqi
          rw [hi] at hq
          rw [← Option.some.inj hq]; exact hlt2
        · have : a ∈ items.take i := by
            apply List.mem_iff_getElem?.mpr
            exact ⟨q, by rw [List.getElem?_take, if_pos (by omega)]; exact hq⟩
          exact lt_trans (sorted_take_le hs hi a this) hlt2
      · cases hq
  · intro b hb
    by_cases hjl : j < items.length
    · have hj := List.getElem?_eq_getElem hjl
      have hle := hb1 _ hj
      rw [drop_eq_cons_of_getElem? hj] at hb
      rcases List.mem_cons.mp hb with rfl | hb
      · exact hle
      · exact le_of_lt (lt_of_le_of_lt hle (sorted_drop_gt hs hj b hb))
    · rw [List.drop_eq_nil_of_le (by omega)] at hb
      cases hb

/-- In an ordered subtree `Get` finds every key that the subtree holds. -/
theorem Ordered.get_of_mem {lo h : Nat} {n : Node} (hb : Balanced lo h n) {key : String} :
    Ordered n → key ∈ n.keys → ∃ v, n.get key = .ok (v, true) := by
  induction hb with
  | leaf items =>
    intro ho hk
    rw [mem_keys_leaf] at hk
    have hka := keyAt_search_of_mem ho.items_sorted hk
    obtain ⟨it, hit, hkey⟩ := keyAt_eq_true hka
    exact ⟨_, get_found hit hkey⟩
  | node items children h h1 hlen hch hfill ih =>
    intro ho hk
    by_cases hka : keyAt items (searchFrom key items 0) key = true
    · obtain ⟨it, hit, hkey⟩ := keyAt_eq_true hka
      exact ⟨_, get_found hit hkey⟩
    · have hka : keyAt items (searchFrom key items 0) key = false := by simpa using hka
      rw [mem_keys_node hlen] at hk
      rcases hk with hk | ⟨c, hc, hk⟩
      · have hs : ItemsSorted items := ho.items_sorted
        rw [keyAt_search_of_mem hs hk] at hka
        cases hka
      · obtain ⟨j, hj⟩ := List.getElem?_of_mem hc
        have hjl : j ≤ items.length := by
          have := lt_length_of_getElem? hj; omega
        obtain ⟨f1, f2⟩ := ho.fence hj hjl hk
        have hsj : searchFrom key items 0 = j := by
          conv_lhs => rw [← List.take_append_drop j items]
          rw [search_append_of_lt key _ _ f1]
          have h0 : searchFrom key (items.drop j) 0 = 0 := by
            cases hd : items.drop j with
            | nil => rfl
            | cons x r =>
              rw [search_cons, if_pos]
              exact f2 x (by rw [hd]; exact List.mem_cons_self _ _)
          rw [h0]
          simp [hjl]
        rw [get_descend hka (by rw [hsj]; exact hj)]
        exact ih c hc (ho.child_ordered rfl hc) hk

/-! ## Ways to keep the order -/

theorem getElem?_splice_one {α : Type} (xs : List α) (i : Nat) (a : α) (hi : i ≤ xs.length)
    (j : Nat) :
    (xs.take i ++ a :: xs.drop i)[j]? =
      if j < i then xs[j]? else if j = i then some a else xs[j - 1]? := by
  have hl : (xs.take i).length = i := by simp [hi]
  by_cases h1 : j < i
  · rw [if_pos h1, List.getElem?_append_left (by omega), List.getElem?_take, if_pos h1]
  · rw [if_neg h1, List.getElem?_append_right (by omega), hl]
    by_cases h2 : j = i
    · rw [if_pos h2, h2, Nat.sub_self]; simp
    · rw [if_neg h2]
      have : j - i = (j - i - 1) + 1 := by omega
      rw [this, List.getElem?_cons_succ, List.getElem?_drop]
      congr 1; omega

theorem getElem?_splice_two {α : Type} (xs : List α) (i : Nat) (a b : α) (hi : i < xs.length)
    (j : Nat) :
    (xs.take i ++ a :: b :: xs.drop (i + 1))[j]? =
      if j < i then xs[j]? else if j = i then some a else if j = i + 1 then some b
      else xs[j - 1]? := by
  have hl : (xs.take i).length = i := by simp; omega
  by_cases h1 : j < i
  · rw [if_pos h1, List.getElem?_append_left (by omega), List.getElem?_take, if_pos h1]
  · rw [if_neg h1, List.getElem?_append_right (by omega), hl]
    by_cases h2 : j = i
    · rw [if_pos h2, h2, Nat.sub_self]; simp
    · rw [if_neg h2]
      by_cases h3 : j = i + 1
      · rw [if_pos h3, h3]
        have : i + 1 - i = 0 + 1 := by omega
        rw [this, List.getElem?_cons_succ]; simp
      · rw [if_neg h3]
        have : j - i = (j - i - 2) + 1 + 1 := by omega
        rw [this, List.getElem?_cons_succ, List.getElem?_cons_succ, List.getElem?_drop]
        congr 1; omega

theorem itemsSorted_of_keys_eq {l l1 : List Item} (h : l1.map Item.Key = l.map Item.Key)
    (hs : ItemsSorted l) : ItemsSorted l1 := by
  unfold ItemsSorted at hs ⊢
  have h1 : (l.map Item.Key).Pairwise (· < ·) := List.pairwise_map.mpr hs
  rw [← h] at h1
  exact List.pairwise_map.mp h1

theorem key_getElem?_of_keys_eq {l l1 : List Item} (h : l1.map Item.Key = l.map Item.Key)
    {j : Nat} {it : Item} (hj : l1[j]? = some it) : ∃ it0, l[j]? = some it0 ∧ it0.Key = it.Key := by
  have h1 : (l1.map Item.Key)[j]? = some it.Key := by rw [List.getElem?_map, hj]; rfl
  rw [h, List.getElem?_map] at h1
  cases hl : l[j]? with
  | none => rw [hl] at h1; cases h1
  | some it0 =>
    rw [hl] at h1
    exact ⟨it0, rfl, by simpa using h1⟩

/-- The order of a node depends on the keys of its items only, not on their
values. -/
theorem Ordered.of_keys_eq {items items1 : List Item} {children : List Node} {leaf : Bool}
    (ho : Ordered (.mk items children leaf)) (h : items1.map Item.Key = items.map Item.Key) :
    Ordered (.mk items1 children leaf) := by
  cases ho with
  | leaf _ _ hs => exact Ordered.leaf _ _ (itemsSorted_of_keys_eq h hs)
  | node _ _ hs hch hb =>
    refine Ordered.node _ _ (itemsSorted_of_keys_eq h hs) hch ?_
    intro j c k hc hk
    obtain ⟨b1, b2⟩ := hb j c k hc hk
    constructor
    · intro it hit
      obtain ⟨it0, h0, hk0⟩ := key_getElem?_of_keys_eq h hit
      rw [← hk0]; exact b1 it0 h0
    · intro i it hji hit
      obtain ⟨it0, h0, hk0⟩ := key_getElem?_of_keys_eq h hit
      rw [← hk0]; exact b2 i it0 hji h0

/-- Replacing child `i` keeps the order when the new child is ordered and each of
its keys is a key of the old child or fits between the items around the child. -/
theorem Ordered.set_child_ordered {items : List Item} {children : List Node} {i : Nat} {c c2 : Node}
    (ho : Ordered (.mk items children false)) (hc : children[i]? = some c) (ho2 : Ordered c2)
    (hk : ∀ k ∈ c2.keys, k ∈ c.keys ∨
      ((∀ it, items[i]? = some it → k ≤ it.Key) ∧
       (∀ q it, i = q + 1 → items[q]? = some it → it.Key < k))) :
    Ordered (.mk items (children.set i c2) false) := by
  cases ho with
  | node _ _ hs hch hb =>
    refine Ordered.node _ _ hs ?_ ?_
    · intro x hx
      rcases List.mem_or_eq_of_mem_set hx with hx | rfl
      · exact hch x hx
      · exact ho2
    · intro j x k hx hkx
      rw [List.getElem?_set] at hx
      by_cases hij : i = j
      · subst hij
        rw [if_pos rfl] at hx
        split at hx
        · cases hx
          rcases hk k hkx with h1 | h1
          · exact hb i c k hc h1
          · exact h1
        · cases hx
      · rw [if_neg hij] at hx
        exact hb j x k hx hkx

theorem keys_halves {lo h : Nat} {c : Node} (hb : Balanced lo h c)
    (hfull : c.Items.length = 2 * degree - 1) {m : Item} (hm : c.Items[degree - 1]? = some m)
    (k : String) :
    k ∈ c.keys ↔ k ∈ c.lowerHalf.keys ∨ k = m.Key ∨ k ∈ c.upperHalf.keys := by
  unfold Node.keys
  rw [inorder_halves hb hfull m hm]
  simp only [List.map_append, List.map_cons, List.mem_append, List.mem_cons]

theorem Ordered.halves_ordered {lo h : Nat} {c : Node} (hb : Balanced lo h c) (ho : Ordered c)
    (hfull : c.Items.length = 2 * degree - 1) {m : Item} (hm : c.Items[degree - 1]? = some m) :
    Ordered c.lowerHalf ∧ Ordered c.upperHalf ∧
      (∀ k ∈ c.lowerHalf.keys, k ≤ m.Key) ∧ (∀ k ∈ c.upperHalf.keys, m.Key < k) := by
  obtain ⟨hbl, hbu, -, -⟩ := hb.halves hfull
  have h3 : degree - 1 = 3 := rfl
  have h4 : degree = 4 := rfl
  have h7 : 2 * degree - 1 = 7 := rfl
  cases hb with
  | leaf items =>
    simp only [Node.Items_mk] at hm hfull
    have hs : ItemsSorted items := ho.items_sorted
    have hs1 := hs
    rw [eq_take_cons_drop hm] at hs1
    refine ⟨Ordered.leaf _ _ hs1.append_left, Ordered.leaf _ _ ?_, ?_, ?_⟩
    · exact (List.pairwise_cons.mp hs1.append_right).2
    · intro k hk
      simp only [Node.lowerHalf, Node.Items_mk, Node.IsLeaf_mk] at hk
      rw [mem_keys_leaf] at hk
      obtain ⟨a, ha, rfl⟩ := List.mem_map.mp hk
      exact le_of_lt (hs1.lt_of_append a ha m (List.mem_cons_self _ _))
    · intro k hk
      simp only [Node.upperHalf, Node.Items_mk, Node.IsLeaf_mk] at hk
      rw [mem_keys_leaf] at hk
      obtain ⟨a, ha, rfl⟩ := List.mem_map.mp hk
      exact (List.pairwise_cons.mp hs1.append_right).1 a ha
  | node items children h h1 hlen hch hfill =>
    simp only [Node.Items_mk] at hm hfull
    have hs : ItemsSorted items := ho.items_sorted
    have hs1 := hs
    rw [eq_take_cons_drop hm] at hs1
    have hsu : ItemsSorted (items.drop degree) :=
      (List.pairwise_cons.mp hs1.append_right).2
    have hml : ∀ a ∈ items.take (degree - 1), a.Key < m.Key :=
      fun a ha => hs1.lt_of_append a ha m (List.mem_cons_self _ _)
    have hmu : ∀ a ∈ items.drop degree, m.Key < a.Key :=
      fun a ha => (List.pairwise_cons.mp hs1.append_right).1 a ha
    have hm3 : items[3]? = some m := hm
    have hlow : (Node.mk items children false).lowerHalf = Node.mk (items.take (degree - 1)) (children.take degree) false := rfl
    have hupp : (Node.mk items children false).upperHalf = Node.mk (items.drop degree) (children.drop degree) false := rfl
    rw [hlow] at hbl ⊢
    rw [hupp] at hbu ⊢
    refine ⟨?_, ?_, ?_, ?_⟩
    · refine Ordered.node _ _ hs1.append_left ?_ ?_
      · intro x hx; exact ho.child_ordered rfl (List.mem_of_mem_take hx)
      · intro j x k hx hk
        rw [List.getElem?_take] at hx
        split at hx
        · obtain ⟨b1, b2⟩ := ho.bounds rfl hx hk
          constructor
          · intro it hit
            rw [List.getElem?_take] at hit
            split at hit
            · exact b1 it hit
            · cases hit
          · intro q it hq hit
            rw [List.getElem?_take] at hit
            split at hit
            · exact b2 q it hq hit
            · cases hit
        · cases hx
    · refine Ordered.node _ _ hsu ?_ ?_
      · intro x hx; exact ho.child_ordered rfl (List.mem_of_mem_drop hx)
      · intro j x k hx hk
        rw [List.getElem?_drop] at hx
        obtain ⟨b1, b2⟩ := ho.bounds rfl hx hk
        constructor
        · intro it hit
          rw [List.getElem?_drop] at hit
          exact b1 it hit
        · intro q it hq hit
          rw [List.getElem?_drop] at hit
          exact b2 (degree + q) it (by omega) hit
    · intro k hk
      rcases (hbl.mem_keys k).mp hk with hk | ⟨x, hx, hk⟩
      · obtain ⟨a, ha, rfl⟩ := List.mem_map.mp hk
        exact le_of_lt (hml a ha)
      · simp only [Node.Children_mk] at hx
        obtain ⟨j, hj⟩ := List.getElem?_of_mem hx
        rw [List.getElem?_take] at hj
        split at hj
        · next hlt =>
          obtain ⟨-, f2⟩ := ho.fence hj (by omega) hk
          apply f2 m
          apply List.mem_iff_getElem?.mpr
          refine ⟨3 - j, ?_⟩
          rw [List.getElem?_drop]
          have : j + (3 - j) = 3 := by omega
          rw [this]; exact hm3
        · cases hj
    · intro k hk
      rcases (hbu.mem_keys k).mp hk with hk | ⟨x, hx, hk⟩
      · obtain ⟨a, ha, rfl⟩ := List.mem_map.mp hk
        exact hmu a ha
      · simp only [Node.Children_mk] at hx
        obtain ⟨j, hj⟩ := List.getElem?_of_mem hx
        rw [List.getElem?_drop] at hj
        have hjl := lt_length_of_getElem? hj
        obtain ⟨f1, -⟩ := ho.fence hj (by omega) hk
        apply f1 m
        apply List.mem_iff_getElem?.mpr
        refine ⟨3, ?_⟩
        rw [List.getElem?_take, if_pos (by omega)]
        exact hm3

/-! ## splitChild keeps the order and the answers of Get -/

theorem median_mem_keys {lo h : Nat} {c : Node} (hb : Balanced lo h c) {q : Nat} {m : Item}
    (hm : c.Items[q]? = some m) : m.Key ∈ c.keys :=
  List.mem_map_of_mem _ (mem_inorder_of_mem_items hb m (List.getElem?_mem hm))

/-- The node that `splitChild` returns is ordered when the node it is called on
is. -/
theorem splitChild_ordered {lo h : Nat} {items : List Item} {children : List Node} {i : Nat}
    {c : Node} {m : Item} (ho : Ordered (.mk items children false))
    (hc : children[i]? = some c) (hb : Balanced lo h c)
    (hfull : c.Items.length = 2 * degree - 1) (hi : i ≤ items.length)
    (hm : c.Items[degree - 1]? = some m) :
    Ordered (.mk (items.take i ++ m :: items.drop i)
      (children.take i ++ c.lowerHalf :: c.upperHalf :: children.drop (i + 1)) false) := by
  have hoc : Ordered c := ho.child_ordered rfl (List.getElem?_mem hc)
  obtain ⟨hol, hou, hkl, hku⟩ := hoc.halves_ordered hb hfull hm
  have hs : ItemsSorted items := ho.items_sorted
  have hlt := lt_length_of_getElem? hc
  have h7 : 2 * degree - 1 = 7 := rfl
  -- the item after the median is a key of the child above the median
  have hnext : degree < c.Items.length := by rw [hfull]; decide
  have hx := List.getElem?_eq_getElem hnext
  have hmx : m.Key < (c.Items[degree]).Key := by
    have hcs : ItemsSorted c.Items := hoc.items_sorted
    have := sorted_drop_gt hcs hm
    exact this _ (by
      apply List.mem_iff_getElem?.mpr
      exact ⟨0, by rw [List.getElem?_drop]; exact hx⟩)
  obtain ⟨fm1, -⟩ := ho.fence hc hi (median_mem_keys hb hm)
  obtain ⟨-, fx2⟩ := ho.fence hc hi (median_mem_keys hb hx)
  have hlowsub : ∀ k ∈ c.lowerHalf.keys, k ∈ c.keys :=
    fun k hk => (keys_halves hb hfull hm k).mpr (Or.inl hk)
  have huppsub : ∀ k ∈ c.upperHalf.keys, k ∈ c.keys :=
    fun k hk => (keys_halves hb hfull hm k).mpr (Or.inr (Or.inr hk))
  refine Ordered.node _ _ ?_ ?_ ?_
  · have hs1 := hs
    rw [← List.take_append_drop i items] at hs1
    exact hs1.insert_mid fm1 (fun b hb => lt_of_lt_of_le hmx (fx2 b hb))
  · intro x hx
    simp only [List.mem_append, List.mem_cons] at hx
    rcases hx with hx | rfl | rfl | hx
    · exact ho.child_ordered rfl (List.mem_of_mem_take hx)
    · exact hol
    · exact hou
    · exact ho.child_ordered rfl (List.mem_of_mem_drop hx)
  · intro j x k hjx hk
    rw [getElem?_splice_two children i _ _ hlt] at hjx
    by_cases h1 : j < i
    · rw [if_pos h1] at hjx
      obtain ⟨b1, b2⟩ := ho.bounds rfl hjx hk
      constructor
      · intro it hit
        rw [getElem?_splice_one items i _ hi, if_pos h1] at hit
        exact b1 it hit
      · intro q it hq hit
        rw [getElem?_splice_one items i _ hi, if_pos (by omega)] at hit
        exact b2 q it hq hit
    · rw [if_neg h1] at hjx
      by_cases h2 : j = i
      · rw [if_pos h2] at hjx
        cases hjx
        obtain ⟨-, b2⟩ := ho.bounds rfl hc (hlowsub k hk)
        constructor
        · intro it hit
          rw [getElem?_splice_one items i _ hi, if_neg h1, if_pos h2] at hit
          cases hit
          exact hkl k hk
        · intro q it hq hit
          rw [getElem?_splice_one items i _ hi, if_pos (by omega)] at hit
          exact b2 q it (by omega) hit
      · rw [if_neg h2] at hjx
        by_cases h3 : j = i + 1
        · rw [if_pos h3] at hjx
          cases hjx
          obtain ⟨b1, -⟩ := ho.bounds rfl hc (huppsub k hk)
          constructor
          · intro it hit
            rw [getElem?_splice_one items i _ hi, if_neg h1, if_neg h2] at hit
            have : j - 1 = i := by omega
            rw [this] at hit
            exact b1 it hit
          · intro q it hq hit
            have hqi : q = i := by omega
            rw [getElem?_splice_one items i _ hi, if_neg (by omega), if_pos hqi] at hit
            cases hit
            exact hku k hk
        · rw [if_neg h3] at hjx
          obtain ⟨b1, b2⟩ := ho.bounds rfl hjx hk
          constructor
          · intro it hit
            rw [getElem?_splice_one items i _ hi, if_neg h1, if_neg h2] at hit
            exact b1 it hit
          · intro q it hq hit
            rw [getElem?_splice_one items i _ hi, if_neg (by omega), if_neg (by omega)] at hit
            exact b2 (q - 1) it (by omega) hit

/-- A key below the median of a full node gets the same answer from the lower
half. -/
theorem get_lowerHalf {lo h : Nat} {c : Node} (hb : Balanced lo h c) (ho : Ordered c)
    (hfull : c.Items.length = 2 * degree - 1) {m : Item} (hm : c.Items[degree - 1]? = some m)
    {k : String} (hk : k < m.Key) : c.lowerHalf.get k = c.get k := by
  have h3 : degree - 1 = 3 := rfl
  have h7 : 2 * degree - 1 = 7 := rfl
  cases c with
  | mk items children leaf =>
    simp only [Node.Items_mk] at hm hfull
    have hsort : ItemsSorted items := ho.items_sorted
    have hcl : leaf = false → children.length = items.length + 1 := by
      intro hl; simpa using hb.children_length (by simpa using hl)
    have hlow : (Node.mk items children leaf).lowerHalf =
        Node.mk (items.take (degree - 1)) (if leaf then children else children.take degree)
          leaf := rfl
    rw [hlow]
    have hi : items = items.take (degree - 1) ++ m :: items.drop (degree - 1 + 1) :=
      eq_take_cons_drop hm
    have hch : children = (if leaf then children else children.take degree) ++
        (if leaf then [] else children.drop degree) := by
      cases leaf <;> simp
    have hlen : (items.take (degree - 1)).length = 3 := by simp [h3]; omega
    by_cases hs : searchFrom k (items.take (degree - 1)) 0 < (items.take (degree - 1)).length
    · conv_rhs => rw [hi, hch]
      rw [get_left hs]
      cases leaf with
      | true => exact Or.inl rfl
      | false =>
        right
        have := hcl rfl
        simp [degree]; omega
    · have hl := search_eq_length hs
      conv_rhs => rw [hi]
      have hr : ∀ b ∈ m :: items.drop (degree - 1 + 1), k < b.Key := by
        intro b hb
        rcases List.mem_cons.mp hb with rfl | hb
        · exact hk
        · exact lt_trans hk (sorted_drop_gt hsort hm b hb)
      rw [get_gap hl hr]
      conv_lhs => rw [← List.append_nil (items.take (degree - 1))]
      rw [get_gap hl (by simp)]
      cases leaf with
      | true => rfl
      | false =>
        simp only [Bool.false_eq_true, if_false]
        rw [getChild_eq, getChild_eq, hlen, List.getElem?_take, if_pos (by decide)]

/-- A key above the median of a full node gets the same answer from the upper
half. -/
theorem get_upperHalf {lo h : Nat} {c : Node} (hb : Balanced lo h c) (ho : Ordered c)
    (hfull : c.Items.length = 2 * degree - 1) {m : Item} (hm : c.Items[degree - 1]? = some m)
    {k : String} (hk : m.Key < k) : c.upperHalf.get k = c.get k := by
  have h3 : degree - 1 = 3 := rfl
  have h7 : 2 * degree - 1 = 7 := rfl
  cases c with
  | mk items children leaf =>
    simp only [Node.Items_mk] at hm hfull
    have hsort : ItemsSorted items := ho.items_sorted
    have hcl : leaf = false → children.length = items.length + 1 := by
      intro hl; simpa using hb.children_length (by simpa using hl)
    have hupp : (Node.mk items children leaf).upperHalf =
        Node.mk (items.drop degree) (if leaf then [] else children.drop degree) leaf := rfl
    rw [hupp]
    have hl : ∀ a ∈ items.take degree, a.Key < k := by
      intro a ha
      have e : items.take degree = items.take (degree - 1) ++ [m] := by
        have := List.take_succ (l := items) (n := degree - 1)
        rw [hm] at this
        exact this
      rw [e] at ha
      rcases List.mem_append.mp ha with ha | ha
      · exact lt_trans (sorted_take_le hsort hm a ha) hk
      · rw [List.mem_singleton.mp ha]; exact hk
    have hch : children = (if leaf then children else children.take degree) ++
        (if leaf then [] else children.drop degree) := by
      cases leaf <;> simp
    conv_rhs => rw [← List.take_append_drop degree items, hch]
    rw [get_right hl]
    cases leaf with
    | true => exact Or.inl rfl
    | false =>
      right
      have := hcl rfl
      simp [degree]; omega

/-- The median of a full ordered node is found by `Get` at that node. -/
theorem get_median {c : Node} (ho : Ordered c) {q : Nat} {m : Item}
    (hm : c.Items[q]? = some m) : c.get m.Key = .ok (m.Value, true) := by
  cases c with
  | mk items children leaf =>
    simp only [Node.Items_mk] at hm
    have hsort : ItemsSorted items := ho.items_sorted
    rw [eq_take_cons_drop hm]
    exact get_hit (sorted_take_le hsort hm)

/-- Every key gets the same answer from the node after `splitChild` as from the
node before it. -/
theorem splitChild_get {lo h : Nat} {items : List Item} {children : List Node} {i : Nat}
    {c : Node} {m : Item} (ho : Ordered (.mk items children false))
    (hc : children[i]? = some c) (hb : Balanced lo h c)
    (hfull : c.Items.length = 2 * degree - 1) (hi : i ≤ items.length)
    (hcl : children.length = items.length + 1)
    (hm : c.Items[degree - 1]? = some m) (k : String) :
    (Node.mk (items.take i ++ m :: items.drop i)
      (children.take i ++ c.lowerHalf :: c.upperHalf :: children.drop (i + 1)) false).get k =
    (Node.mk items children false).get k := by
  have hoc : Ordered c := ho.child_ordered rfl (List.getElem?_mem hc)
  have hlt := lt_length_of_getElem? hc
  have hnext : degree < c.Items.length := by rw [hfull]; decide
  have hx := List.getElem?_eq_getElem hnext
  have hmx : m.Key < (c.Items[degree]).Key := by
    have hcs : ItemsSorted c.Items := hoc.items_sorted
    have := sorted_drop_gt hcs hm
    exact this _ (by
      apply List.mem_iff_getElem?.mpr
      exact ⟨0, by rw [List.getElem?_drop]; exact hx⟩)
  obtain ⟨-, fx2⟩ := ho.fence hc hi (median_mem_keys hb hx)
  have hgt : ∀ b ∈ items.drop i, m.Key < b.Key := fun b hb => lt_of_lt_of_le hmx (fx2 b hb)
  have hl1 : (items.take i).length = i := by simp [hi]
  have hc1 : (children.take i).length = i := by simp; omega
  have hitems : items = items.take i ++ items.drop i := (List.take_append_drop i items).symm
  have hchildren : children = children.take i ++ c :: children.drop (i + 1) :=
    eq_take_cons_drop hc
  by_cases hs : searchFrom k (items.take i) 0 < (items.take i).length
  · conv_rhs => rw [hitems, hchildren]
    rw [get_left hs (Or.inr (by omega)), get_left hs (Or.inr (by omega))]
  · have hl := search_eq_length hs
    rcases lt_trichotomy k m.Key with hlt1 | heq | hgt1
    · have hr1 : ∀ b ∈ m :: items.drop i, k < b.Key := by
        intro b hb
        rcases List.mem_cons.mp hb with rfl | hb
        · exact hlt1
        · exact lt_trans hlt1 (hgt b hb)
      have hr2 : ∀ b ∈ items.drop i, k < b.Key := fun b hb => lt_trans hlt1 (hgt b hb)
      conv_rhs => rw [hitems]
      rw [get_gap hl hr1, get_gap hl hr2]
      simp only [Bool.false_eq_true, if_false]
      rw [getChild_eq, getChild_eq, hl1, hc, getElem?_splice_two children i _ _ hlt,
        if_neg (lt_irrefl _), if_pos rfl]
      exact get_lowerHalf hb hoc hfull hm hlt1
    · subst heq
      have hl0 : ∀ a ∈ items.take i, a.Key < m.Key := hl
      rw [get_hit hl0]
      conv_rhs => rw [hitems]
      rw [get_gap hl hgt]
      simp only [Bool.false_eq_true, if_false]
      rw [getChild_eq, hl1, hc]
      exact (get_median hoc hm).symm
    · have hl2 : ∀ a ∈ items.take i ++ [m], a.Key < k := by
        intro a ha
        rcases List.mem_append.mp ha with ha | ha
        · exact hl a ha
        · rw [List.mem_singleton.mp ha]; exact hgt1
      have e1 : items.take i ++ m :: items.drop i = (items.take i ++ [m]) ++ items.drop i := by
        simp
      have e2 : children.take i ++ c.lowerHalf :: c.upperHalf :: children.drop (i + 1) =
          (children.take i ++ [c.lowerHalf]) ++ c.upperHalf :: children.drop (i + 1) := by
        simp
      rw [e1, e2, get_right hl2 (Or.inr (by simp; omega))]
      conv_rhs => rw [hitems, hchildren]
      rw [get_right hl (Or.inr (by omega))]
      have e3 : c.upperHalf :: children.drop (i + 1) =
          (c :: children.drop (i + 1)).set 0 c.upperHalf := rfl
      rw [e3]
      exact get_set_child (c := c) (by simp) (get_upperHalf hb hoc hfull hm hgt1)

/-! ## insertNonFull keeps the order and the answers to other keys -/

theorem findKeyFrom_not_found {key : String} {items : List Item} (hs : ItemsSorted items) :
    ∀ k idx, findKeyFrom key items k = (idx, false) → key ∉ items.map Item.Key := by
  induction items with
  | nil => intro k idx _; simp
  | cons x rest ih =>
    intro k idx h
    have hs1 := List.pairwise_cons.mp hs
    simp only [findKeyFrom] at h
    split at h
    · cases h
    · next hne =>
      split at h
      · next hlt =>
        have hlt1 := (stringsCompare_lt_zero _ _).mp hlt
        simp only [List.map_cons, List.mem_cons, not_or]
        refine ⟨fun e => hne e.symm, ?_⟩
        intro hmem
        obtain ⟨y, hy, rfl⟩ := List.mem_map.mp hmem
        exact lt_asymm hlt1 (hs1.1 y hy)
      · simp only [List.map_cons, List.mem_cons, not_or]
        exact ⟨fun e => hne e.symm, ih hs1.2 _ _ h⟩

/-- The leaf loop of `insertNonFull` on sorted items that do not hold the key:
the new item goes between the items below the key and the items above it. -/
theorem leafInsert_sorted {items : List Item} {key : String} (value : String)
    (hs : ItemsSorted items) (hn : key ∉ items.map Item.Key) :
    ∃ p, p ≤ items.length ∧
      leafInsert items key value = items.take p ++ ⟨key, value⟩ :: items.drop p ∧
      (∀ a ∈ items.take p, a.Key < key) ∧ (∀ b ∈ items.drop p, key < b.Key) := by
  obtain ⟨p, hp, heq, h2, h1⟩ := leafInsert_eq items key value
  refine ⟨p, hp, heq, ?_, h2⟩
  intro a ha
  cases p with
  | zero => simp at ha
  | succ q =>
    have hq := List.getElem?_eq_getElem (show q < items.length by omega)
    have hle := not_lt.mp (h1 q _ rfl hq)
    have hne : (items[q]).Key ≠ key := fun e =>
      hn (e ▸ List.mem_map_of_mem _ (List.getElem?_mem hq))
    have hlt := lt_of_le_of_ne hle hne
    rw [List.take_succ, hq] at ha
    rcases List.mem_append.mp ha with ha | ha
    · exact lt_trans (sorted_take_le hs hq a ha) hlt
    · simp only [Option.toList, List.mem_singleton] at ha
      rw [ha]; exact hlt

theorem mem_keys_set_child {items : List Item} {children : List Node} {i : Nat} {c2 : Node}
    (hlen : children.length = items.length + 1) {k : String}
    (hk : k ∈ (Node.mk items (children.set i c2) false).keys) :
    k ∈ c2.keys ∨ k ∈ (Node.mk items children false).keys := by
  rw [mem_keys_node (by simpa using hlen)] at hk
  rw [mem_keys_node hlen]
  rcases hk with hk | ⟨x, hx, hk⟩
  · exact Or.inr (Or.inl hk)
  · rcases List.mem_or_eq_of_mem_set hx with hx | rfl
    · exact Or.inr (Or.inr ⟨x, hx, hk⟩)
    · exact Or.inl hk

theorem insertNonFull_ordered (key value : String) :
    ∀ fuel n n1, Node.insertNonFull fuel n key value = .ok n1 →
      ∀ lo h, Balanced lo h n → Ordered n →
        Ordered n1 ∧ (∀ k ∈ n1.keys, k = key ∨ k ∈ n.keys) ∧
          (∀ k, k ≠ key → n1.get k = n.get k) := by
  apply insertNonFull_induct key value
    (fun _ n n1 => ∀ lo h, Balanced lo h n → Ordered n →
        Ordered n1 ∧ (∀ k ∈ n1.keys, k = key ∨ k ∈ n.keys) ∧
          (∀ k, k ≠ key → n1.get k = n.get k))
  · -- the leaf holds the key
    intro fuel items children idx hf lo h hb ho
    obtain ⟨-, it, hit, hkey⟩ := findKeyFrom_found_at hf
    simp only [Nat.sub_zero] at hit
    refine ⟨ho.of_keys_eq (setValue_keys value hit), ?_, ?_⟩
    · intro k hk
      rw [mem_keys_leaf] at hk ⊢
      rw [setValue_keys value hit] at hk
      exact Or.inr hk
    · intro k hk
      exact get_setValue value hit (by rw [hkey]; exact hk)
  · -- the leaf does not hold the key
    intro fuel items children idx hf lo h hb ho
    have hs : ItemsSorted items := ho.items_sorted
    have hn := findKeyFrom_not_found hs 0 idx hf
    obtain ⟨p, hp, heq, h1, h2⟩ := leafInsert_sorted value hs hn
    rw [heq]
    refine ⟨Ordered.leaf _ _ ?_, ?_, ?_⟩
    · have hs1 := hs
      rw [← List.take_append_drop p items] at hs1
      exact hs1.insert_mid h1 h2
    · intro k hk
      rw [mem_keys_leaf] at hk ⊢
      simp only [List.map_append, List.map_cons, List.mem_append, List.mem_cons] at hk
      rcases hk with hk | rfl | hk
      · exact Or.inr (List.mem_map.mpr (by
          obtain ⟨a, ha, rfl⟩ := List.mem_map.mp hk
          exact ⟨a, List.mem_of_mem_take ha, rfl⟩))
      · exact Or.inl rfl
      · exact Or.inr (List.mem_map.mpr (by
          obtain ⟨a, ha, rfl⟩ := List.mem_map.mp hk
          exact ⟨a, List.mem_of_mem_drop ha, rfl⟩))
    · intro k hk
      have : (Node.mk (items.take p ++ ⟨key, value⟩ :: items.drop p) children true).get k =
          (Node.mk (items.take p ++ items.drop p) children true).get k :=
        get_leaf_splice h1 h2 hk
      rw [List.take_append_drop] at this
      exact this
  · -- the internal node holds the key
    intro fuel items children hk lo h hb ho
    obtain ⟨it, hit, hkey⟩ := keyAt_eq_true hk
    have hlen : children.length = items.length + 1 := by
      simpa using hb.children_length rfl
    refine ⟨ho.of_keys_eq (setValue_keys value hit), ?_, ?_⟩
    · intro k hk
      rw [mem_keys_node (by simpa [setValue_length] using hlen)] at hk
      rw [mem_keys_node hlen]
      rw [setValue_keys value hit] at hk
      exact Or.inr hk
    · intro k hk
      exact get_setValue value hit (by rw [hkey]; exact hk)
  · -- descent into a child with room
    intro fuel items children c c2 hk hc hfull hrec ih lo h hb ho
    have hlen : children.length = items.length + 1 := by
      simpa using hb.children_length rfl
    obtain ⟨h1, rfl⟩ := hb.internal_height
    obtain ⟨hbc, -, -⟩ := hb.child (List.getElem?_mem hc)
    obtain ⟨ho2, hk2, hf2⟩ := ih lo h1 hbc (ho.child_ordered rfl (List.getElem?_mem hc))
    obtain ⟨sp1, sp2⟩ := search_spec key items
    refine ⟨ho.set_child_ordered hc ho2 ?_, ?_, ?_⟩
    · intro k hkk
      rcases hk2 k hkk with rfl | hkc
      · right
        refine ⟨sp2, ?_⟩
        intro q it hq hit
        apply sp1
        apply List.mem_iff_getElem?.mpr
        exact ⟨q, by rw [List.getElem?_take, if_pos (by omega)]; exact hit⟩
      · exact Or.inl hkc
    · intro k hkk
      rcases mem_keys_set_child hlen hkk with hkk | hkk
      · rcases hk2 k hkk with rfl | hkc
        · exact Or.inl rfl
        · right
          rw [mem_keys_node hlen]
          exact Or.inr ⟨c, List.getElem?_mem hc, hkc⟩
      · exact Or.inr hkk
    · intro k hkk
      exact get_set_child hc (hf2 k hkk)
  · -- descent into a full child, split first
    intro fuel items children c n1 m c1 c2 hk hc hfull hs hm hc1 hrec ih lo h hb ho
    have hlen : children.length = items.length + 1 := by
      simpa using hb.children_length rfl
    obtain ⟨h1, rfl⟩ := hb.internal_height
    obtain ⟨hbc, -, -⟩ := hb.child (List.getElem?_mem hc)
    have hoc : Ordered c := ho.child_ordered rfl (List.getElem?_mem hc)
    have hlt := lt_length_of_getElem? hc
    have hi : searchFrom key items 0 ≤ items.length := search_le key items
    obtain ⟨m0, hm0, hs0⟩ := splitChild_balanced items children false _ c hc hbc hfull hi
    rw [hs0] at hs
    cases hs
    simp only [Node.Items_mk, Node.Children_mk, Node.IsLeaf_mk] at hm hc1 ⊢
    rw [getElem?_take_append_self _ _ _ _ hi] at hm
    cases hm
    obtain ⟨hbl, hbu, -, -⟩ := hbc.halves hfull
    obtain ⟨sp1, sp2⟩ := search_spec key items
    have hoN := splitChild_ordered ho hc hbc hfull hi hm0
    have hfN := splitChild_get ho hc hbc hfull hi hlen hm0
    have hlenN : (children.take (searchFrom key items 0) ++
        c.lowerHalf :: c.upperHalf :: children.drop (searchFrom key items 0 + 1)).length =
        (items.take (searchFrom key items 0) ++ m :: items.drop (searchFrom key items 0)).length
          + 1 := by
      simp; omega
    have hbc1 : Balanced lo h1 c1 := by
      rw [getElem?_splice_two children _ _ _ hlt] at hc1
      split at hc1
      · next hgt =>
        rw [if_neg (by omega), if_neg (by omega), if_pos rfl] at hc1
        cases hc1; exact hbu
      · rw [if_neg (lt_irrefl _), if_pos rfl] at hc1
        cases hc1; exact hbl
    have hc1sub : ∀ k ∈ c1.keys, k ∈ c.keys := by
      intro k hkk
      rw [getElem?_splice_two children _ _ _ hlt] at hc1
      split at hc1
      · rw [if_neg (by omega), if_neg (by omega), if_pos rfl] at hc1
        cases hc1
        exact (keys_halves hbc hfull hm0 k).mpr (Or.inr (Or.inr hkk))
      · rw [if_neg (lt_irrefl _), if_pos rfl] at hc1
        cases hc1
        exact (keys_halves hbc hfull hm0 k).mpr (Or.inl hkk)
    obtain ⟨ho2, hk2, hf2⟩ := ih lo h1 hbc1 (hoN.child_ordered rfl (List.getElem?_mem hc1))
    have hNsub : ∀ k ∈ (Node.mk (items.take (searchFrom key items 0) ++
          m :: items.drop (searchFrom key items 0))
        (children.take (searchFrom key items 0) ++
          c.lowerHalf :: c.upperHalf :: children.drop (searchFrom key items 0 + 1)) false).keys,
        k ∈ (Node.mk items children false).keys := by
      intro k hkk
      rw [mem_keys_node hlenN] at hkk
      rw [mem_keys_node hlen]
      rcases hkk with hkk | ⟨x, hx, hkk⟩
      · simp only [List.map_append, List.map_cons, List.mem_append, List.mem_cons] at hkk
        rcases hkk with hkk | rfl | hkk
        · obtain ⟨a, ha, rfl⟩ := List.mem_map.mp hkk
          exact Or.inl (List.mem_map_of_mem _ (List.mem_of_mem_take ha))
        · exact Or.inr ⟨c, List.getElem?_mem hc, median_mem_keys hbc hm0⟩
        · obtain ⟨a, ha, rfl⟩ := List.mem_map.mp hkk
          exact Or.inl (List.mem_map_of_mem _ (List.mem_of_mem_drop ha))
      · simp only [List.mem_append, List.mem_cons] at hx
        rcases hx with hx | rfl | rfl | hx
        · exact Or.inr ⟨x, List.mem_of_mem_take hx, hkk⟩
        · exact Or.inr ⟨c, List.getElem?_mem hc,
            (keys_halves hbc hfull hm0 k).mpr (Or.inl hkk)⟩
        · exact Or.inr ⟨c, List.getElem?_mem hc,
            (keys_halves hbc hfull hm0 k).mpr (Or.inr (Or.inr hkk))⟩
        · exact Or.inr ⟨x, List.mem_of_mem_drop hx, hkk⟩
    refine ⟨hoN.set_child_ordered hc1 ho2 ?_, ?_, ?_⟩
    · intro k hkk
      rcases hk2 k hkk with rfl | hkc
      · right
        by_cases hgt : stringsCompare k m.Key > 0
        · rw [if_pos hgt]
          have hgt1 := (stringsCompare_gt_zero _ _).mp hgt
          constructor
          · intro it hit
            rw [getElem?_splice_one items _ _ hi, if_neg (by omega), if_neg (by omega)] at hit
            exact sp2 it hit
          · intro q it hq hit
            have hqi : q = searchFrom k items 0 := by omega
            rw [getElem?_splice_one items _ _ hi, if_neg (by omega), if_pos hqi] at hit
            cases hit
            exact hgt1
        · rw [if_neg hgt]
          have hle : k ≤ m.Key := not_lt.mp (fun hh => hgt ((stringsCompare_gt_zero _ _).mpr hh))
          constructor
          · intro it hit
            rw [getElem?_splice_one items _ _ hi, if_neg (lt_irrefl _), if_pos rfl] at hit
            cases hit
            exact hle
          · intro q it hq hit
            rw [getElem?_splice_one items _ _ hi, if_pos (by omega)] at hit
            apply sp1
            apply List.mem_iff_getElem?.mpr
            exact ⟨q, by rw [List.getElem?_take, if_pos (by omega)]; exact hit⟩
      · exact Or.inl hkc
    · intro k hkk
      rcases mem_keys_set_child hlenN hkk with hkk | hkk
      · rcases hk2 k hkk with rfl | hkc
        · exact Or.inl rfl
        · right
          rw [mem_keys_node hlen]
          exact Or.inr ⟨c, List.getElem?_mem hc, hc1sub k hkc⟩
      · exact Or.inr (hNsub k hkk)
    · intro k hkk
      rw [get_set_child hc1 (hf2 k hkk)]
      exact hfN k

/-! ## Set keeps the order and the answers to other keys -/

theorem ordered_above_root {root : Node} (ho : Ordered root) :
    Ordered (.mk [] [root] false) := by
  refine Ordered.node _ _ List.Pairwise.nil ?_ ?_
  · intro c hc
    rw [List.mem_singleton.mp hc]; exact ho
  · intro j c k _ _
    constructor
    · intro it hit; simp at hit
    · intro i it _ hit; simp at hit

theorem get_above_root (root : Node) (k : String) :
    (Node.mk [] [root] false).get k = root.get k := by
  exact @get_descend [] [root] k root rfl rfl

/-- `Set` on a well-shaped ordered tree: the tree stays ordered, gains no key
but the one set, and answers `Get` of every other key as before. -/
theorem set_ordered {lo : Nat} (hlo : lo ≤ degree - 1) {t t1 : BTree} {key value : String}
    (hw : t.WellShaped lo) (ho : Ordered t.root) (hset : t.Set key value = .ok t1) :
    Ordered t1.root ∧ (∀ k ∈ t1.root.keys, k = key ∨ k ∈ t.root.keys) ∧
      (∀ k, k ≠ key → t1.Get k = t.Get k) := by
  obtain ⟨h, hb, hle⟩ := hw
  rcases set_cases hset with ⟨hfull, nr, hs, hins⟩ | ⟨hfull, hins⟩
  · obtain ⟨m, hm, hs0⟩ := splitRoot_eq hb hfull
    rw [hs0] at hs
    cases hs
    have hbN := splitRoot_balanced hlo hb hfull m
    have hoN : Ordered (.mk [m] [t.root.lowerHalf, t.root.upperHalf] false) :=
      splitChild_ordered (ordered_above_root ho) (i := 0) rfl hb hfull (Nat.le_refl _) hm
    have hfN : ∀ k, (Node.mk [m] [t.root.lowerHalf, t.root.upperHalf] false).get k =
        (Node.mk [] [t.root] false).get k :=
      splitChild_get (ordered_above_root ho) (i := 0) rfl hb hfull (Nat.le_refl _) rfl hm
    obtain ⟨ho1, hk1, hf1⟩ := insertNonFull_ordered key value _ _ _ hins _ _ hbN hoN
    refine ⟨ho1, ?_, ?_⟩
    · intro k hk
      rcases hk1 k hk with rfl | hk
      · exact Or.inl rfl
      · right
        rw [mem_keys_node (by simp)] at hk
        rcases hk with hk | ⟨x, hx, hk⟩
        · simp only [List.map_cons, List.map_nil, List.mem_singleton] at hk
          rw [hk]; exact median_mem_keys hb hm
        · simp only [List.mem_cons, List.mem_singleton, List.not_mem_nil, or_false] at hx
          rcases hx with rfl | rfl
          · exact (keys_halves hb hfull hm k).mpr (Or.inl hk)
          · exact (keys_halves hb hfull hm k).mpr (Or.inr (Or.inr hk))
    · intro k hk
      show t1.root.get k = t.root.get k
      rw [hf1 k hk, hfN k, get_above_root]
  · obtain ⟨ho1, hk1, hf1⟩ := insertNonFull_ordered key value _ _ _ hins _ _ hb ho
    exact ⟨ho1, hk1, hf1⟩

theorem newBTree_ordered : Ordered NewBTree.root :=
  Ordered.leaf _ _ List.Pairwise.nil

/-! ## The predecessor taken by Delete -/

/-- The keys under a child other than the last one lie below every key that is
above the item after the child. -/
theorem Ordered.child_le_item {items : List Item} {children : List Node}
    (ho : Ordered (.mk items children false)) {j : Nat} {c : Node} {it : Item} {k : String}
    (hc : children[j]? = some c) (hit : items[j]? = some it) (hk : k ∈ c.keys) :
    k ≤ it.Key :=
  (ho.bounds rfl hc hk).1 it hit

/-- The item that the predecessor loop of `Delete` removes is the largest of the
subtree: the subtree stays ordered, every key left is below the removed one, `Get`
found the removed key with its value, and every other key is answered as
before. -/
theorem popLast_ordered (n : Node) :
    ∀ lo h it n1, Balanced lo h n → Ordered n → n.popLast = .ok (it, n1) →
      Ordered n1 ∧ (∀ k ∈ n1.keys, k ∈ n.keys ∧ k < it.Key) ∧ it.Key ∈ n.keys ∧
        (∀ k ∈ n.keys, k ≤ it.Key) ∧ n.get it.Key = .ok (it.Value, true) ∧
        (∀ k, k ≠ it.Key → n1.get k = n.get k) := by
  induction n using Node.induct with
  | h items children leaf ih =>
    intro lo h it n1 hb ho hp
    rw [Node.popLast_mk] at hp
    have hs : ItemsSorted items := ho.items_sorted
    cases leaf with
    | true =>
      simp only [if_true] at hp
      split at hp
      · cases hp
      · next it1 hlast =>
        cases hp
        have heq : items.dropLast ++ [it] = items :=
          List.dropLast_append_getLast? it (by simpa using hlast)
        have hs1 := hs
        rw [← heq] at hs1
        have hlt : ∀ a ∈ items.dropLast, a.Key < it.Key :=
          fun a ha => hs1.lt_of_append a ha it (List.mem_singleton.mpr rfl)
        refine ⟨Ordered.leaf _ _ hs1.append_left, ?_, ?_, ?_, ?_, ?_⟩
        · intro k hk
          rw [mem_keys_leaf] at hk ⊢
          obtain ⟨a, ha, rfl⟩ := List.mem_map.mp hk
          exact ⟨List.mem_map_of_mem _ (List.mem_of_mem_dropLast ha), hlt a ha⟩
        · rw [mem_keys_leaf, ← heq]
          simp
        · intro k hk
          rw [mem_keys_leaf, ← heq] at hk
          simp only [List.map_append, List.map_cons, List.map_nil, List.mem_append,
            List.mem_singleton] at hk
          rcases hk with hk | rfl
          · obtain ⟨a, ha, rfl⟩ := List.mem_map.mp hk
            exact le_of_lt (hlt a ha)
          · exact le_refl _
        · conv_lhs => rw [← heq]
          exact get_hit hlt
        · intro k hk
          have : (Node.mk (items.dropLast ++ it :: []) children true).get k =
              (Node.mk (items.dropLast ++ []) children true).get k :=
            get_leaf_splice hlt (by simp) hk
          rw [heq, List.append_nil] at this
          exact this.symm
    | false =>
      simp only [Bool.false_eq_true, if_false] at hp
      split at hp
      · cases hp
      · next it1 cs1 hpc =>
        cases hp
        obtain ⟨c, c1, hc, hpop, rfl, hpos⟩ := popLastChild_ok hpc
        have hlen : children.length = items.length + 1 := by
          simpa using hb.children_length rfl
        have hL : children.length - 1 = items.length := by omega
        rw [hL] at hc ⊢
        obtain ⟨h1, rfl⟩ := hb.internal_height
        obtain ⟨hbc, -, -⟩ := hb.child (List.getElem?_mem hc)
        obtain ⟨ho1, hk1, hmem, hmax, hget, hframe⟩ :=
          ih c (List.getElem?_mem hc) lo h1 it c1 hbc (ho.child_ordered rfl (List.getElem?_mem hc)) hpop
        obtain ⟨f1, -⟩ := ho.fence hc (le_refl _) hmem
        rw [List.take_length] at f1
        -- keys under the other children are below the removed key
        have hother : ∀ j x, j ≠ items.length → children[j]? = some x →
            ∀ k ∈ x.keys, k < it.Key := by
          intro j x hj hx k hk
          have hjl : j < items.length := by
            have := lt_length_of_getElem? hx; omega
          have hi := List.getElem?_eq_getElem hjl
          exact lt_of_le_of_lt (ho.child_le_item hx hi hk) (f1 _ (List.getElem_mem hjl))
        refine ⟨ho.set_child_ordered hc ho1 (fun k hk => Or.inl (hk1 k hk).1), ?_, ?_, ?_, ?_, ?_⟩
        · intro k hk
          rw [mem_keys_node (by simpa using hlen)] at hk
          rw [mem_keys_node hlen]
          rcases hk with hk | ⟨x, hx, hk⟩
          · obtain ⟨a, ha, rfl⟩ := List.mem_map.mp hk
            exact ⟨Or.inl (List.mem_map_of_mem _ ha), f1 a ha⟩
          · obtain ⟨j, hj⟩ := List.getElem?_of_mem hx
            rw [List.getElem?_set] at hj
            by_cases hij : items.length = j
            · rw [if_pos hij] at hj
              split at hj
              · cases hj
                exact ⟨Or.inr ⟨c, List.getElem?_mem hc, (hk1 k hk).1⟩, (hk1 k hk).2⟩
              · cases hj
            · rw [if_neg hij] at hj
              exact ⟨Or.inr ⟨x, List.getElem?_mem hj, hk⟩,
                hother j x (fun e => hij e.symm) hj k hk⟩
        · rw [mem_keys_node hlen]
          exact Or.inr ⟨c, List.getElem?_mem hc, hmem⟩
        · intro k hk
          rw [mem_keys_node hlen] at hk
          rcases hk with hk | ⟨x, hx, hk⟩
          · obtain ⟨a, ha, rfl⟩ := List.mem_map.mp hk
            exact le_of_lt (f1 a ha)
          · obtain ⟨j, hj⟩ := List.getElem?_of_mem hx
            by_cases hij : j = items.length
            · rw [hij, hc] at hj
              cases hj
              exact hmax k hk
            · exact le_of_lt (hother j x hij hj k hk)
        · have : (Node.mk (items ++ []) children false).get it.Key =
              if false = true then .ok ("", false) else getChild children items.length it.Key :=
            get_gap f1 (by simp)
          rw [List.append_nil] at this
          rw [this]
          simp only [Bool.false_eq_true, if_false]
          rw [getChild_eq, hc]
          exact hget
        · intro k hk
          exact get_set_child hc (hframe k hk)

/-! ## Delete keeps the order and the answers to other keys -/

theorem sorted_without {l1 l2 : List Item} {x : Item} (h : ItemsSorted (l1 ++ x :: l2)) :
    ItemsSorted (l1 ++ l2) := by
  unfold ItemsSorted at h ⊢
  rw [List.pairwise_append] at h ⊢
  refine ⟨h.1, (List.pairwise_cons.mp h.2.1).2, ?_⟩
  intro a ha b hb
  exact h.2.2 a ha b (List.mem_cons_of_mem _ hb)

/-- The removal at the node that holds the key. -/
theorem removeItem_ordered {lo h : Nat} {n n1 : Node} {ki : Nat} {it : Item}
    (hb : Balanced lo h n) (ho : Ordered n) (hit : n.Items[ki]? = some it)
    (hr : n.removeItem ki = .ok n1) :
    Ordered n1 ∧ (∀ k ∈ n1.keys, k ∈ n.keys) ∧ (∀ k, k ≠ it.Key → n1.get k = n.get k) := by
  cases n with
  | mk items children leaf =>
    simp only [Node.Items_mk] at hit
    have hs : ItemsSorted items := ho.items_sorted
    have hkl := lt_length_of_getElem? hit
    have hitems : items = items.take ki ++ it :: items.drop (ki + 1) := eq_take_cons_drop hit
    have hs1 := hs
    rw [hitems] at hs1
    have hl1 : ∀ a ∈ items.take ki, a.Key < it.Key := sorted_take_le hs hit
    have hl2 : ∀ b ∈ items.drop (ki + 1), it.Key < b.Key := sorted_drop_gt hs hit
    unfold Node.removeItem at hr
    simp only [Node.Items_mk, Node.Children_mk, Node.IsLeaf_mk] at hr
    cases leaf with
    | true =>
      simp only [if_true, hkl] at hr
      cases hr
      rw [List.eraseIdx_eq_take_drop_succ]
      refine ⟨Ordered.leaf _ _ (sorted_without hs1), ?_, ?_⟩
      · intro k hk
        rw [mem_keys_leaf] at hk ⊢
        simp only [List.map_append, List.mem_append] at hk
        rcases hk with hk | hk
        · obtain ⟨a, ha, rfl⟩ := List.mem_map.mp hk
          exact List.mem_map_of_mem _ (List.mem_of_mem_take ha)
        · obtain ⟨a, ha, rfl⟩ := List.mem_map.mp hk
          exact List.mem_map_of_mem _ (List.mem_of_mem_drop ha)
      · intro k hk
        conv_rhs => rw [hitems]
        exact (get_leaf_splice hl1 hl2 hk).symm
    | false =>
      simp only [Bool.false_eq_true, if_false] at hr
      split at hr
      · cases hr
      · next c hc =>
        split at hr
        · cases hr
        · next pit c1 hpop =>
          simp only [hkl, if_true] at hr
          cases hr
          have hlen : children.length = items.length + 1 := by
            simpa using hb.children_length rfl
          obtain ⟨h1, rfl⟩ := hb.internal_height
          have hcm := List.getElem?_mem hc
          obtain ⟨hbc, -, -⟩ := hb.child hcm
          obtain ⟨ho1, hk1, hmem, hmax, hget, hframe⟩ :=
            popLast_ordered c lo h1 pit c1 hbc (ho.child_ordered rfl hcm) hpop
          obtain ⟨f1, f2⟩ := ho.fence hc (by omega) hmem
          have hple : pit.Key ≤ it.Key := by
            apply f2
            rw [drop_eq_cons_of_getElem? hit]
            exact List.mem_cons_self _ _
          have hp2 : ∀ b ∈ items.drop (ki + 1), pit.Key < b.Key :=
            fun b hb => lt_of_le_of_lt hple (hl2 b hb)
          -- the child after the removed item
          have hdl : ki + 1 < children.length := by omega
          have hd := List.getElem?_eq_getElem hdl
          have hdkeys : ∀ k ∈ (children[ki + 1]).keys, it.Key < k :=
            fun k hk => (ho.bounds rfl hd hk).2 ki it rfl hit
          have hset : items.set ki pit = items.take ki ++ pit :: items.drop (ki + 1) := by
            rw [List.set_eq_take_append_cons_drop, if_pos hkl]
          have hcset : children.set ki c1 =
              children.take ki ++ c1 :: children.drop (ki + 1) := by
            rw [List.set_eq_take_append_cons_drop, if_pos (by omega)]
          have hchildren : children = children.take ki ++ c :: children.drop (ki + 1) :=
            eq_take_cons_drop hc
          have hlenl : (items.take ki).length = ki := by simp; omega
          have hlenc : (children.take ki).length = ki := by simp; omega
          refine ⟨?_, ?_, ?_⟩
          · -- order
            refine Ordered.node _ _ ?_ ?_ ?_
            · rw [hset]
              exact (sorted_without hs1).insert_mid f1 hp2
            · intro x hx
              rcases List.mem_or_eq_of_mem_set hx with hx | rfl
              · exact ho.child_ordered rfl hx
              · exact ho1
            · intro j x k hx hk
              rw [List.getElem?_set] at hx
              by_cases hij : ki = j
              · subst hij
                rw [if_pos rfl] at hx
                split at hx
                · cases hx
                  obtain ⟨-, b2⟩ := ho.bounds rfl hc (hk1 k hk).1
                  constructor
                  · intro it1 hit1
                    rw [List.getElem?_set, if_pos rfl, if_pos hkl] at hit1
                    cases hit1
                    exact le_of_lt (hk1 k hk).2
                  · intro q it1 hq hit1
                    rw [List.getElem?_set, if_neg (by omega)] at hit1
                    exact b2 q it1 hq hit1
                · cases hx
              · rw [if_neg hij] at hx
                obtain ⟨b1, b2⟩ := ho.bounds rfl hx hk
                constructor
                · intro it1 hit1
                  rw [List.getElem?_set, if_neg hij] at hit1
                  exact b1 it1 hit1
                · intro q it1 hq hit1
                  rw [List.getElem?_set] at hit1
                  by_cases hqi : ki = q
                  · rw [if_pos hqi, if_pos hkl] at hit1
                    cases hit1
                    exact lt_of_le_of_lt hple (b2 q it hq (by rw [← hqi]; exact hit))
                  · rw [if_neg hqi] at hit1
                    exact b2 q it1 hq hit1
          · -- keys
            intro k hk
            rw [mem_keys_node (by simpa using hlen)] at hk
            rw [mem_keys_node hlen]
            rcases hk with hk | ⟨x, hx, hk⟩
            · rw [hset] at hk
              simp only [List.map_append, List.map_cons, List.mem_append, List.mem_cons] at hk
              rcases hk with hk | rfl | hk
              · obtain ⟨a, ha, rfl⟩ := List.mem_map.mp hk
                exact Or.inl (List.mem_map_of_mem _ (List.mem_of_mem_take ha))
              · exact Or.inr ⟨c, hcm, hmem⟩
              · obtain ⟨a, ha, rfl⟩ := List.mem_map.mp hk
                exact Or.inl (List.mem_map_of_mem _ (List.mem_of_mem_drop ha))
            · rcases List.mem_or_eq_of_mem_set hx with hx | rfl
              · exact Or.inr ⟨x, hx, hk⟩
              · exact Or.inr ⟨c, hcm, (hk1 k hk).1⟩
          · -- other keys
            intro k hk
            rw [hset, hcset]
            conv_rhs => rw [hitems, hchildren]
            by_cases hsl : searchFrom k (items.take ki) 0 < (items.take ki).length
            · rw [get_left hsl (Or.inr (by omega)), get_left hsl (Or.inr (by omega))]
            · have hl := search_eq_length hsl
              rcases lt_trichotomy k pit.Key with hlt | heq | hgt
              · have hr1 : ∀ b ∈ pit :: items.drop (ki + 1), k < b.Key := by
                  intro b hb
                  rcases List.mem_cons.mp hb with rfl | hb
                  · exact hlt
                  · exact lt_trans hlt (hp2 b hb)
                have hr2 : ∀ b ∈ it :: items.drop (ki + 1), k < b.Key := by
                  intro b hb
                  rcases List.mem_cons.mp hb with rfl | hb
                  · exact lt_of_lt_of_le hlt hple
                  · exact lt_trans hlt (hp2 b hb)
                rw [get_gap hl hr1, get_gap hl hr2]
                simp only [Bool.false_eq_true, if_false]
                rw [getChild_eq, getChild_eq, hlenl,
                  List.getElem?_append_right (by omega),
                  List.getElem?_append_right (by omega), hlenc, Nat.sub_self]
                simp only [List.getElem?_cons_zero]
                exact hframe k (ne_of_lt hlt)
              · subst heq
                have hlt2 : pit.Key < it.Key := lt_of_le_of_ne hple hk
                have hr2 : ∀ b ∈ it :: items.drop (ki + 1), pit.Key < b.Key := by
                  intro b hb
                  rcases List.mem_cons.mp hb with rfl | hb
                  · exact hlt2
                  · exact hp2 b hb
                rw [get_hit f1, get_gap hl hr2]
                simp only [Bool.false_eq_true, if_false]
                rw [getChild_eq, hlenl, List.getElem?_append_right (by omega), hlenc,
                  Nat.sub_self]
                simp only [List.getElem?_cons_zero]
                exact hget.symm
              · have e1 : items.take ki ++ pit :: items.drop (ki + 1) =
                    (items.take ki ++ [pit]) ++ items.drop (ki + 1) := by simp
                have e2 : items.take ki ++ it :: items.drop (ki + 1) =
                    (items.take ki ++ [it]) ++ items.drop (ki + 1) := by simp
                have e3 : children.take ki ++ c1 :: children.drop (ki + 1) =
                    (children.take ki ++ [c1]) ++ children.drop (ki + 1) := by simp
                have e4 : children.take ki ++ c :: children.drop (ki + 1) =
                    (children.take ki ++ [c]) ++ children.drop (ki + 1) := by simp
                have hlp : ∀ a ∈ items.take ki ++ [pit], a.Key < k := by
                  intro a ha
                  rcases List.mem_append.mp ha with ha | ha
                  · exact hl a ha
                  · rw [List.mem_singleton.mp ha]; exact hgt
                rcases lt_or_gt_of_ne hk with hlt2 | hgt2
                · -- between the predecessor and the removed key: stored nowhere
                  have hr1 : ∀ b ∈ items.drop (ki + 1), k < b.Key :=
                    fun b hb => lt_trans hlt2 (hl2 b hb)
                  have hr2 : ∀ b ∈ it :: items.drop (ki + 1), k < b.Key := by
                    intro b hb
                    rcases List.mem_cons.mp hb with rfl | hb
                    · exact hlt2
                    · exact hr1 b hb
                  rw [e1, get_gap hlp hr1, get_gap hl hr2]
                  simp only [Bool.false_eq_true, if_false]
                  rw [getChild_eq, getChild_eq, hlenl, List.length_append, hlenl,
                    List.length_singleton,
                    List.getElem?_append_right (by omega),
                    List.getElem?_append_right (by omega), hlenc, Nat.sub_self]
                  have : ki + 1 - ki = 0 + 1 := by omega
                  rw [this, List.getElem?_cons_succ, List.getElem?_drop, Nat.add_zero, hd]
                  simp only [List.getElem?_cons_zero]
                  have hbd := (hb.child (List.getElem_mem hdl)).1
                  rw [hbd.get_absent (fun hin => lt_asymm hlt2 (hdkeys k hin)),
                    hbc.get_absent (fun hin => not_lt_of_le (hmax k hin) hgt)]
                · have hli : ∀ a ∈ items.take ki ++ [it], a.Key < k := by
                    intro a ha
                    rcases List.mem_append.mp ha with ha | ha
                    · exact hl a ha
                    · rw [List.mem_singleton.mp ha]; exact hgt2
                  rw [e1, e2, e3, e4, get_right hlp (Or.inr (by simp; omega)),
                    get_right hli (Or.inr (by simp; omega))]

theorem findPath_ne_nil {n : Node} {key : String} {p : List Nat}
    (h : n.findPath key = .ok (some p)) : p ≠ [] := by
  cases n with
  | mk items children leaf =>
    rw [Node.findPath_mk] at h
    split at h
    · cases h; simp
    · split at h
      · cases h
      · split at h
        · cases h
        · cases h
        · cases h; simp

/-- The part of `Delete` after the search loop, along the path that the search
loop recorded. -/
theorem removeAt_ordered (key : String) (p : List Nat) :
    ∀ n n1 lo h, Balanced lo h n → Ordered n → n.findPath key = .ok (some p) →
      n.removeAt p = .ok n1 →
      Ordered n1 ∧ (∀ k ∈ n1.keys, k ∈ n.keys) ∧ (∀ k, k ≠ key → n1.get k = n.get k) := by
  induction p with
  | nil => intro n n1 lo h _ _ _ hr; simp [Node.removeAt] at hr
  | cons i rest ih =>
    intro n n1 lo h hb ho hf hr
    cases n with
    | mk items children leaf =>
      rw [Node.findPath_mk] at hf
      split at hf
      · next hk =>
        cases hf
        simp only [Node.removeAt] at hr
        obtain ⟨it, hit, hkey⟩ := keyAt_eq_true hk
        have := @removeItem_ordered lo h _ n1 _ it hb ho (by simpa using hit) hr
        rw [hkey] at this
        exact this
      · split at hf
        · cases hf
        · next hnl =>
          have hleaf : leaf = false := by simpa using hnl
          subst hleaf
          rw [findPathChild_eq] at hf
          cases hc : children[searchFrom key items 0]? with
          | none => rw [hc] at hf; simp at hf
          | some c =>
            rw [hc] at hf
            simp only at hf
            cases hfc : c.findPath key with
            | error e => rw [hfc] at hf; cases hf
            | ok r =>
              cases r with
              | none => rw [hfc] at hf; cases hf
              | some p1 =>
                rw [hfc] at hf
                simp only at hf
                cases hf
                have hne := findPath_ne_nil hfc
                cases rest with
                | nil => exact absurd rfl hne
                | cons j rest =>
                  simp only [Node.removeAt, Node.Children_mk, Node.Items_mk,
                    Node.IsLeaf_mk] at hr
                  rw [hc] at hr
                  simp only at hr
                  split at hr
                  · cases hr
                  · next c1 hrec =>
                    cases hr
                    have hlen : children.length = items.length + 1 := by
                      simpa using hb.children_length rfl
                    obtain ⟨h1, rfl⟩ := hb.internal_height
                    have hcm := List.getElem?_mem hc
                    obtain ⟨hbc, -, -⟩ := hb.child hcm
                    obtain ⟨ho1, hk1, hf1⟩ := ih c c1 lo h1 hbc (ho.child_ordered rfl hcm) hfc hrec
                    refine ⟨ho.set_child_ordered hc ho1 (fun k hk => Or.inl (hk1 k hk)), ?_, ?_⟩
                    · intro k hk
                      rcases mem_keys_set_child hlen hk with hk | hk
                      · rw [mem_keys_node hlen]
                        exact Or.inr ⟨c, hcm, hk1 k hk⟩
                      · exact hk
                    · intro k hk
                      exact get_set_child hc (hf1 k hk)

/-- `Delete` on a well-shaped ordered tree: the tree stays ordered and gains no
key. -/
theorem delete_ordered {lo : Nat} {t t1 : BTree} {key : String} {b : Bool}
    (hw : t.WellShaped lo) (ho : Ordered t.root) (hd : t.Delete key = .ok (b, t1)) :
    Ordered t1.root ∧ (∀ k ∈ t1.root.keys, k ∈ t.root.keys) ∧
      (∀ k, k ≠ key → t1.Get k = t.Get k) := by
  obtain ⟨h, hb, -⟩ := hw
  unfold BTree.Delete at hd
  split at hd
  · cases hd
  · cases hd; exact ⟨ho, fun k hk => hk, fun k _ => rfl⟩
  · next p hp =>
    split at hd
    · cases hd; exact ⟨ho, fun k hk => hk, fun k _ => rfl⟩
    · split at hd
      · cases hd
      · next r hr =>
        cases hd
        exact removeAt_ordered key p _ _ lo h hb ho hp hr

/-! ## Reachable trees are ordered -/

/-- Every tree reached from a well-shaped ordered tree by `Set` and `Delete`
calls is well-shaped and ordered. -/
theorem run_ordered (ops : List Op) :
    ∀ t t1 : BTree, t.WellShaped 0 → Ordered t.root → run t ops = .ok t1 →
      t1.WellShaped 0 ∧ Ordered t1.root := by
  induction ops with
  | nil => intro t t1 hw ho hr; cases hr; exact ⟨hw, ho⟩
  | cons op ops ih =>
    intro t t1 hw ho hr
    simp only [run] at hr
    split at hr
    · cases hr
    · next t2 happ =>
      cases op with
      | set k v =>
        simp only [BTree.apply] at happ
        obtain ⟨t3, hs3, hw3⟩ := set_wellShaped (Nat.zero_le _) t k v hw
        rw [happ] at hs3
        cases hs3
        exact ih t2 t1 hw3 (set_ordered (Nat.zero_le _) hw ho happ).1 hr
      | delete k =>
        simp only [BTree.apply] at happ
        split at happ
        · cases happ
        · next b t3 hd =>
          cases happ
          exact ih t2 t1 (delete_wellShaped hw hd) (delete_ordered hw ho hd).1 hr

theorem reachable_ordered {ops : List Op} {t : BTree} (hrun : run NewBTree ops = .ok t) :
    t.WellShaped 0 ∧ Ordered t.root :=
  run_ordered ops NewBTree t (newBTree_wellShaped 0) newBTree_ordered hrun

/-! ## Claims C1 to C5: round trip, order, delete -/

/-- C1, evaluated: after `Set` of "a" to "k" in order the right leaf is full with
"h" as its median; `Set("h", "2")` splits that leaf, which moves the old item of
"h" into the root, and then inserts a second item for "h" into the left half.
The following `Get("h")` returns the old value "1", not "2". -/
theorem set_get_returns_old_value :
    ∃ t t1, run NewBTree (sets elevenKeys) = .ok t ∧ t.Set "h" "2" = .ok t1 ∧
      t.Get "h" = .ok ("1", true) ∧ t1.Get "h" = .ok ("1", true) :=
  ⟨_, _, rfl, rfl, rfl, rfl⟩

/-- C2, evaluated: after `Set` of "a" to "k" in order and `Set("h", "2")`, `List()`
returns "h" twice, so the keys are not strictly ascending. -/
theorem list_repeats_key_after_set :
    ∃ t, run NewBTree (sets elevenKeys ++ [Op.set "h" "2"]) = .ok t ∧
      t.List = .ok ["a", "b", "c", "d", "e", "f", "g", "h", "h", "i", "j", "k"] :=
  ⟨_, rfl, rfl⟩

/-- C3, evaluated: in the tree with two items for "h" (after `Set` of "a" to "k"
and `Set("h", "2")`), `Get("h")` reports found and `Delete("h")` returns true, yet
the following `Get("h")` still reports found. -/
theorem delete_present_key_still_found :
    ∃ t t1, run NewBTree (sets elevenKeys ++ [Op.set "h" "2"]) = .ok t ∧
      t.Get "h" = .ok ("1", true) ∧ t.Delete "h" = .ok (true, t1) ∧
      t1.Get "h" = .ok ("2", true) :=
  ⟨_, _, rfl, rfl, rfl, rfl⟩

/-- C4: when `Get(k)` reports not found, `Delete(k)` returns false and the tree
it leaves is the tree it was given, node for node.  This holds for every tree,
reachable or not. -/
theorem delete_absent_key_unchanged (t : BTree) (key v : String)
    (h : t.Get key = .ok (v, false)) : t.Delete key = .ok (false, t) := by
  unfold BTree.Delete
  rw [findPath_of_get_absent t.root key v h]

/-- C4 at a concrete tree: "x" is absent after `Set` of "a" to "h". -/
theorem delete_absent_key_unchanged_witness :
    ∃ t, run NewBTree (sets eightKeys) = .ok t ∧ t.Get "x" = .ok ("", false) ∧
      t.Delete "x" = .ok (false, t) :=
  ⟨_, rfl, rfl, delete_absent_key_unchanged _ "x" "" rfl⟩

/-- C5, evaluated: after `Set` of "a" to "h" and `Delete` of "a", "b", "c" the left
leaf is empty; `Delete("d")` finds "d" in the root, reaches that empty leaf as
predecessor and reads its last item: index out of range. -/
theorem delete_panics_on_empty_predecessor :
    ∃ t, run NewBTree (sets eightKeys ++ deletes ["a", "b", "c"]) = .ok t ∧
      t.Get "d" = .ok ("1", true) ∧
      t.Delete "d" = .error Fault.indexOutOfRange :=
  ⟨_, rfl, rfl, rfl⟩

/-! ## Claim C6: balance under insertion -/

/-- C6: after any finite sequence of `Set` calls on a fresh tree the run has
returned a tree in which every leaf is at the same depth, every non-root node
holds between `degree - 1 = 3` and `2 * degree - 1 = 7` items, and the root
holds at most 7 items, at least 1 when it is internal. -/
theorem balance_after_sets (kvs : List (String × String)) :
    ∃ t, run NewBTree (sets kvs) = .ok t ∧ t.root.leavesLevel ∧ t.root.nonRootFill ∧
      t.root.Items.length ≤ 2 * degree - 1 ∧
      (t.root.IsLeaf = false → 1 ≤ t.root.Items.length) := by
  obtain ⟨t, hrun, h, hb, hle⟩ :=
    run_sets_wellShaped (le_refl _) kvs NewBTree (newBTree_wellShaped (degree - 1))
  refine ⟨t, hrun, ?_, hb.descendants_fill, hle, ?_⟩
  · intro a ha b hb1
    rw [hb.leafDepths_eq a ha, hb.leafDepths_eq b hb1]
  · exact hb.internal_nonempty

/-! ## Claims C7 and C8: deletion and the minimum-degree floor -/

/-- C7, evaluated: after `Set` of "a" to "h" every non-root node holds 3 to 7
items and the leaves are level; `Delete("a")` returns true and leaves the left
leaf with 2 items, below the floor of `degree - 1 = 3`. -/
theorem delete_breaks_minimum_degree_floor :
    ∃ t t1, run NewBTree (sets eightKeys) = .ok t ∧
      t.root.nonRootFill ∧ t.root.leavesLevel ∧
      t.Delete "a" = .ok (true, t1) ∧ ¬ t1.root.nonRootFill :=
  ⟨_, _, rfl, by decide, by decide, rfl, by decide⟩

/-- C8, evaluated: after `Set` of "a" to "h", deleting "a", "b", "c" succeeds and
leaves an internal root over an empty leaf; the fourth call, `Delete("d")`,
panics, so the run of all eight deletions does not complete. -/
theorem delete_all_does_not_shrink :
    (∃ t, run NewBTree (sets eightKeys ++ deletes ["a", "b", "c"]) = .ok t ∧
      t.root.IsLeaf = false ∧ (t.root.Children.map (fun c => c.Items.length)) = [0, 4]) ∧
    run NewBTree (sets eightKeys ++ deletes ["a", "b", "c", "d", "e", "f", "g", "h"])
      = .error Fault.indexOutOfRange :=
  ⟨⟨_, rfl, rfl, rfl⟩, rfl⟩

/-! ## Claim C9: growth boundary -/

/-- C9: for every list of `2 * degree = 8` pairs with pairwise distinct keys,
inserted in list order into a fresh tree: after each of the first 7 `Set` calls
the root is a leaf holding all items inserted so far (height 1); after the 8th
the root is an internal node with exactly one item over exactly two leaves that
hold the other 7 items (height 2), the tree holding exactly the inserted keys. -/
theorem growth_boundary (kvs : List (String × String)) (hlen : kvs.length = 2 * degree)
    (hnd : (kvs.map Prod.fst).Nodup) :
    (∀ j, j ≤ 2 * degree - 1 →
      ∃ items, run NewBTree (sets (kvs.take j)) = .ok ⟨.mk items [] true⟩ ∧
        items.length = j) ∧
    ∃ m l r, run NewBTree (sets kvs) = .ok ⟨.mk [m] [.mk l [] true, .mk r [] true] false⟩ ∧
      l.length + r.length = 2 * degree - 1 ∧
      ((l ++ m :: r).map Item.Key).Perm (kvs.map Prod.fst) := by
  have h8 : 2 * degree = 8 := rfl
  have h7 : 2 * degree - 1 = 7 := rfl
  have hleaf : ∀ j, j ≤ 2 * degree - 1 →
      ∃ items, run NewBTree (sets (kvs.take j)) = .ok ⟨.mk items [] true⟩ ∧
        items.length = j ∧ (items.map Item.Key).Perm ((kvs.take j).map Prod.fst) := by
    intro j hj
    have hsub : ((kvs.take j).map Prod.fst).Nodup :=
      hnd.sublist ((List.take_sublist j kvs).map _)
    obtain ⟨items, hrun, hl, hp⟩ := run_sets_leaf (kvs.take j) []
      (by simp only [List.length_nil, List.length_take]; omega) hsub (by simp)
    refine ⟨items, hrun, ?_, by simpa using hp⟩
    rw [hl]; simp only [List.length_nil, List.length_take]; omega
  refine ⟨fun j hj => ?_, ?_⟩
  · obtain ⟨items, hrun, hl, -⟩ := hleaf j hj
    exact ⟨items, hrun, hl⟩
  · obtain ⟨items, hrun, hl, hp⟩ := hleaf 7 (by omega)
    have hlt : 7 < kvs.length := by omega
    have hsplit : kvs = kvs.take 7 ++ [kvs[7]] := by
      have h1 := List.take_append_drop 7 kvs
      have h2 : kvs.drop 7 = [kvs[7]] := by
        rw [List.drop_eq_getElem_cons hlt, List.drop_eq_nil_of_le (by omega)]
      rw [h2] at h1
      exact h1.symm
    have hnd2 := hnd
    rw [hsplit, List.map_append, List.nodup_append] at hnd2
    have hk : (kvs[7]).1 ∉ items.map Item.Key := by
      intro hin
      have := hp.mem_iff.mp hin
      exact hnd2.2.2 this (by simp)
    obtain ⟨m, l, r, hset, hlr⟩ := set_full_leaf_root items (by omega) (kvs[7]).1 (kvs[7]).2 hk
    have hfull : run NewBTree (sets kvs) =
        .ok ⟨.mk [m] [.mk l [] true, .mk r [] true] false⟩ := by
      rw [hsplit, sets_append, run_append, hrun]
      simp only [sets, List.map_cons, List.map_nil, run, BTree.apply, hset]
    refine ⟨m, l, r, hfull, hlr, ?_⟩
    obtain ⟨t, hrun2, -, -, hp2⟩ := run_sets_sorted (le_refl (degree - 1)) kvs NewBTree
      (newBTree_wellShaped _) (by rw [newBTree_inorder]; exact List.Pairwise.nil) hnd
      (by intro k _; simp [newBTree_inorder])
    rw [hfull] at hrun2
    cases hrun2
    simpa [Node.inorder_mk, interleave, newBTree_inorder] using hp2

/-- C9 at the keys "a" to "h": the first seven calls leave a leaf root, the
eighth leaves the root ["d"] over the leaves ["a","b","c"] and
["e","f","g","h"]. -/
theorem growth_boundary_witness :
    eightKeys.length = 2 * degree ∧ (eightKeys.map Prod.fst).Nodup ∧
    ((∀ j, j ≤ 2 * degree - 1 →
      ∃ items, run NewBTree (sets (eightKeys.take j)) = .ok ⟨.mk items [] true⟩ ∧
        items.length = j) ∧
    ∃ m l r, run NewBTree (sets eightKeys) =
        .ok ⟨.mk [m] [.mk l [] true, .mk r [] true] false⟩ ∧
      l.length + r.length = 2 * degree - 1 ∧
      ((l ++ m :: r).map Item.Key).Perm (eightKeys.map Prod.fst)) :=
  ⟨by decide, by decide, growth_boundary eightKeys (by decide) (by decide)⟩

/-! ## Claim C10: List returns the stored keys, sorted -/

/-- C10: for every finite list of pairs with pairwise distinct keys, the `Set`
calls in list order on a fresh tree all return, and `List()` then returns the
inserted keys, each once (a permutation of them), in strictly ascending order
of `strings.Compare`; this is the list that sorting the keys gives. -/
theorem list_after_sets_sorted (kvs : List (String × String))
    (hnd : (kvs.map Prod.fst).Nodup) :
    ∃ t ks, run NewBTree (sets kvs) = .ok t ∧ t.List = .ok ks ∧
      ks.Pairwise (fun a b => stringsCompare a b < 0) ∧ ks.Perm (kvs.map Prod.fst) ∧
      ks = (kvs.map Prod.fst).insertionSort (fun a b => stringsCompare a b ≤ 0) := by
  obtain ⟨t, hrun, hw, hs, hp⟩ := run_sets_sorted (le_refl _) kvs NewBTree
    (newBTree_wellShaped _) (by rw [newBTree_inorder]; exact List.Pairwise.nil) hnd
    (by intro k _; simp [newBTree_inorder])
  rw [newBTree_inorder] at hp
  simp only [List.map_nil, List.nil_append] at hp
  have hsorted : (t.root.inorder.map Item.Key).Pairwise (fun a b => stringsCompare a b < 0) := by
    rw [List.pairwise_map]
    exact hs.imp (fun h => (stringsCompare_lt_zero _ _).mpr h)
  refine ⟨t, _, hrun, BTree.List_eq hw, hsorted, hp, ?_⟩
  haveI : IsTotal String (fun a b => stringsCompare a b ≤ 0) :=
    ⟨fun a b => by
      rcases le_total a b with h | h
      · exact Or.inl ((stringsCompare_le_zero _ _).mpr h)
      · exact Or.inr ((stringsCompare_le_zero _ _).mpr h)⟩
  haveI : IsTrans String (fun a b => stringsCompare a b ≤ 0) :=
    ⟨fun a b c h1 h2 => (stringsCompare_le_zero _ _).mpr
      (le_trans ((stringsCompare_le_zero _ _).mp h1) ((stringsCompare_le_zero _ _).mp h2))⟩
  haveI : IsAntisymm String (fun a b => stringsCompare a b ≤ 0) :=
    ⟨fun a b h1 h2 => le_antisymm ((stringsCompare_le_zero _ _).mp h1)
      ((stringsCompare_le_zero _ _).mp h2)⟩
  refine List.eq_of_perm_of_sorted (hp.trans (List.perm_insertionSort _ _).symm) ?_
    (List.sorted_insertionSort _ _)
  exact hsorted.imp (fun h => by
    have := (stringsCompare_lt_zero _ _).mp h
    exact (stringsCompare_le_zero _ _).mpr (le_of_lt this))

/-- C10 at the keys "a" to "h" inserted in order: `List()` returns
"a", "b", ..., "h". -/
theorem list_after_sets_sorted_witness :
    (eightKeys.map Prod.fst).Nodup ∧
    (∃ t ks, run NewBTree (sets eightKeys) = .ok t ∧ t.List = .ok ks ∧
      ks.Pairwise (fun a b => stringsCompare a b < 0) ∧ ks.Perm (eightKeys.map Prod.fst) ∧
      ks = (eightKeys.map Prod.fst).insertionSort (fun a b => stringsCompare a b ≤ 0)) ∧
    (∃ t, run NewBTree (sets eightKeys) = .ok t ∧
      t.List = .ok ["a", "b", "c", "d", "e", "f", "g", "h"]) :=
  ⟨by decide, list_after_sets_sorted eightKeys (by decide), ⟨_, rfl, rfl⟩⟩

/-! ## Claims C13 and C14: the adapter and search -/

/-- C13: on the empty key `Get`, `Set` and `Delete` of the engine return
`ErrEmptyKey` and the engine (hence its tree) is the one given, whatever the
core would do; on a non-empty key `Get` returns `ErrKeyNotFound` exactly when
the core reports not found and otherwise the core's value with a nil error,
and `Delete` returns `ErrKeyNotFound` exactly when the core returns false and
nil otherwise, the tree being the one the core leaves. -/
theorem engine_error_mapping (e : BTreeEngine) (key value : String) (hkey : key ≠ "") :
    e.Get "" = .ok ("", some .ErrEmptyKey) ∧
    e.Set "" value = .ok (some .ErrEmptyKey, e) ∧
    e.Delete "" = .ok (some .ErrEmptyKey, e) ∧
    (∀ v found, e.tree.Get key = .ok (v, found) →
      e.Get key = .ok (if found then (v, none) else ("", some .ErrKeyNotFound))) ∧
    (∀ found t1, e.tree.Delete key = .ok (found, t1) →
      e.Delete key = .ok (if found then none else some .ErrKeyNotFound, ⟨t1⟩)) := by
  refine ⟨rfl, rfl, rfl, ?_, ?_⟩
  · intro v found h
    unfold BTreeEngine.Get
    rw [if_neg hkey, h]
    cases found <;> rfl
  · intro found t1 h
    unfold BTreeEngine.Delete
    rw [if_neg hkey, h]
    cases found <;> rfl

/-- C13 at the engine holding "a" to "h", for the stored key "d" and the absent
key "x". -/
theorem engine_error_mapping_witness :
    ∃ t, run NewBTree (sets eightKeys) = .ok t ∧
      (BTreeEngine.mk t).Get "d" = .ok ("1", none) ∧
      (BTreeEngine.mk t).Get "x" = .ok ("", some .ErrKeyNotFound) ∧
      (BTreeEngine.mk t).Delete "x" = .ok (some .ErrKeyNotFound, ⟨t⟩) ∧
      ("d" ≠ "" ∧
        (BTreeEngine.mk t).Get "" = .ok ("", some .ErrEmptyKey) ∧
        (BTreeEngine.mk t).Set "" "v" = .ok (some .ErrEmptyKey, ⟨t⟩) ∧
        (BTreeEngine.mk t).Delete "" = .ok (some .ErrEmptyKey, ⟨t⟩) ∧
        (∀ v found, (BTreeEngine.mk t).tree.Get "d" = .ok (v, found) →
          (BTreeEngine.mk t).Get "d" =
            .ok (if found then (v, none) else ("", some .ErrKeyNotFound))) ∧
        (∀ found t1, (BTreeEngine.mk t).tree.Delete "d" = .ok (found, t1) →
          (BTreeEngine.mk t).Delete "d" =
            .ok (if found then none else some .ErrKeyNotFound, ⟨t1⟩))) :=
  ⟨_, rfl, rfl, rfl, rfl, by decide, engine_error_mapping _ "d" "v" (by decide)⟩

/-- C14: `search` returns an index `i` in `[0, len(items)]` such that every item
before `i` has a key strictly below `key` (`key` is not `<=` it), the item at
`i`, when there is one, has `key <=` its key, and `i = len(items)` exactly when
no item has `key <=` its key: `i` is the smallest index with
`key <= items[i].key`, or `len(items)`.  No order of the items is needed. -/
theorem search_contract (n : Node) (key : String) :
    n.search key ≤ n.Items.length ∧
    (∀ j it, j < n.search key → n.Items[j]? = some it →
      ¬ stringsCompare key it.Key ≤ 0 ∧ stringsCompare it.Key key < 0) ∧
    (∀ it, n.Items[n.search key]? = some it → stringsCompare key it.Key ≤ 0) ∧
    (n.search key = n.Items.length ↔ ∀ it ∈ n.Items, ¬ stringsCompare key it.Key ≤ 0) := by
  unfold Node.search
  obtain ⟨-, h2, h3⟩ := searchFrom_spec key n.Items 0
  have hle : searchFrom key n.Items 0 ≤ n.Items.length := by
    have := searchFrom_le key n.Items 0; omega
  have hbefore : ∀ j it, j < searchFrom key n.Items 0 → n.Items[j]? = some it →
      ¬ stringsCompare key it.Key ≤ 0 ∧ stringsCompare it.Key key < 0 := by
    intro j it hj hit
    have hlt := h2 j it hit (by omega)
    exact ⟨fun h => not_le_of_lt hlt ((stringsCompare_le_zero _ _).mp h),
      (stringsCompare_lt_zero _ _).mpr hlt⟩
  have hat : ∀ it, n.Items[searchFrom key n.Items 0]? = some it →
      stringsCompare key it.Key ≤ 0 := by
    intro it hit
    exact (stringsCompare_le_zero _ _).mpr (h3 it (by simpa using hit))
  refine ⟨hle, hbefore, hat, ?_⟩
  constructor
  · intro heq it hit
    obtain ⟨j, hj⟩ := List.getElem?_of_mem hit
    have hjl := lt_length_of_getElem? hj
    exact (hbefore j it (by omega) hj).1
  · intro hall
    by_contra hne
    have hlt : searchFrom key n.Items 0 < n.Items.length := by omega
    exact hall _ (List.getElem_mem hlt) (hat _ (List.getElem?_eq_getElem hlt))

/-! ## Claims C15 and C16: splitChild -/

/-- C15: for a parent with `i <= len(items)` (true whenever it has one child
more than items) whose child `i` holds exactly `2 * degree - 1 = 7` items (and
8 children if internal), `splitChild(i)` returns; the child keeps its first 3
items (and first 4 children), a new sibling with the same leaf flag holds the
last 3 items (and last 4 children), the former `items[3]` of the child is the
parent's item at `i`, the sibling is the parent's child at `i + 1`, and the
parent has otherwise the same items and children in the same order, one more
of each. -/
theorem splitChild_shape (items : List Item) (children : List Node) (leaf : Bool) (i : Nat)
    (c : Node) (hc : children[i]? = some c) (hfull : c.Items.length = 2 * degree - 1)
    (hcount : c.IsLeaf = false → c.Children.length = 2 * degree) (hi : i ≤ items.length) :
    ∃ m kept sibling n1, c.Items[degree - 1]? = some m ∧
      Node.splitChild (.mk items children leaf) i = .ok n1 ∧
      kept.Items = c.Items.take (degree - 1) ∧ kept.Items.length = degree - 1 ∧
      kept.IsLeaf = c.IsLeaf ∧
      (c.IsLeaf = true → kept.Children = c.Children) ∧
      (c.IsLeaf = false → kept.Children = c.Children.take degree ∧
        kept.Children.length = degree) ∧
      sibling.Items = c.Items.drop degree ∧ sibling.Items.length = degree - 1 ∧
      sibling.IsLeaf = c.IsLeaf ∧
      (c.IsLeaf = true → sibling.Children = []) ∧
      (c.IsLeaf = false → sibling.Children = c.Children.drop degree ∧
        sibling.Children.length = degree) ∧
      n1.Items[i]? = some m ∧ n1.Children[i]? = some kept ∧
      n1.Children[i + 1]? = some sibling ∧
      n1.Items = items.take i ++ m :: items.drop i ∧
      n1.Children = children.take i ++ kept :: sibling :: children.drop (i + 1) ∧
      n1.IsLeaf = leaf ∧
      n1.Items.length = items.length + 1 ∧ n1.Children.length = children.length + 1 := by
  have h8 : 2 * degree = 8 := rfl
  have h7 : 2 * degree - 1 = 7 := rfl
  have h3 : degree - 1 = 3 := rfl
  have h4 : degree = 4 := rfl
  obtain ⟨m, hm, hs⟩ := splitChild_eq items children leaf i c hc hfull hi
    (fun hl => by rw [hcount hl]; omega)
  have hlt := lt_length_of_getElem? hc
  refine ⟨m, c.lowerHalf, c.upperHalf, _, hm, hs, ?_, ?_, ?_, ?_, ?_, ?_, ?_, ?_, ?_, ?_,
    ?_, ?_, ?_, rfl, rfl, rfl, ?_, ?_⟩
  · simp [Node.lowerHalf]
  · simp [Node.lowerHalf, hfull, h3, h7]
  · simp [Node.lowerHalf]
  · intro hl; simp [Node.lowerHalf, hl]
  · intro hl; simp [Node.lowerHalf, hl, hcount hl, h4]
  · simp [Node.upperHalf]
  · simp [Node.upperHalf, hfull, h4]
  · simp [Node.upperHalf]
  · intro hl; simp [Node.upperHalf, hl]
  · intro hl; simp [Node.upperHalf, hl, hcount hl, h4]
  · exact getElem?_take_append_self items i m _ hi
  · exact getElem?_take_append_self children i _ _ (by omega)
  · exact getElem?_take_append_succ children i _ _ _ (by omega)
  · simp only [Node.Items_mk, List.length_append, List.length_cons, List.length_take,
      List.length_drop]
    omega
  · simp only [Node.Children_mk, List.length_append, List.length_cons, List.length_take,
      List.length_drop]
    omega

/-- C15 at the root ["d"] over the leaves ["a","b","c"] and ["e",...,"k"], split
at child 1: the median "h" enters the root at 1, the leaf keeps "e","f","g", the
sibling holds "i","j","k". -/
theorem splitChild_shape_witness :
    ∃ m kept sibling n1,
      Node.splitChild (.mk [⟨"d", "1"⟩]
        [.mk [⟨"a", "1"⟩, ⟨"b", "1"⟩, ⟨"c", "1"⟩] [] true,
         .mk [⟨"e", "1"⟩, ⟨"f", "1"⟩, ⟨"g", "1"⟩, ⟨"h", "1"⟩, ⟨"i", "1"⟩, ⟨"j", "1"⟩,
           ⟨"k", "1"⟩] [] true] false) 1 = .ok n1 ∧
      m = ⟨"h", "1"⟩ ∧
      kept.Items = [⟨"e", "1"⟩, ⟨"f", "1"⟩, ⟨"g", "1"⟩] ∧
      sibling.Items = [⟨"i", "1"⟩, ⟨"j", "1"⟩, ⟨"k", "1"⟩] ∧
      n1.Items[1]? = some m ∧ n1.Children[1]? = some kept ∧
      n1.Children[2]? = some sibling ∧
      n1.Items.length = 2 ∧ n1.Children.length = 3 := by
  obtain ⟨m, kept, sibling, n1, hm, hs, hk1, -, -, -, -, hs1, -, -, -, -, h1, h2, h3,
      -, -, -, h4, h5⟩ :=
    splitChild_shape [⟨"d", "1"⟩]
      [.mk [⟨"a", "1"⟩, ⟨"b", "1"⟩, ⟨"c", "1"⟩] [] true,
       .mk [⟨"e", "1"⟩, ⟨"f", "1"⟩, ⟨"g", "1"⟩, ⟨"h", "1"⟩, ⟨"i", "1"⟩, ⟨"j", "1"⟩,
         ⟨"k", "1"⟩] [] true] false 1
      (.mk [⟨"e", "1"⟩, ⟨"f", "1"⟩, ⟨"g", "1"⟩, ⟨"h", "1"⟩, ⟨"i", "1"⟩, ⟨"j", "1"⟩,
         ⟨"k", "1"⟩] [] true) rfl (by decide) (by decide) (by decide)
  exact ⟨m, kept, sibling, n1, hs, (Option.some.inj hm).symm, hk1, hs1, h1, h2, h3, h4, h5⟩

/-- C16: for an internal parent with `i <= len(items)` whose child `i` is full
(7 items, and 8 children if internal), `splitChild(i)` returns a node with the
same in-order sequence of items; hence if the keys of the subtree were
strictly ascending they still are, and if all leaves were at the same depth
they still are (the leaves of the result lie at the depths of the leaves
before). -/
theorem splitChild_preserves (items : List Item) (children : List Node) (i : Nat) (c : Node)
    (hc : children[i]? = some c) (hfull : c.Items.length = 2 * degree - 1)
    (hcount : c.IsLeaf = false → c.Children.length = 2 * degree) (hi : i ≤ items.length) :
    ∃ n1, Node.splitChild (.mk items children false) i = .ok n1 ∧
      n1.inorder = (Node.mk items children false).inorder ∧
      ((Node.mk items children false).strictlyOrdered → n1.strictlyOrdered) ∧
      (∀ d, d ∈ n1.leafDepths ↔ d ∈ (Node.mk items children false).leafDepths) ∧
      ((Node.mk items children false).leavesLevel → n1.leavesLevel) := by
  have h8 : 2 * degree = 8 := rfl
  obtain ⟨m, hm, hs⟩ := splitChild_eq items children false i c hc hfull hi
    (fun hl => by rw [hcount hl]; omega)
  have hlt := lt_length_of_getElem? hc
  have hio : (Node.mk (items.take i ++ m :: items.drop i)
      (children.take i ++ c.lowerHalf :: c.upperHalf :: children.drop (i + 1)) false).inorder =
      (Node.mk items children false).inorder := by
    simp only [Node.inorder_mk, Bool.false_eq_true, if_false]
    rw [interleave_splitChild items children i m _ _ hlt hi,
      interleave_split items children i c hc hi, inorder_halves_of_count hfull hcount m hm]
    simp
  have hld : ∀ d, d ∈ (Node.mk (items.take i ++ m :: items.drop i)
      (children.take i ++ c.lowerHalf :: c.upperHalf :: children.drop (i + 1)) false).leafDepths ↔
      d ∈ (Node.mk items children false).leafDepths := by
    intro d
    simp only [Node.leafDepths, Bool.false_eq_true, if_false, List.mem_map]
    have hcs : children = children.take i ++ c :: children.drop (i + 1) := eq_take_cons_drop hc
    have key : ∀ e, e ∈ leafDepthsList (children.take i ++ c.lowerHalf :: c.upperHalf ::
        children.drop (i + 1)) ↔ e ∈ leafDepthsList children := by
      intro e
      conv_rhs => rw [hcs]
      have := mem_leafDepths_halves (c := c) e
      simp only [List.mem_append] at this
      simp only [leafDepthsList_append, leafDepthsList, List.mem_append]
      constructor
      · rintro (h | h | h | h)
        · exact Or.inl h
        · exact Or.inr (Or.inl (this.mp (Or.inl h)))
        · exact Or.inr (Or.inl (this.mp (Or.inr h)))
        · exact Or.inr (Or.inr h)
      · rintro (h | h | h)
        · exact Or.inl h
        · rcases this.mpr h with h | h
          · exact Or.inr (Or.inl h)
          · exact Or.inr (Or.inr (Or.inl h))
        · exact Or.inr (Or.inr (Or.inr h))
    constructor
    · rintro ⟨e, he, rfl⟩; exact ⟨e, (key e).mp he, rfl⟩
    · rintro ⟨e, he, rfl⟩; exact ⟨e, (key e).mpr he, rfl⟩
  refine ⟨_, hs, hio, ?_, hld, ?_⟩
  · intro h
    unfold Node.strictlyOrdered at h ⊢
    rw [hio]; exact h
  · intro h a ha b hb
    exact h a ((hld a).mp ha) b ((hld b).mp hb)

/-- C16 at the root ["d"] over the leaves ["a","b","c"] and ["e",...,"k"], split
at child 1. -/
theorem splitChild_preserves_witness :
    ∃ n1, Node.splitChild (.mk [⟨"d", "1"⟩]
        [.mk [⟨"a", "1"⟩, ⟨"b", "1"⟩, ⟨"c", "1"⟩] [] true,
         .mk [⟨"e", "1"⟩, ⟨"f", "1"⟩, ⟨"g", "1"⟩, ⟨"h", "1"⟩, ⟨"i", "1"⟩, ⟨"j", "1"⟩,
           ⟨"k", "1"⟩] [] true] false) 1 = .ok n1 ∧
      n1.inorder.map Item.Key = ["a", "b", "c", "d", "e", "f", "g", "h", "i", "j", "k"] ∧
      n1.strictlyOrdered ∧ n1.leavesLevel := by
  obtain ⟨n1, hs, hio, hso, -, hll⟩ :=
    splitChild_preserves [⟨"d", "1"⟩]
      [.mk [⟨"a", "1"⟩, ⟨"b", "1"⟩, ⟨"c", "1"⟩] [] true,
       .mk [⟨"e", "1"⟩, ⟨"f", "1"⟩, ⟨"g", "1"⟩, ⟨"h", "1"⟩, ⟨"i", "1"⟩, ⟨"j", "1"⟩,
         ⟨"k", "1"⟩] [] true] 1
      (.mk [⟨"e", "1"⟩, ⟨"f", "1"⟩, ⟨"g", "1"⟩, ⟨"h", "1"⟩, ⟨"i", "1"⟩, ⟨"j", "1"⟩,
         ⟨"k", "1"⟩] [] true) rfl (by decide) (by decide) (by decide)
  exact ⟨n1, hs, by rw [hio]; rfl, hso (by decide), hll (by decide)⟩

/-! ## Claims C12 and C17: Set never fails, child counts -/

/-- C12: on every tree reached from `NewBTree()` by a sequence of `Set` and
`Delete` calls, `Set` returns for every key and value (no index out of range,
hence a nil error), and every node it hands to `insertNonFull`, at the top or
in the recursion, holds fewer than `2 * degree - 1 = 7` items (`splitChild`
being applied, by its guard, only to children with exactly 7 items). -/
theorem set_never_fails (ops : List Op) (t : BTree) (key value : String)
    (hrun : run NewBTree ops = .ok t) :
    (∃ t1, t.Set key value = .ok t1) ∧
    ∀ x, t.SetHands key x → x.Items.length < 2 * degree - 1 := by
  have hw := run_wellShaped ops NewBTree t (newBTree_wellShaped 0) hrun
  obtain ⟨t1, hs, -⟩ := set_wellShaped (Nat.zero_le _) t key value hw
  exact ⟨⟨t1, hs⟩, fun x hx => setHands_not_full (Nat.zero_le _) hw key x hx⟩

/-- C12 at the tree left by `Set` of "a" to "h" and `Delete` of "a", "b", "c",
whose left leaf is empty: `Set("a", "2")` returns. -/
theorem set_never_fails_witness :
    ∃ t, run NewBTree (sets eightKeys ++ deletes ["a", "b", "c"]) = .ok t ∧
      (∃ t1, t.Set "a" "2" = .ok t1) ∧
      ∀ x, t.SetHands "a" x → x.Items.length < 2 * degree - 1 :=
  ⟨_, rfl, set_never_fails (sets eightKeys ++ deletes ["a", "b", "c"]) _ "a" "2" rfl⟩

/-- C17: in every tree reached from `NewBTree()` by a sequence of `Set` and
`Delete` calls, every node (the root and all nodes below it) that is a leaf has
no children and every internal node has exactly `len(items) + 1` children. -/
theorem child_count_invariant (ops : List Op) (t : BTree)
    (hrun : run NewBTree ops = .ok t) :
    ∀ x ∈ t.root :: t.root.descendants,
      (x.IsLeaf = true → x.Children = []) ∧
      (x.IsLeaf = false → x.Children.length = x.Items.length + 1) := by
  obtain ⟨h, hb, -⟩ := run_wellShaped ops NewBTree t (newBTree_wellShaped 0) hrun
  exact hb.count_all

/-- C17 at the tree left by `Set` of "a" to "k" and `Delete` of "d" and "a". -/
theorem child_count_invariant_witness :
    ∃ t, run NewBTree (sets elevenKeys ++ deletes ["d", "a"]) = .ok t ∧
      ∀ x ∈ t.root :: t.root.descendants,
        (x.IsLeaf = true → x.Children = []) ∧
        (x.IsLeaf = false → x.Children.length = x.Items.length + 1) :=
  ⟨_, rfl, child_count_invariant (sets elevenKeys ++ deletes ["d", "a"]) _ rfl⟩

/-! ## Claim C11: overwrite and shape -/

/-- C11, as amended: for every tree reached by `Set` calls and every key whose
item `Set` reaches without meeting a full node (the root and every node on the
search path down to the item hold fewer than `2 * degree - 1 = 7` items),
`Set(k, v)` returns a tree of the same form (same leaf flags, same keys at the
same positions in every node, same children structure), of the same height,
whose in-order items are those of before with the value of one item of key `k`
replaced by `v`. -/
theorem overwrite_keeps_shape (kvs : List (String × String)) (t : BTree) (key value : String)
    (hrun : run NewBTree (sets kvs) = .ok t) (hroom : t.root.roomOnPath key = true) :
    ∃ t1, t.Set key value = .ok t1 ∧ t.root.sameShape t1.root = true ∧
      t1.root.height = t.root.height ∧
      ∃ l1 old l2, t.root.inorder = l1 ++ ⟨key, old⟩ :: l2 ∧
        t1.root.inorder = l1 ++ ⟨key, value⟩ :: l2 := by
  obtain ⟨t0, hrun0, h, hb, hle⟩ :=
    run_sets_wellShaped (le_refl _) kvs NewBTree (newBTree_wellShaped (degree - 1))
  rw [hrun] at hrun0
  cases hrun0
  have hnf : t.root.Items.length ≠ 2 * degree - 1 := roomOnPath_not_full hroom
  obtain ⟨n1, hins, hsh, hio⟩ :=
    insertNonFull_overwrite key value t.root.height h t.root _ hb hb.le_height hroom
  refine ⟨⟨n1⟩, ?_, hsh, (Node.height_eq_of_sameShape _ _ hsh).symm, hio⟩
  unfold BTree.Set
  simp only [if_neg hnf, hins]

/-- C11 at the tree holding "a" to "h": `Set("f", "2")` keeps the form. -/
theorem overwrite_keeps_shape_witness :
    ∃ t, run NewBTree (sets eightKeys) = .ok t ∧ t.root.roomOnPath "f" = true ∧
      ∃ t1, t.Set "f" "2" = .ok t1 ∧ t.root.sameShape t1.root = true ∧
        t1.root.height = t.root.height ∧
        ∃ l1 old l2, t.root.inorder = l1 ++ ⟨"f", old⟩ :: l2 ∧
          t1.root.inorder = l1 ++ ⟨"f", "2"⟩ :: l2 :=
  ⟨_, rfl, rfl, overwrite_keeps_shape eightKeys _ "f" "2" rfl rfl⟩

/-- C11 as stated fails: after `Set` of "a" to "g" the root is a full leaf holding
"a"; `Set("a", "2")` splits the root before it looks for the key, so the tree
goes from one leaf of height 1 to a root over two leaves, of height 2. -/
theorem overwrite_splits_full_root :
    ∃ t t1, run NewBTree (sets (elevenKeys.take 7)) = .ok t ∧
      t.Get "a" = .ok ("1", true) ∧ t.Set "a" "2" = .ok t1 ∧
      t.root.sameShape t1.root = false ∧
      t.root.height = 1 ∧ t1.root.height = 2 ∧
      t.root.Items.length = 7 ∧ t1.root.Items.length = 1 :=
  ⟨_, _, rfl, rfl, rfl, rfl, rfl, rfl, rfl, rfl⟩

/-! ## Claim C18: Set leaves other keys alone -/

/-- C18: on every tree reached from `NewBTree()` by `Set` calls, `Set(k, v)`
returns, and for every key `k1` other than `k` the call `Get(k1)` returns the
same (value, found) pair after the `Set` as before it.  Splits of the root or of
nodes on the path are covered: nothing is assumed on the tree but that `Set`
calls built it. -/
theorem set_keeps_other_keys (kvs : List (String × String)) (t : BTree) (k v k1 : String)
    (hrun : run NewBTree (sets kvs) = .ok t) (hne : k1 ≠ k) :
    ∃ t1 r, t.Set k v = .ok t1 ∧ t.Get k1 = .ok r ∧ t1.Get k1 = .ok r := by
  obtain ⟨hw, ho⟩ := reachable_ordered hrun
  obtain ⟨t1, hs, -⟩ := set_wellShaped (Nat.zero_le _) t k v hw
  obtain ⟨-, -, hf⟩ := set_ordered (Nat.zero_le _) hw ho hs
  obtain ⟨h, hb, -⟩ := hw
  obtain ⟨val, found, hg⟩ := hb.get_total k1
  exact ⟨t1, (val, found), hs, hg, by rw [hf k1 hne]; exact hg⟩

/-- C18 at the tree holding "a" to "k", whose right leaf is full: `Set("h", "2")`
splits that leaf on its way down, and `Get("g")` returns the same pair before and
after. -/
theorem set_keeps_other_keys_witness :
    ∃ t, run NewBTree (sets elevenKeys) = .ok t ∧
      ∃ t1 r, t.Set "h" "2" = .ok t1 ∧ t.Get "g" = .ok r ∧ t1.Get "g" = .ok r :=
  ⟨_, rfl, set_keeps_other_keys elevenKeys _ "h" "2" "g" rfl (by decide)⟩

/-! ## Claim C19: Get agrees with List -/

/-- C19: a fresh tree has an empty `List()` and `Get` reports not found for
every key; and on every tree reached from `NewBTree()` by a sequence of `Set` and
`Delete` calls, `Get(k)` and `List()` return and `Get(k)` reports found exactly
when `k` occurs in `List()`. -/
theorem get_agrees_with_list (ops : List Op) (t : BTree) (k : String)
    (hrun : run NewBTree ops = .ok t) :
    (NewBTree.List = .ok [] ∧ NewBTree.Get k = .ok ("", false)) ∧
    ∃ v found ks, t.Get k = .ok (v, found) ∧ t.List = .ok ks ∧ (found = true ↔ k ∈ ks) := by
  refine ⟨⟨rfl, rfl⟩, ?_⟩
  obtain ⟨hw, ho⟩ := reachable_ordered hrun
  obtain ⟨h, hb, -⟩ := hw
  obtain ⟨val, found, hg⟩ := hb.get_total k
  refine ⟨val, found, _, hg, hb.traverse_eq, ?_⟩
  constructor
  · intro hf
    subst hf
    exact hb.get_found_mem k val hg
  · intro hk
    obtain ⟨v1, hg1⟩ := ho.get_of_mem hb hk
    have : t.root.get k = .ok (val, found) := hg
    rw [hg1] at this
    cases this
    rfl

/-- C19 at the tree left by `Set` of "a" to "k", `Set("h", "2")` (which stores a
second item for "h") and `Delete("d")`: "h" is found and listed, "d" is neither. -/
theorem get_agrees_with_list_witness :
    ∃ t, run NewBTree (sets elevenKeys ++ [Op.set "h" "2"] ++ deletes ["d"]) = .ok t ∧
      ((NewBTree.List = .ok [] ∧ NewBTree.Get "h" = .ok ("", false)) ∧
        ∃ v found ks, t.Get "h" = .ok (v, found) ∧ t.List = .ok ks ∧
          (found = true ↔ "h" ∈ ks)) ∧
      t.Get "h" = .ok ("1", true) ∧ t.Get "d" = .ok ("", false) ∧
      t.List = .ok ["a", "b", "c", "e", "f", "g", "h", "h", "i", "j", "k"] :=
  ⟨_, rfl,
    get_agrees_with_list (sets elevenKeys ++ [Op.set "h" "2"] ++ deletes ["d"]) _ "h" rfl,
    rfl, rfl, rfl⟩

/-! ## Claim C20: Delete leaves other keys alone -/

/-- C20: on every tree reached from `NewBTree()` by a sequence of `Set` and
`Delete` calls, when `Delete(k)` returns true then for every key `k1` other than
`k` the call `Get(k1)` returns the same (value, found) pair after the `Delete` as
before it.  The case of a key in an internal node, replaced by its predecessor
taken from a leaf, is covered. -/
theorem delete_keeps_other_keys (ops : List Op) (t t1 : BTree) (k k1 : String)
    (hrun : run NewBTree ops = .ok t) (hdel : t.Delete k = .ok (true, t1)) (hne : k1 ≠ k) :
    ∃ r, t.Get k1 = .ok r ∧ t1.Get k1 = .ok r := by
  obtain ⟨hw, ho⟩ := reachable_ordered hrun
  obtain ⟨-, -, hf⟩ := delete_ordered hw ho hdel
  obtain ⟨h, hb, -⟩ := hw
  obtain ⟨val, found, hg⟩ := hb.get_total k1
  exact ⟨(val, found), hg, by rw [hf k1 hne]; exact hg⟩

/-- C20 at the tree holding "a" to "k", whose root holds "d": `Delete("d")` puts
the predecessor "c", taken from the left leaf, in the place of "d"; `Get("c")`
returns ("1", true) before and after. -/
theorem delete_keeps_other_keys_witness :
    ∃ t t1, run NewBTree (sets elevenKeys) = .ok t ∧ t.Delete "d" = .ok (true, t1) ∧
      t.root.Items.map Item.Key = ["d"] ∧ t1.root.Items.map Item.Key = ["c"] ∧
      (∃ r, t.Get "c" = .ok r ∧ t1.Get "c" = .ok r) ∧ t1.Get "c" = .ok ("1", true) :=
  ⟨_, _, rfl, rfl, rfl, rfl,
    delete_keeps_other_keys (sets elevenKeys) _ _ "d" "c" rfl rfl (by decide), rfl⟩

end RapidStore
